import Mathlib

/-!
# Verification of the AVL+ page engine (`src/avl/avl_3.go`)

This file shallowly embeds the parts of the AVL+ page engine of
`AlexeyAkhunov/turbo-geth-archive` that the claims refer to, and proves or
refutes each claim.

Conventions of the embedding:

* Go `[]byte` values (keys and values) are `List Nat`.
* Go `uint32`/`uint64` quantities are `Nat`; where the source subtracts
  unsigned integers the code paths in question only subtract a smaller value
  from a larger one (the Go code guards `rHeight > lHeight` before computing
  `rHeight - lHeight`, etc.), so `Nat` subtraction agrees with the wrapped
  subtraction of the source on those paths.
* A fresh in-memory engine (`NewAvl3`, no files) never creates `Arrow3`
  nodes before the first `Commit` (arrows are created only by `Commit`,
  `deserialisePage`, `moveArrowOverFork` and `moveArrowOverLeaf`), all
  `arrow` fields are `nil` and all `pinnedPageId` fields are `0`, and
  `valueId` stays `0` on every leaf, so `nvalue` is the inline `value`
  field.  The tree algorithms (`Get`, `Insert`, `insert`, `Delete`,
  `delete`) are therefore embedded on an arrow-free tree type `Tree` with
  exactly the constructors `Leaf3` and `Fork3`; `Peel` is the identity on
  leaves and forks and `IsLeaf` is a plain pattern match.
  The page serializer, which does handle arrows and pins, is embedded
  separately below on the type `SNode`.
-/

namespace Avl3

/-- Byte strings (`[]byte` in the source). -/
abbrev Bytes := List Nat

/-- `bytes.Compare` from the Go standard library (the engine's default
`compare`): lexicographic comparison returning -1, 0 or 1. -/
def bytesCompare : Bytes → Bytes → Int
  | [], [] => 0
  | [], _ :: _ => -1
  | _ :: _, [] => 1
  | a :: as, b :: bs =>
    if a < b then -1 else if b < a then 1 else bytesCompare as bs

/-- Modelled from the spec: the helper `maxu32` is defined outside `src/`;
the tree code uses it as the larger of two `uint32` heights. -/
def maxu32 (a b : Nat) : Nat := max a b

/-- The arrow-free in-memory tree fragment: constructors correspond to
`Leaf3` (key, inline value) and `Fork3` (height, left, right, max). -/
inductive Tree where
  | leaf (key value : Bytes)
  | fork (height : Nat) (left right : Tree) (max : Bytes)
deriving DecidableEq, Repr

/-- `getmax` of `Leaf3` (its key) and of `Fork3` (its `max` field). -/
def Tree.getmax : Tree → Bytes
  | .leaf k _ => k
  | .fork _ _ _ m => m

/-- `getheight` of `Leaf3` (always 1) and of `Fork3` (its `height` field). -/
def Tree.getheight : Tree → Nat
  | .leaf _ _ => 1
  | .fork h _ _ _ => h

/-- `IsLeaf` on the arrow-free fragment (the `Arrow3` loop of the source
never runs). -/
def isLeafT : Tree → Bool
  | .leaf _ _ => true
  | .fork _ _ _ _ => false

/-- `Avl3.Get` (lines 405-443): iterative descent.  On a `Fork3` the key is
compared with `n.left.getmax()`; cases 0 and -1 go left, case 1 goes right.
On a `Leaf3`, `bytes.Equal` decides; `nvalue` is the inline value because
`valueId = 0` on the fresh-engine fragment. -/
def getT : Tree → Bytes → Option Bytes
  | .leaf k v, key => if key = k then some v else none
  | .fork _ l r _, key =>
    if bytesCompare key l.getmax = 1 then getT r key else getT l key

/-- `Avl3.Get` including the `nil` root case. -/
def getE : Option Tree → Bytes → Option Bytes
  | none, _ => none
  | some t, key => getT t key

/-- The rebalancing tail of `Avl3.insert` on a `Fork3` (lines 657-748),
starting from the already-updated children `l1`, `r1` and max `m1`.
`key` is the key being inserted (used by the `nl.max` adjustment of the
single left-to-right rotation, line 722). -/
def insBalance (key : Bytes) (l1 r1 : Tree) (m1 : Bytes) : Tree :=
  let lH := l1.getheight
  let rH := r1.getheight
  let n : Tree := .fork (1 + maxu32 lH rH) l1 r1 m1
  if rH > lH then
    if rH - lH > 1 then
      -- nr := t.Peel(n.right, key, 2).(*Fork3); the cast panics unless
      -- n.right is a Fork3, which holds whenever heights are correct.
      match r1 with
      | .fork _ nrl nrr nrm =>
        if nrl.getheight ≤ nrr.getheight then
          -- single rotation from right to left (lines 667-681)
          let n1 : Tree := .fork (1 + maxu32 lH nrl.getheight) l1 nrl nrl.getmax
          .fork (1 + maxu32 n1.getheight nrr.getheight) n1 nrr nrm
        else
          -- double rotation from right to left (lines 682-703)
          match nrl with
          | .fork _ nrll nrlr _ =>
            let n1 : Tree := .fork (1 + maxu32 lH nrll.getheight) l1 nrll nrll.getmax
            let nr1 : Tree := .fork (1 + maxu32 nrlr.getheight nrr.getheight) nrlr nrr nrm
            .fork (1 + maxu32 n1.getheight nr1.getheight) n1 nr1 nrm
          | _ => n
      | _ => n
    else n
  else if lH - rH > 1 then
    -- nl := t.Peel(n.left, key, 4).(*Fork3)
    match l1 with
    | .fork _ nll nlr _ =>
      if nlr.getheight ≤ nll.getheight then
        -- single rotation from left to right (lines 712-725)
        let n1 : Tree := .fork (1 + maxu32 nlr.getheight r1.getheight) nlr r1 m1
        .fork (1 + maxu32 nll.getheight n1.getheight) nll n1
          (if bytesCompare key m1 = 1 then key else m1)
      else
        -- double rotation from left to right (lines 726-744)
        match nlr with
        | .fork _ nlrl nlrr _ =>
          let n1 : Tree := .fork (1 + maxu32 nlrr.getheight r1.getheight) nlrr r1 m1
          let nl1 : Tree := .fork (1 + maxu32 nll.getheight nlrl.getheight) nll nlrl nlrl.getmax
          .fork (1 + maxu32 nl1.getheight n1.getheight) nl1 n1 m1
        | _ => n
    | _ => n
  else n

/-- `Avl3.insert` (lines 610-751) on the arrow-free fragment.  On a leaf
with an equal key the value is replaced in place (`freeValueId(0)` is a
no-op); otherwise a 2-high fork is created.  On a fork the comparison `c`
is taken against `n.left.getmax()` before the recursive call, the max is
updated from the new right child when descending right, and the result is
rebalanced. -/
def insertT : Tree → Bytes → Bytes → Tree
  | .leaf k v, key, value =>
    match bytesCompare key k with
    | 0 => .leaf k value
    | -1 => .fork 2 (.leaf key value) (.leaf k v) k
    | _ => .fork 2 (.leaf k v) (.leaf key value) key
  | .fork _ l r m, key, value =>
    let c := bytesCompare key l.getmax
    if c = 1 then
      let r1 := insertT r key value
      insBalance key l r1 r1.getmax
    else
      let l1 := insertT l key value
      insBalance key l1 r m

/-- The pre-scan loop of `Avl3.Insert` (lines 576-605): `none` encodes the
early `return false` (key present with identical value); `some b` encodes
leaving the loop with `inserted = b`. -/
def insertPre : Tree → Bytes → Bytes → Option Bool
  | .leaf k v, key, value =>
    if key = k then (if value = v then none else some false) else some true
  | .fork _ l r _, key, value =>
    if bytesCompare key l.getmax = 1 then insertPre r key value
    else insertPre l key value

/-- `Avl3.Insert` (lines 576-608): pre-scan, then `t.root = t.insert(...)`.
Returns the `inserted` flag and the new root. -/
def InsertE (root : Option Tree) (key value : Bytes) : Bool × Option Tree :=
  match root with
  | none => (true, some (.leaf key value))
  | some t =>
    match insertPre t key value with
    | none => (false, some t)
    | some inserted => (inserted, some (insertT t key value))

/-- The rebalancing tail of `Avl3.delete` on a `Fork3` (lines 845-929).
It differs from the insert version in the height written by the single
right-to-left rotation (line 864 uses `n.right`, which at that point is the
old `nr.left`) and in the absence of the `nl.max` key adjustment. -/
def delBalance (l1 r1 : Tree) (m1 : Bytes) : Tree :=
  let lH := l1.getheight
  let rH := r1.getheight
  let n : Tree := .fork (1 + maxu32 lH rH) l1 r1 m1
  if rH > lH then
    if rH - lH > 1 then
      match r1 with
      | .fork _ nrl nrr nrm =>
        if nrl.getheight ≤ nrr.getheight then
          -- single rotation from right to left (lines 855-865);
          -- nr.height = 1 + maxu32(nr.left.getheight(), n.right.getheight())
          -- where n.right is the old nr.left after the swap
          let n1 : Tree := .fork (1 + maxu32 lH nrl.getheight) l1 nrl nrl.getmax
          .fork (1 + maxu32 n1.getheight nrl.getheight) n1 nrr nrm
        else
          -- double rotation from right to left (lines 866-887)
          match nrl with
          | .fork _ nrll nrlr _ =>
            let n1 : Tree := .fork (1 + maxu32 lH nrll.getheight) l1 nrll nrll.getmax
            let nr1 : Tree := .fork (1 + maxu32 nrlr.getheight nrr.getheight) nrlr nrr nrm
            .fork (1 + maxu32 n1.getheight nr1.getheight) n1 nr1 nrm
          | _ => n
      | _ => n
    else n
  else if lH - rH > 1 then
    match l1 with
    | .fork _ nll nlr _ =>
      if nlr.getheight ≤ nll.getheight then
        -- single rotation from left to right (lines 896-906)
        let n1 : Tree := .fork (1 + maxu32 nlr.getheight r1.getheight) nlr r1 m1
        .fork (1 + maxu32 nll.getheight n1.getheight) nll n1 m1
      else
        -- double rotation from left to right (lines 907-925)
        match nlr with
        | .fork _ nlrl nlrr _ =>
          let n1 : Tree := .fork (1 + maxu32 nlrr.getheight r1.getheight) nlrr r1 m1
          let nl1 : Tree := .fork (1 + maxu32 nll.getheight nlrl.getheight) nll nlrl nlrl.getmax
          .fork (1 + maxu32 nl1.getheight n1.getheight) nl1 n1 m1
        | _ => n
    | _ => n
  else n

/-- `Avl3.delete` (lines 786-932) on the arrow-free fragment.  Deleting at
a leaf yields `nil`; `freeValueId` is a no-op on inline values.  The
special case where both children are leaves returns the other leaf
directly.  Otherwise the function recurses on the side chosen by `c` and
rebalances; a `nil` child result returns the sibling. -/
def deleteT : Tree → Bytes → Option Tree
  | .leaf _ _, _ => none
  | .fork _ l r m, key =>
    let c := bytesCompare key l.getmax
    if isLeafT l && isLeafT r then
      if c = 1 then some l else some r
    else
      if c = 1 then
        match deleteT r key with
        | none => some l
        | some r1 => some (delBalance l r1 r1.getmax)
      else
        match deleteT l key with
        | none => some r
        | some l1 => some (delBalance l1 r m)

/-- The pre-scan loop of `Avl3.Delete` (lines 753-781): `true` iff the
descent reaches a leaf whose key equals `key`. -/
def deletePre : Tree → Bytes → Bool
  | .leaf k _, key => key = k
  | .fork _ l r _, key =>
    if bytesCompare key l.getmax = 1 then deletePre r key else deletePre l key

/-- `Avl3.Delete` (lines 753-784): pre-scan; on failure return `false`
without touching the tree, otherwise `t.root = t.delete(...)`. -/
def DeleteE (root : Option Tree) (key : Bytes) : Bool × Option Tree :=
  match root with
  | none => (false, none)
  | some t =>
    if deletePre t key then (true, deleteT t key) else (false, some t)

/-- One engine operation of the fresh-engine fragment. -/
inductive Op where
  | insert (key value : Bytes)
  | delete (key : Bytes)
deriving DecidableEq, Repr

/-- Applying one operation to the root of a fresh in-memory engine. -/
def applyOp (root : Option Tree) : Op → Option Tree
  | .insert k v => (InsertE root k v).2
  | .delete k => (DeleteE root k).2

/-- Applying a sequence of operations to a fresh in-memory engine
(`NewAvl3`, whose root is `nil`). -/
def applyOps (ops : List Op) : Option Tree :=
  ops.foldl applyOp none

/-- The reference ordered map, as a function from keys to optional
values. -/
def Model := Bytes → Option Bytes

/-- Applying one operation to the reference map. -/
def applyOpM (m : Model) : Op → Model
  | .insert k v => fun x => if x = k then some v else m x
  | .delete k => fun x => if x = k then none else m x

/-- Applying a sequence of operations to the empty reference map. -/
def applyOpsM (ops : List Op) : Model :=
  ops.foldl applyOpM (fun _ => none)

/-! ## Order facts about `bytes.Compare` -/

/-- Strict lexicographic order on byte strings. -/
def ltK (a b : Bytes) : Prop := bytesCompare a b = -1

/-- Non-strict lexicographic order on byte strings (`compare ≠ 1`, i.e. the
cases `0, -1` of the routing switches). -/
def leK (a b : Bytes) : Prop := bytesCompare a b ≠ 1

instance (a b : Bytes) : Decidable (ltK a b) := by unfold ltK; infer_instance

instance (a b : Bytes) : Decidable (leK a b) := by unfold leK; infer_instance

theorem bytesCompare_refl (a : Bytes) : bytesCompare a a = 0 := by
  induction a with
  | nil => rfl
  | cons x xs ih => simp [bytesCompare, ih]

theorem bytesCompare_eq_zero : ∀ {a b : Bytes}, bytesCompare a b = 0 → a = b
  | [], [], _ => rfl
  | [], _ :: _, h => by simp [bytesCompare] at h
  | _ :: _, [], h => by simp [bytesCompare] at h
  | a :: as, b :: bs, h => by
    by_cases hab : a < b
    · simp [bytesCompare, hab] at h
    · by_cases hba : b < a
      · simp [bytesCompare, hab, hba] at h
      · have hab2 : a = b := le_antisymm (not_lt.mp hba) (not_lt.mp hab)
        subst hab2
        simp only [bytesCompare, if_neg hab, if_neg hba] at h
        rw [bytesCompare_eq_zero h]

theorem bytesCompare_cases (a b : Bytes) :
    bytesCompare a b = -1 ∨ bytesCompare a b = 0 ∨ bytesCompare a b = 1 := by
  induction a generalizing b with
  | nil => cases b <;> simp [bytesCompare]
  | cons x xs ih =>
    cases b with
    | nil => simp [bytesCompare]
    | cons y ys =>
      by_cases hxy : x < y
      · simp [bytesCompare, hxy]
      · by_cases hyx : y < x
        · simp [bytesCompare, hxy, hyx]
        · simpa [bytesCompare, hxy, hyx] using ih ys

theorem bytesCompare_swap : ∀ (a b : Bytes), bytesCompare b a = -bytesCompare a b
  | [], [] => rfl
  | [], _ :: _ => rfl
  | _ :: _, [] => rfl
  | a :: as, b :: bs => by
    rcases lt_trichotomy a b with h | h | h
    · simp [bytesCompare, h, asymm h, ne_of_gt h]
    · subst h
      simp only [bytesCompare, lt_irrefl, if_false]
      exact bytesCompare_swap as bs
    · simp [bytesCompare, h, asymm h, ne_of_gt h]

theorem ltK_trans : ∀ {a b c : Bytes}, ltK a b → ltK b c → ltK a c
  | [], b, c, h1, h2 => by
    cases c with
    | nil =>
      cases b with
      | nil => exact absurd h1 (by simp [ltK, bytesCompare])
      | cons y ys => exact absurd h2 (by simp [ltK, bytesCompare])
    | cons z zs => simp [ltK, bytesCompare]
  | _ :: _, [], _, h1, _ => absurd h1 (by simp [ltK, bytesCompare])
  | _ :: _, _ :: _, [], _, h2 => absurd h2 (by simp [ltK, bytesCompare])
  | a :: as, b :: bs, c :: cs, h1, h2 => by
    by_cases hab : a < b
    · by_cases hbc : b < c
      · simp [ltK, bytesCompare, lt_trans hab hbc]
      · by_cases hcb : c < b
        · exact absurd h2 (by simp [ltK, bytesCompare, hbc, hcb])
        · have hbc2 : b = c := le_antisymm (not_lt.mp hcb) (not_lt.mp hbc)
          subst hbc2
          simp [ltK, bytesCompare, hab]
    · by_cases hba : b < a
      · exact absurd h1 (by simp [ltK, bytesCompare, hab, hba])
      · have hab2 : a = b := le_antisymm (not_lt.mp hba) (not_lt.mp hab)
        subst hab2
        have h1r : ltK as bs := by simpa [ltK, bytesCompare, hab, hba] using h1
        by_cases hbc : a < c
        · simp [ltK, bytesCompare, hbc]
        · by_cases hcb : c < a
          · exact absurd h2 (by simp [ltK, bytesCompare, hbc, hcb])
          · have hbc2 : a = c := le_antisymm (not_lt.mp hcb) (not_lt.mp hbc)
            subst hbc2
            have h2r : ltK bs cs := by simpa [ltK, bytesCompare, hbc] using h2
            simpa [ltK, bytesCompare] using ltK_trans h1r h2r

theorem ltK_ne {a b : Bytes} (h : ltK a b) : a ≠ b := by
  intro he
  subst he
  simp [ltK, bytesCompare_refl] at h

theorem ltK_ne_symm {a b : Bytes} (h : ltK a b) : b ≠ a :=
  fun he => ltK_ne h he.symm

theorem ltK_of_compare_one {a b : Bytes} (h : bytesCompare a b = 1) : ltK b a := by
  unfold ltK
  rw [bytesCompare_swap, h]

theorem leK_of_not_one {a b : Bytes} (h : ¬bytesCompare a b = 1) : leK a b := h

theorem leK_lt_trans {a b c : Bytes} (h1 : leK a b) (h2 : ltK b c) : ltK a c := by
  rcases bytesCompare_cases a b with h | h | h
  · exact ltK_trans h h2
  · rw [bytesCompare_eq_zero h]; exact h2
  · exact absurd h h1

theorem ltK_le_trans {a b c : Bytes} (h1 : ltK a b) (h2 : leK b c) : ltK a c := by
  rcases bytesCompare_cases b c with h | h | h
  · exact ltK_trans h1 h
  · rw [← bytesCompare_eq_zero h]; exact h1
  · exact absurd h h2

theorem ltK_leK {a b : Bytes} (h : ltK a b) : leK a b := by
  unfold ltK at h
  unfold leK
  omega

theorem leK_refl (a : Bytes) : leK a a := by
  unfold leK
  rw [bytesCompare_refl]
  omega

theorem not_ltK_self (a : Bytes) : ¬ltK a a := by
  unfold ltK
  rw [bytesCompare_refl]
  omega

/-! ## Search-tree invariant and the association-list view -/

/-- In-order list of (key, value) pairs of a tree. -/
def entries : Tree → List (Bytes × Bytes)
  | .leaf k v => [(k, v)]
  | .fork _ l r _ => entries l ++ entries r

/-- In-order list of keys. -/
def keysL (t : Tree) : List Bytes := (entries t).map Prod.fst

/-- The `max` fields cache the largest key of each subtree: every fork's
`max` field equals its right child's `getmax`. -/
def MaxOK : Tree → Prop
  | .leaf _ _ => True
  | .fork _ l r m => MaxOK l ∧ MaxOK r ∧ m = r.getmax

/-- Keys appear in strictly increasing order. -/
abbrev SortedK (l : List Bytes) : Prop := l.Pairwise ltK

/-- The search-tree invariant used by the tree-algorithm proofs. -/
def WF (t : Tree) : Prop := MaxOK t ∧ SortedK (keysL t)

theorem entries_ne_nil (t : Tree) : entries t ≠ [] := by
  induction t with
  | leaf k v => simp [entries]
  | fork h l r m ihl ihr => simp [entries, ihl]

theorem keysL_fork (h : Nat) (l r : Tree) (m : Bytes) :
    keysL (.fork h l r m) = keysL l ++ keysL r := by
  simp [keysL, entries]

theorem getmax_mem {t : Tree} (hm : MaxOK t) : t.getmax ∈ keysL t := by
  induction t with
  | leaf k v => simp [Tree.getmax, keysL, entries]
  | fork h l r m ihl ihr =>
    rw [keysL_fork]
    rcases hm with ⟨hml, hmr, hmm⟩
    simp only [Tree.getmax, hmm]
    exact List.mem_append_right _ (ihr hmr)

theorem le_getmax {t : Tree} (hm : MaxOK t) (hs : SortedK (keysL t)) :
    ∀ k ∈ keysL t, leK k t.getmax := by
  induction t with
  | leaf k v =>
    intro x hx
    simp [keysL, entries] at hx
    subst hx
    exact leK_refl _
  | fork h l r m ihl ihr =>
    intro x hx
    rcases hm with ⟨hml, hmr, hmm⟩
    rw [keysL_fork] at hx hs
    rcases List.pairwise_append.mp hs with ⟨hsl, hsr, hcross⟩
    simp only [Tree.getmax, hmm]
    rcases List.mem_append.mp hx with hxl | hxr
    · exact ltK_leK (hcross x hxl _ (getmax_mem hmr))
    · exact ihr hmr hsr x hxr

/-- All keys of the right subtree are strictly above the left `getmax`. -/
theorem right_keys_gt {h : Nat} {l r : Tree} {m : Bytes}
    (hm : MaxOK (.fork h l r m)) (hs : SortedK (keysL (.fork h l r m))) :
    ∀ k ∈ keysL r, ltK l.getmax k := by
  intro x hx
  rcases hm with ⟨hml, hmr, hmm⟩
  rw [keysL_fork] at hs
  exact (List.pairwise_append.mp hs).2.2 _ (getmax_mem hml) x hx

/-- Association lookup, first match wins (`lookupE (entries t)` is the map
denotation of a tree). -/
def lookupE : List (Bytes × Bytes) → Bytes → Option Bytes
  | [], _ => none
  | (k, v) :: rest, key => if key = k then some v else lookupE rest key

theorem lookupE_append (l1 l2 : List (Bytes × Bytes)) (key : Bytes) :
    lookupE (l1 ++ l2) key =
      match lookupE l1 key with
      | some v => some v
      | none => lookupE l2 key := by
  induction l1 with
  | nil => simp [lookupE]
  | cons p rest ih =>
    obtain ⟨k, v⟩ := p
    by_cases hk : key = k <;> simp [lookupE, hk, ih]

theorem lookupE_eq_none {l : List (Bytes × Bytes)} {key : Bytes}
    (h : ∀ k ∈ l.map Prod.fst, key ≠ k) : lookupE l key = none := by
  induction l with
  | nil => rfl
  | cons p rest ih =>
    obtain ⟨k, v⟩ := p
    have hk : key ≠ k := h k (by simp)
    simp only [lookupE, if_neg hk]
    exact ih fun x hx => h x (by simp [hx])

/-- `Get` computes the association-list lookup on a well-formed tree. -/
theorem getT_eq_lookup {t : Tree} (hw : WF t) (key : Bytes) :
    getT t key = lookupE (entries t) key := by
  obtain ⟨hm, hs⟩ := hw
  induction t with
  | leaf k v => simp [getT, entries, lookupE]
  | fork h l r m ihl ihr =>
    rcases hm with ⟨hml, hmr, hmm⟩
    have hs2 := hs
    rw [keysL_fork] at hs2
    rcases List.pairwise_append.mp hs2 with ⟨hsl, hsr, hcross⟩
    by_cases hc : bytesCompare key l.getmax = 1
    · -- descend right; no key of the left part matches
      have hnone : lookupE (entries l) key = none := by
        refine lookupE_eq_none fun x hx => ?_
        have hlt : ltK x key :=
          leK_lt_trans (le_getmax hml hsl x hx) (ltK_of_compare_one hc)
        exact (ltK_ne_symm hlt)
      simp only [getT, if_pos hc, entries, lookupE_append, hnone]
      exact ihr hmr hsr
    · -- descend left; the right part has no matching key either
      have hle : leK key l.getmax := leK_of_not_one hc
      simp only [getT, if_neg hc, entries, lookupE_append]
      rw [← ihl hml hsl]
      cases hg : getT l key with
      | some v => simp
      | none =>
        have hnone : lookupE (entries r) key = none := by
          refine lookupE_eq_none fun x hx => ?_
          have hlt : ltK key x :=
            leK_lt_trans hle (right_keys_gt ⟨hml, hmr, hmm⟩ hs x hx)
          exact ltK_ne hlt
        simp [hnone]

/-! ## Reference operations on the association-list view -/

/-- Insertion into the sorted association list: replaces the binding when
the key exists, otherwise inserts in order (the list analogue of one
`insert`). -/
def insertA : List (Bytes × Bytes) → Bytes → Bytes → List (Bytes × Bytes)
  | [], key, value => [(key, value)]
  | (k, v) :: rest, key, value =>
    match bytesCompare key k with
    | 0 => (k, value) :: rest
    | -1 => (key, value) :: (k, v) :: rest
    | _ => (k, v) :: insertA rest key value

/-- Deletion from the association list (first occurrence). -/
def deleteA : List (Bytes × Bytes) → Bytes → List (Bytes × Bytes)
  | [], _ => []
  | (k, v) :: rest, key =>
    if key = k then rest else (k, v) :: deleteA rest key

theorem insertA_append_left {l1 : List (Bytes × Bytes)} (l2 : List (Bytes × Bytes))
    {key : Bytes} (value : Bytes)
    (hwit : ∃ k0 ∈ l1.map Prod.fst, leK key k0) :
    insertA (l1 ++ l2) key value = insertA l1 key value ++ l2 := by
  induction l1 with
  | nil => simp at hwit
  | cons p rest ih =>
    obtain ⟨k, v⟩ := p
    rcases bytesCompare_cases key k with h | h | h
    · simp [insertA, h]
    · simp [insertA, h]
    · have hne : ∀ x, x = k → ¬leK key x := by
        intro x hx hc
        subst hx
        exact hc h
      rcases hwit with ⟨k0, hk0, hle⟩
      simp only [List.map_cons, List.mem_cons] at hk0
      rcases hk0 with hk0 | hk0
      · exact absurd hle (hne k0 hk0)
      · simp [insertA, h, ih ⟨k0, hk0, hle⟩]

theorem insertA_append_right {l1 : List (Bytes × Bytes)} (l2 : List (Bytes × Bytes))
    {key : Bytes} (value : Bytes)
    (hall : ∀ k0 ∈ l1.map Prod.fst, ltK k0 key) :
    insertA (l1 ++ l2) key value = l1 ++ insertA l2 key value := by
  induction l1 with
  | nil => simp
  | cons p rest ih =>
    obtain ⟨k, v⟩ := p
    have hk : ltK k key := hall k (by simp)
    have hc : bytesCompare key k = 1 := by
      have := bytesCompare_swap k key
      unfold ltK at hk
      omega
    simp only [List.cons_append, insertA, hc, List.append_eq]
    rw [ih fun x hx => hall x (by simp [hx])]

theorem deleteA_not_mem {l : List (Bytes × Bytes)} {key : Bytes}
    (h : key ∉ l.map Prod.fst) : deleteA l key = l := by
  induction l with
  | nil => rfl
  | cons p rest ih =>
    obtain ⟨k, v⟩ := p
    simp only [List.map_cons, List.mem_cons, not_or] at h
    simp [deleteA, h.1, ih h.2]

theorem deleteA_append_left {l1 : List (Bytes × Bytes)} (l2 : List (Bytes × Bytes))
    {key : Bytes} (h : key ∉ l2.map Prod.fst) :
    deleteA (l1 ++ l2) key = deleteA l1 key ++ l2 := by
  induction l1 with
  | nil => simp [deleteA, deleteA_not_mem h]
  | cons p rest ih =>
    obtain ⟨k, v⟩ := p
    by_cases hk : key = k <;> simp [deleteA, hk, ih]

theorem deleteA_append_right {l1 : List (Bytes × Bytes)} (l2 : List (Bytes × Bytes))
    {key : Bytes} (h : key ∉ l1.map Prod.fst) :
    deleteA (l1 ++ l2) key = l1 ++ deleteA l2 key := by
  induction l1 with
  | nil => simp
  | cons p rest ih =>
    obtain ⟨k, v⟩ := p
    simp only [List.map_cons, List.mem_cons, not_or] at h
    simp [deleteA, h.1, ih h.2]

theorem mem_keys_insertA {l : List (Bytes × Bytes)} {key value x : Bytes}
    (hx : x ∈ (insertA l key value).map Prod.fst) :
    x = key ∨ x ∈ l.map Prod.fst := by
  induction l with
  | nil => simpa [insertA] using hx
  | cons p rest ih =>
    obtain ⟨k, v⟩ := p
    rcases bytesCompare_cases key k with h | h | h
    · simp only [insertA, h] at hx
      simpa using hx
    · simp only [insertA, h] at hx
      simp only [List.map_cons, List.mem_cons] at hx ⊢
      tauto
    · simp only [insertA, h] at hx
      simp only [List.map_cons, List.mem_cons] at hx ⊢
      rcases hx with hx | hx
      · tauto
      · rcases ih hx with hx | hx <;> tauto

theorem insertA_sorted {l : List (Bytes × Bytes)} (key value : Bytes)
    (hs : SortedK (l.map Prod.fst)) :
    SortedK ((insertA l key value).map Prod.fst) := by
  induction l with
  | nil => simp [insertA, SortedK]
  | cons p rest ih =>
    obtain ⟨k, v⟩ := p
    simp only [List.map_cons, List.pairwise_cons] at hs
    rcases hs with ⟨hk, hrest⟩
    rcases bytesCompare_cases key k with h | h | h
    · simp only [insertA, h, List.map_cons]
      refine List.Pairwise.cons ?_ (List.Pairwise.cons hk hrest)
      intro x hx
      simp only [List.mem_cons] at hx
      rcases hx with hx | hx
      · subst hx; exact h
      · exact ltK_trans h (hk x hx)
    · simp only [insertA, h, List.map_cons]
      exact List.Pairwise.cons hk hrest
    · simp only [insertA, h, List.map_cons]
      refine List.Pairwise.cons ?_ (ih hrest)
      intro x hx
      rcases mem_keys_insertA hx with hx | hx
      · subst hx; exact ltK_of_compare_one h
      · exact hk x hx

theorem deleteA_sublist (l : List (Bytes × Bytes)) (key : Bytes) :
    (deleteA l key).Sublist l := by
  induction l with
  | nil => simp [deleteA]
  | cons p rest ih =>
    obtain ⟨k, v⟩ := p
    by_cases hk : key = k
    · simp [deleteA, hk]
    · simp only [deleteA, if_neg hk]
      exact ih.cons₂ _

theorem deleteA_sorted {l : List (Bytes × Bytes)} (key : Bytes)
    (hs : SortedK (l.map Prod.fst)) :
    SortedK ((deleteA l key).map Prod.fst) :=
  List.Pairwise.sublist ((deleteA_sublist l key).map Prod.fst) hs

theorem lookup_insertA (l : List (Bytes × Bytes)) (key value x : Bytes) :
    lookupE (insertA l key value) x =
      if x = key then some value else lookupE l x := by
  induction l with
  | nil => simp [insertA, lookupE]
  | cons p rest ih =>
    obtain ⟨k, v⟩ := p
    rcases bytesCompare_cases key k with h | h | h
    · by_cases hx : x = key <;> simp [insertA, h, lookupE, hx]
    · have hkk : key = k := bytesCompare_eq_zero h
      subst hkk
      by_cases hx : x = key <;> simp [insertA, h, lookupE, hx]
    · have hne : key ≠ k := by
        intro he
        subst he
        rw [bytesCompare_refl] at h
        omega
      by_cases hx : x = k
      · subst hx
        simp [insertA, h, lookupE, Ne.symm hne]
      · simp [insertA, h, lookupE, hx, ih]

theorem lookup_deleteA {l : List (Bytes × Bytes)} (key x : Bytes)
    (hs : SortedK (l.map Prod.fst)) :
    lookupE (deleteA l key) x = if x = key then none else lookupE l x := by
  induction l with
  | nil => simp [deleteA, lookupE]
  | cons p rest ih =>
    obtain ⟨k, v⟩ := p
    simp only [List.map_cons, List.pairwise_cons] at hs
    rcases hs with ⟨hk, hrest⟩
    by_cases hkey : key = k
    · subst hkey
      by_cases hx : x = key
      · subst hx
        simp only [deleteA, if_pos rfl, if_pos rfl]
        exact lookupE_eq_none fun y hy => ltK_ne (hk y hy)
      · simp [deleteA, lookupE, hx]
    · by_cases hx : x = k
      · have hne : ¬x = key := by
          intro he
          exact hkey (he.symm.trans hx)
        have hne2 : ¬k = key := by
          intro he
          exact hkey he.symm
        simp [deleteA, hkey, lookupE, hx, hne, hne2]
      · simp [deleteA, hkey, lookupE, hx, ih hrest]

/-! ## Entries and max fields through the rebalancing helpers -/

theorem insBalance_entries (key : Bytes) (l1 r1 : Tree) (m1 : Bytes) :
    entries (insBalance key l1 r1 m1) = entries l1 ++ entries r1 := by
  unfold insBalance
  dsimp only
  split
  · split
    · match r1 with
      | .leaf _ _ => simp [entries]
      | .fork _ nrl nrr _ =>
        dsimp only
        split
        · simp [entries, List.append_assoc]
        · match nrl with
          | .leaf _ _ => simp [entries]
          | .fork _ nrll nrlr _ => simp [entries, List.append_assoc]
    · simp [entries]
  · split
    · match l1 with
      | .leaf _ _ => simp [entries]
      | .fork _ nll nlr _ =>
        dsimp only
        split
        · simp [entries, List.append_assoc]
        · match nlr with
          | .leaf _ _ => simp [entries]
          | .fork _ nlrl nlrr _ => simp [entries, List.append_assoc]
    · simp [entries]

theorem delBalance_entries (l1 r1 : Tree) (m1 : Bytes) :
    entries (delBalance l1 r1 m1) = entries l1 ++ entries r1 := by
  unfold delBalance
  dsimp only
  split
  · split
    · match r1 with
      | .leaf _ _ => simp [entries]
      | .fork _ nrl nrr _ =>
        dsimp only
        split
        · simp [entries, List.append_assoc]
        · match nrl with
          | .leaf _ _ => simp [entries]
          | .fork _ nrll nrlr _ => simp [entries, List.append_assoc]
    · simp [entries]
  · split
    · match l1 with
      | .leaf _ _ => simp [entries]
      | .fork _ nll nlr _ =>
        dsimp only
        split
        · simp [entries, List.append_assoc]
        · match nlr with
          | .leaf _ _ => simp [entries]
          | .fork _ nlrl nlrr _ => simp [entries, List.append_assoc]
    · simp [entries]

theorem ltK_asymm {a b : Bytes} (h : ltK a b) : ¬ltK b a := by
  unfold ltK at h ⊢
  rw [bytesCompare_swap, h]
  omega

theorem leK_of_not_ltK {a b : Bytes} (h : ¬ltK b a) : leK a b := by
  unfold ltK at h
  rw [bytesCompare_swap] at h
  unfold leK
  omega

/-- Decomposition of the invariant at a fork. -/
theorem WF_fork {h : Nat} {l r : Tree} {m : Bytes} (hw : WF (.fork h l r m)) :
    WF l ∧ WF r ∧ m = r.getmax ∧ ∀ x ∈ keysL l, ∀ y ∈ keysL r, ltK x y := by
  obtain ⟨hm, hs⟩ := hw
  rcases hm with ⟨hml, hmr, hmm⟩
  rw [keysL_fork] at hs
  rcases List.pairwise_append.mp hs with ⟨hsl, hsr, hcross⟩
  exact ⟨⟨hml, hsl⟩, ⟨hmr, hsr⟩, hmm, hcross⟩

theorem insBalance_getmax (key : Bytes) (l1 r1 : Tree) (m1 : Bytes)
    (hm1 : m1 = r1.getmax) (hk : leK key m1) :
    (insBalance key l1 r1 m1).getmax = m1 := by
  unfold insBalance
  dsimp only
  split
  · split
    · match r1, hm1 with
      | .leaf _ _, hm1 => simp [Tree.getmax, hm1]
      | .fork _ nrl nrr nrm, hm1 =>
        dsimp only
        split
        · simp only [Tree.getmax] at hm1 ⊢
          exact hm1.symm
        · match nrl with
          | .leaf _ _ => simp [Tree.getmax, hm1]
          | .fork _ nrll nrlr _ => simp [Tree.getmax] at hm1 ⊢; exact hm1.symm
    · simp [Tree.getmax]
  · split
    · match l1 with
      | .leaf _ _ => simp [Tree.getmax]
      | .fork _ nll nlr _ =>
        dsimp only
        split
        · simp only [Tree.getmax, if_neg hk]
        · match nlr with
          | .leaf _ _ => simp [Tree.getmax]
          | .fork _ nlrl nlrr _ => simp [Tree.getmax]
    · simp [Tree.getmax]

theorem delBalance_getmax (l1 r1 : Tree) (m1 : Bytes)
    (hm1 : m1 = r1.getmax) :
    (delBalance l1 r1 m1).getmax = m1 := by
  unfold delBalance
  dsimp only
  split
  · split
    · match r1, hm1 with
      | .leaf _ _, hm1 => simp [Tree.getmax, hm1]
      | .fork _ nrl nrr nrm, hm1 =>
        dsimp only
        split
        · simp [Tree.getmax] at hm1 ⊢; exact hm1.symm
        · match nrl with
          | .leaf _ _ => simp [Tree.getmax, hm1]
          | .fork _ nrll nrlr _ => simp [Tree.getmax] at hm1 ⊢; exact hm1.symm
    · simp [Tree.getmax]
  · split
    · match l1 with
      | .leaf _ _ => simp [Tree.getmax]
      | .fork _ nll nlr _ =>
        dsimp only
        split
        · simp [Tree.getmax]
        · match nlr with
          | .leaf _ _ => simp [Tree.getmax]
          | .fork _ nlrl nlrr _ => simp [Tree.getmax]
    · simp [Tree.getmax]

theorem insBalance_MaxOK (key : Bytes) {l1 r1 : Tree} {m1 : Bytes}
    (hl : MaxOK l1) (hr : MaxOK r1) (hm1 : m1 = r1.getmax) (hk : leK key m1) :
    MaxOK (insBalance key l1 r1 m1) := by
  unfold insBalance
  dsimp only
  split
  · split
    · match r1, hr, hm1 with
      | .leaf _ _, hr, hm1 => exact ⟨hl, trivial, hm1⟩
      | .fork _ nrl nrr nrm, hr, hm1 =>
        rcases hr with ⟨hnrl, hnrr, hnrm⟩
        dsimp only
        split
        · exact ⟨⟨hl, hnrl, rfl⟩, hnrr, hnrm⟩
        · match nrl, hnrl with
          | .leaf _ _, hnrl => exact ⟨hl, ⟨hnrl, hnrr, hnrm⟩, hm1⟩
          | .fork _ nrll nrlr _, hnrl =>
            rcases hnrl with ⟨hnrll, hnrlr, _⟩
            exact ⟨⟨hl, hnrll, rfl⟩, ⟨hnrlr, hnrr, hnrm⟩, rfl⟩
    · exact ⟨hl, hr, hm1⟩
  · split
    · match l1, hl with
      | .leaf _ _, hl => exact ⟨hl, hr, hm1⟩
      | .fork _ nll nlr _, hl =>
        rcases hl with ⟨hnll, hnlr, hnlm⟩
        dsimp only
        split
        · rw [if_neg hk]
          exact ⟨hnll, ⟨hnlr, hr, hm1⟩, rfl⟩
        · match nlr, hnlr with
          | .leaf _ _, hnlr => exact ⟨⟨hnll, hnlr, hnlm⟩, hr, hm1⟩
          | .fork _ nlrl nlrr _, hnlr =>
            rcases hnlr with ⟨hnlrl, hnlrr, _⟩
            exact ⟨⟨hnll, hnlrl, rfl⟩, ⟨hnlrr, hr, hm1⟩, rfl⟩
    · exact ⟨hl, hr, hm1⟩

theorem delBalance_MaxOK {l1 r1 : Tree} {m1 : Bytes}
    (hl : MaxOK l1) (hr : MaxOK r1) (hm1 : m1 = r1.getmax) :
    MaxOK (delBalance l1 r1 m1) := by
  unfold delBalance
  dsimp only
  split
  · split
    · match r1, hr, hm1 with
      | .leaf _ _, hr, hm1 => exact ⟨hl, trivial, hm1⟩
      | .fork _ nrl nrr nrm, hr, hm1 =>
        rcases hr with ⟨hnrl, hnrr, hnrm⟩
        dsimp only
        split
        · exact ⟨⟨hl, hnrl, rfl⟩, hnrr, hnrm⟩
        · match nrl, hnrl with
          | .leaf _ _, hnrl => exact ⟨hl, ⟨hnrl, hnrr, hnrm⟩, hm1⟩
          | .fork _ nrll nrlr _, hnrl =>
            rcases hnrl with ⟨hnrll, hnrlr, _⟩
            exact ⟨⟨hl, hnrll, rfl⟩, ⟨hnrlr, hnrr, hnrm⟩, rfl⟩
    · exact ⟨hl, hr, hm1⟩
  · split
    · match l1, hl with
      | .leaf _ _, hl => exact ⟨hl, hr, hm1⟩
      | .fork _ nll nlr _, hl =>
        rcases hl with ⟨hnll, hnlr, hnlm⟩
        dsimp only
        split
        · exact ⟨hnll, ⟨hnlr, hr, hm1⟩, rfl⟩
        · match nlr, hnlr with
          | .leaf _ _, hnlr => exact ⟨⟨hnll, hnlr, hnlm⟩, hr, hm1⟩
          | .fork _ nlrl nlrr _, hnlr =>
            rcases hnlr with ⟨hnlrl, hnlrr, _⟩
            exact ⟨⟨hnll, hnlrl, rfl⟩, ⟨hnlrr, hr, hm1⟩, rfl⟩
    · exact ⟨hl, hr, hm1⟩

/-! ## Effect of `insert` on the invariant and the entries -/

theorem getmax_insertT {t : Tree} (hw : WF t) (key value : Bytes) :
    (insertT t key value).getmax =
      if ltK t.getmax key then key else t.getmax := by
  induction t with
  | leaf k v =>
    rcases bytesCompare_cases key k with h | h | h
    · have ha : ¬ltK k key := ltK_asymm h
      simp [insertT, h, Tree.getmax, if_neg ha]
    · have hk := bytesCompare_eq_zero h
      subst hk
      simp [insertT, bytesCompare_refl, Tree.getmax, if_neg (not_ltK_self key)]
    · have ha : ltK k key := ltK_of_compare_one h
      simp [insertT, h, Tree.getmax, if_pos ha]
  | fork h0 l r m ihl ihr =>
    obtain ⟨hwl, hwr, hmm, hcross⟩ := WF_fork hw
    by_cases hc : bytesCompare key l.getmax = 1
    · have ihr2 := ihr hwr
      have hk : leK key (insertT r key value).getmax := by
        rw [ihr2]
        split
        · exact leK_refl key
        · exact leK_of_not_ltK (by assumption)
      simp only [insertT, if_pos hc]
      rw [insBalance_getmax key l (insertT r key value) (insertT r key value).getmax rfl hk]
      rw [ihr2, Tree.getmax, hmm]
    · have hle : leK key l.getmax := leK_of_not_one hc
      have hlt : ltK l.getmax r.getmax :=
        hcross _ (getmax_mem hwl.1) _ (getmax_mem hwr.1)
      have hkm : ltK key m := by
        rw [hmm]
        exact leK_lt_trans hle hlt
      have hk : leK key m := ltK_leK hkm
      simp only [insertT, if_neg hc]
      rw [insBalance_getmax key (insertT l key value) r m hmm hk]
      rw [Tree.getmax, if_neg (ltK_asymm hkm)]

theorem insertT_MaxOK {t : Tree} (hw : WF t) (key value : Bytes) :
    MaxOK (insertT t key value) := by
  induction t with
  | leaf k v =>
    rcases bytesCompare_cases key k with h | h | h <;>
      simp [insertT, h, MaxOK, Tree.getmax]
  | fork h0 l r m ihl ihr =>
    obtain ⟨hwl, hwr, hmm, hcross⟩ := WF_fork hw
    by_cases hc : bytesCompare key l.getmax = 1
    · have hk : leK key (insertT r key value).getmax := by
        rw [getmax_insertT hwr]
        split
        · exact leK_refl key
        · exact leK_of_not_ltK (by assumption)
      simp only [insertT, if_pos hc]
      exact insBalance_MaxOK key hwl.1 (ihr hwr) rfl hk
    · have hle : leK key l.getmax := leK_of_not_one hc
      have hlt : ltK l.getmax r.getmax :=
        hcross _ (getmax_mem hwl.1) _ (getmax_mem hwr.1)
      have hk : leK key m := by
        rw [hmm]
        exact ltK_leK (leK_lt_trans hle hlt)
      simp only [insertT, if_neg hc]
      exact insBalance_MaxOK key (ihl hwl) hwr.1 hmm hk

theorem insertT_entries {t : Tree} (hw : WF t) (key value : Bytes) :
    entries (insertT t key value) = insertA (entries t) key value := by
  induction t with
  | leaf k v =>
    rcases bytesCompare_cases key k with h | h | h <;>
      simp [insertT, h, entries, insertA]
  | fork h0 l r m ihl ihr =>
    obtain ⟨hwl, hwr, hmm, hcross⟩ := WF_fork hw
    by_cases hc : bytesCompare key l.getmax = 1
    · simp only [insertT, if_pos hc]
      rw [insBalance_entries, ihr hwr, entries]
      rw [insertA_append_right (entries r) value]
      intro x hx
      exact leK_lt_trans (le_getmax hwl.1 hwl.2 x hx) (ltK_of_compare_one hc)
    · simp only [insertT, if_neg hc]
      rw [insBalance_entries, ihl hwl, entries]
      rw [insertA_append_left (entries r) value]
      exact ⟨l.getmax, getmax_mem hwl.1, leK_of_not_one hc⟩

theorem insertT_WF {t : Tree} (hw : WF t) (key value : Bytes) :
    WF (insertT t key value) := by
  refine ⟨insertT_MaxOK hw key value, ?_⟩
  unfold keysL
  rw [insertT_entries hw]
  exact insertA_sorted key value hw.2

theorem getT_insertT {t : Tree} (hw : WF t) (key value x : Bytes) :
    getT (insertT t key value) x =
      if x = key then some value else getT t x := by
  rw [getT_eq_lookup (insertT_WF hw key value), insertT_entries hw,
    lookup_insertA, getT_eq_lookup hw]

/-! ## Effect of `delete` on the invariant and the entries -/

theorem deleteT_spec {t : Tree} (hw : WF t) {key : Bytes}
    (hf : deletePre t key = true) :
    (deleteT t key = none ∧ deleteA (entries t) key = []) ∨
    (∃ t1, deleteT t key = some t1 ∧
      entries t1 = deleteA (entries t) key ∧ MaxOK t1) := by
  induction t with
  | leaf k v =>
    left
    have hk : key = k := by simpa [deletePre] using hf
    simp [deleteT, entries, deleteA, hk]
  | fork h0 l r m ihl ihr =>
    obtain ⟨hwl, hwr, hmm, hcross⟩ := WF_fork hw
    by_cases hc : bytesCompare key l.getmax = 1
    · -- descend right
      have hfr : deletePre r key = true := by
        rw [deletePre, if_pos hc] at hf
        exact hf
      have hnotl : key ∉ (entries l).map Prod.fst := by
        intro hmem
        exact not_ltK_self key
          (leK_lt_trans (le_getmax hwl.1 hwl.2 key hmem) (ltK_of_compare_one hc))
      right
      by_cases hsp : (isLeafT l && isLeafT r) = true
      · -- both children are leaves: return the left leaf
        rw [Bool.and_eq_true] at hsp
        match l, r, hsp with
        | .leaf kl vl, .leaf kr vr, hsp =>
          have hkr : key = kr := by simpa [deletePre] using hfr
          have hnekl : ¬key = kl := by
            intro he
            exact hnotl (by simp [entries, he])
          refine ⟨.leaf kl vl, ?_, ?_, trivial⟩
          · simp [deleteT, isLeafT, hc]
          · subst hkr
            simp [entries, deleteA, hnekl]
      · rcases ihr hwr hfr with ⟨hnone, hdel⟩ | ⟨r1, hr1, her1, hmr1⟩
        · refine ⟨l, ?_, ?_, hwl.1⟩
          · simp only [deleteT, hsp, if_pos hc, hnone]
            rfl
          · rw [entries, deleteA_append_right (entries r) hnotl, hdel,
              List.append_nil]
        · refine ⟨delBalance l r1 r1.getmax, ?_, ?_, ?_⟩
          · simp only [deleteT, hsp, if_pos hc, hr1]
            rfl
          · rw [delBalance_entries, her1, entries,
              deleteA_append_right (entries r) hnotl]
          · exact delBalance_MaxOK hwl.1 hmr1 rfl
    · -- descend left
      have hfl : deletePre l key = true := by
        rw [deletePre, if_neg hc] at hf
        exact hf
      have hnotr : key ∉ (entries r).map Prod.fst := by
        intro hmem
        exact not_ltK_self key
          (leK_lt_trans (leK_of_not_one hc) (right_keys_gt ⟨hwl.1, hwr.1, hmm⟩ hw.2 key hmem))
      right
      by_cases hsp : (isLeafT l && isLeafT r) = true
      · rw [Bool.and_eq_true] at hsp
        match l, r, hsp with
        | .leaf kl vl, .leaf kr vr, hsp =>
          have hkl : key = kl := by simpa [deletePre] using hfl
          refine ⟨.leaf kr vr, ?_, ?_, trivial⟩
          · simp [deleteT, isLeafT, hc]
          · simp [entries, deleteA, hkl]
      · rcases ihl hwl hfl with ⟨hnone, hdel⟩ | ⟨l1, hl1, hel1, hml1⟩
        · refine ⟨r, ?_, ?_, hwr.1⟩
          · simp only [deleteT, hsp, if_neg hc, hnone]
            rfl
          · rw [entries, deleteA_append_left (entries r) hnotr, hdel,
              List.nil_append]
        · refine ⟨delBalance l1 r m, ?_, ?_, ?_⟩
          · simp only [deleteT, hsp, if_neg hc, hl1]
            rfl
          · rw [delBalance_entries, hel1, entries,
              deleteA_append_left (entries r) hnotr]
          · exact delBalance_MaxOK hml1 hwr.1 hmm

theorem deleteA_eq_nil {l : List (Bytes × Bytes)} {key : Bytes}
    (h : deleteA l key = []) :
    l = [] ∨ ∃ v, l = [(key, v)] := by
  cases l with
  | nil => exact Or.inl rfl
  | cons p rest =>
    obtain ⟨k, v⟩ := p
    by_cases hk : key = k
    · subst hk
      right
      have h2 : rest = [] := by simpa [deleteA] using h
      exact ⟨v, by rw [h2]⟩
    · simp [deleteA, hk] at h

/-! ## Pre-scans versus `Get` -/

theorem insertPre_eq_get (t : Tree) (key value : Bytes) :
    insertPre t key value =
      match getT t key with
      | none => some true
      | some w => if value = w then none else some false := by
  induction t with
  | leaf k v =>
    by_cases hk : key = k
    · by_cases hv : value = v <;> simp [insertPre, getT, hk, hv]
    · simp [insertPre, getT, hk]
  | fork h0 l r m ihl ihr =>
    by_cases hc : bytesCompare key l.getmax = 1 <;>
      simp [insertPre, getT, hc, ihl, ihr]

theorem deletePre_eq_get (t : Tree) (key : Bytes) :
    deletePre t key = (getT t key).isSome := by
  induction t with
  | leaf k v => by_cases hk : key = k <;> simp [deletePre, getT, hk]
  | fork h0 l r m ihl ihr =>
    by_cases hc : bytesCompare key l.getmax = 1 <;>
      simp [deletePre, getT, hc, ihl, ihr]

/-! ## The engine refines the reference map (claim C1) -/

/-- Invariant carried by reachable engine roots. -/
def EngInv : Option Tree → Prop
  | none => True
  | some t => WF t

theorem applyOp_inv {r : Option Tree} (hinv : EngInv r) (op : Op) :
    EngInv (applyOp r op) := by
  cases op with
  | insert key value =>
    cases r with
    | none =>
      simp only [applyOp, InsertE]
      exact ⟨trivial, by simp [keysL, entries, SortedK]⟩
    | some t =>
      simp only [applyOp, InsertE]
      cases hpre : insertPre t key value with
      | none => exact hinv
      | some b => exact insertT_WF hinv key value
  | delete key =>
    cases r with
    | none => exact trivial
    | some t =>
      simp only [applyOp, DeleteE]
      by_cases hf : deletePre t key = true
      · rw [if_pos hf]
        rcases deleteT_spec hinv hf with ⟨hnone, _⟩ | ⟨t1, ht1, he1, hm1⟩
        · rw [hnone]
          exact trivial
        · rw [ht1]
          refine ⟨hm1, ?_⟩
          unfold keysL
          rw [he1]
          exact deleteA_sorted key hinv.2
      · rw [if_neg hf]
        exact hinv

theorem applyOp_model {r : Option Tree} {m : Model} (hinv : EngInv r)
    (hcor : ∀ x, getE r x = m x) (op : Op) :
    ∀ x, getE (applyOp r op) x = applyOpM m op x := by
  intro x
  cases op with
  | insert key value =>
    cases r with
    | none =>
      show getE (some (.leaf key value)) x = if x = key then some value else m x
      have hm : m x = none := (hcor x).symm
      by_cases hx : x = key
      · simp [getE, getT, hx]
      · simp [getE, getT, hx, hm]
    | some t =>
      show getE (applyOp (some t) (.insert key value)) x =
        if x = key then some value else m x
      simp only [applyOp, InsertE]
      rw [insertPre_eq_get]
      cases hget : getT t key with
      | none =>
        dsimp only
        show getT (insertT t key value) x = _
        rw [getT_insertT hinv key value x]
        by_cases hx : x = key
        · rw [if_pos hx, if_pos hx]
        · rw [if_neg hx, if_neg hx]
          exact hcor x
      | some w =>
        dsimp only
        by_cases hv : value = w
        · rw [if_pos hv]
          dsimp only
          show getT t x = if x = key then some value else m x
          by_cases hx : x = key
          · subst hx
            rw [if_pos rfl, hget, hv]
          · rw [if_neg hx]
            exact hcor x
        · rw [if_neg hv]
          dsimp only
          show getT (insertT t key value) x = _
          rw [getT_insertT hinv key value x]
          by_cases hx : x = key
          · rw [if_pos hx, if_pos hx]
          · rw [if_neg hx, if_neg hx]
            exact hcor x
  | delete key =>
    cases r with
    | none =>
      show getE none x = if x = key then none else m x
      have hm : m x = none := (hcor x).symm
      by_cases hx : x = key <;> simp [getE, hx, hm]
    | some t =>
      show getE (applyOp (some t) (.delete key)) x = if x = key then none else m x
      simp only [applyOp, DeleteE]
      by_cases hf : deletePre t key = true
      · rw [if_pos hf]
        rcases deleteT_spec hinv hf with ⟨hnone, hdel⟩ | ⟨t1, ht1, he1, hm1⟩
        · rw [hnone]
          rcases deleteA_eq_nil hdel with he | ⟨v, he⟩
          · exact absurd he (entries_ne_nil t)
          · show (none : Option Bytes) = _
            by_cases hx : x = key
            · rw [if_pos hx]
            · rw [if_neg hx, ← hcor x]
              show (none : Option Bytes) = getT t x
              rw [getT_eq_lookup hinv, he]
              simp [lookupE, hx]
        · rw [ht1]
          have hw1 : WF t1 := ⟨hm1, by
            unfold keysL
            rw [he1]
            exact deleteA_sorted key hinv.2⟩
          show getT t1 x = _
          rw [getT_eq_lookup hw1, he1, lookup_deleteA key x hinv.2]
          by_cases hx : x = key
          · rw [if_pos hx, if_pos hx]
          · rw [if_neg hx, if_neg hx, ← getT_eq_lookup hinv]
            exact hcor x
      · rw [if_neg hf]
        have hnone : getT t key = none := by
          rw [deletePre_eq_get] at hf
          cases hg : getT t key with
          | none => rfl
          | some w =>
            rw [hg] at hf
            simp at hf
        show getT t x = if x = key then none else m x
        by_cases hx : x = key
        · subst hx
          rw [if_pos rfl, hnone]
        · rw [if_neg hx]
          exact hcor x

theorem foldl_model (ops : List Op) (r : Option Tree) (m : Model)
    (hinv : EngInv r) (hcor : ∀ x, getE r x = m x) :
    EngInv (ops.foldl applyOp r) ∧
      ∀ x, getE (ops.foldl applyOp r) x = (ops.foldl applyOpM m) x := by
  induction ops generalizing r m with
  | nil => exact ⟨hinv, hcor⟩
  | cons op rest ih =>
    exact ih (applyOp r op) (applyOpM m op) (applyOp_inv hinv op)
      (applyOp_model hinv hcor op)

/-- Every reachable root of the fresh-engine fragment is well-formed. -/
theorem applyOps_inv (ops : List Op) : EngInv (applyOps ops) :=
  (foldl_model ops none (fun _ => none) trivial (fun _ => rfl)).1

/-- C1.  For every sequence of `Insert(k,v)` / `Delete(k)` operations
applied to a fresh engine (no files, in-memory maps) and to the reference
ordered map, and for every key, `Get` returns exactly the reference map's
binding: `(M[k], true)` when the key is bound and `(nil, false)`
otherwise (`some`/`none` in the embedding). -/
theorem C1_round_trip (ops : List Op) (key : Bytes) :
    getE (applyOps ops) key = applyOpsM ops key :=
  (foldl_model ops none (fun _ => none) trivial (fun _ => rfl)).2 key

/-! ## Claims C3, C7, C10 -/

/-- C3.  A first `Insert(k,v)` into a reachable engine state not containing
`k` returns `true`; a second `Insert(k,v)` with the identical value returns
`false` and performs no tree mutation: the pre-scan finds the identical
pair, `Insert` returns before calling `t.insert`, and the root (the only
engine state touched by `Insert` before the first `Commit`) is returned
unchanged. -/
theorem C3_insert_idempotence (ops : List Op) (key value : Bytes)
    (habsent : getE (applyOps ops) key = none) :
    (InsertE (applyOps ops) key value).1 = true ∧
    InsertE (InsertE (applyOps ops) key value).2 key value =
      (false, (InsertE (applyOps ops) key value).2) := by
  have hinv := applyOps_inv ops
  cases hr : applyOps ops with
  | none =>
    refine ⟨rfl, ?_⟩
    simp [InsertE, insertPre, bytesCompare_refl]
  | some t =>
    rw [hr] at habsent hinv
    have habs2 : getT t key = none := habsent
    have hpre : insertPre t key value = some true := by
      rw [insertPre_eq_get, habs2]
    constructor
    · simp [InsertE, hpre]
    · have hget2 : getT (insertT t key value) key = some value := by
        rw [getT_insertT hinv key value key, if_pos rfl]
      have hpre2 : insertPre (insertT t key value) key value = none := by
        rw [insertPre_eq_get, hget2]
        simp
      simp [InsertE, hpre, hpre2]

/-- Witness for C3 at a concrete state: inserting key `[1]` into the
engine `{[0] ↦ [5]}` and then re-inserting the identical pair. -/
theorem C3_insert_idempotence_witness :
    getE (applyOps [Op.insert [0] [5]]) [1] = none ∧
    ((InsertE (applyOps [Op.insert [0] [5]]) [1] [7]).1 = true ∧
      InsertE (InsertE (applyOps [Op.insert [0] [5]]) [1] [7]).2 [1] [7] =
        (false, (InsertE (applyOps [Op.insert [0] [5]]) [1] [7]).2)) :=
  ⟨by decide, C3_insert_idempotence [Op.insert [0] [5]] [1] [7] (by decide)⟩

/-- Keys of an optional root. -/
def keysO : Option Tree → List Bytes
  | none => []
  | some t => keysL t

theorem deletePre_mem {t : Tree} {key : Bytes}
    (h : deletePre t key = true) : key ∈ keysL t := by
  induction t with
  | leaf k v =>
    have : key = k := by simpa [deletePre] using h
    simp [keysL, entries, this]
  | fork h0 l r m ihl ihr =>
    rw [keysL_fork]
    by_cases hc : bytesCompare key l.getmax = 1
    · rw [deletePre, if_pos hc] at h
      exact List.mem_append_right _ (ihr h)
    · rw [deletePre, if_neg hc] at h
      exact List.mem_append_left _ (ihl h)

/-- C10.  For every tree and every key for which no leaf with that key
exists, `Delete` returns `false` and leaves the engine entirely unchanged:
the pre-scan fails, `t.delete` is never invoked, and the pre-scan itself
only reads (it never calls `Peel`, so `pagesToRecycle`, the value maps,
`root` and `prevRoot` are untouched); in the fragment's state the root is
returned unchanged. -/
theorem C10_delete_absent (root : Option Tree) (key : Bytes)
    (habsent : key ∉ keysO root) :
    DeleteE root key = (false, root) := by
  cases root with
  | none => rfl
  | some t =>
    have hf : deletePre t key = false := by
      cases hp : deletePre t key with
      | false => rfl
      | true => exact absurd (deletePre_mem hp) habsent
    simp [DeleteE, hf]

/-- Witness for C10: deleting the absent key `[3]` from the singleton
engine `{[0] ↦ [5]}`. -/
theorem C10_delete_absent_witness :
    ([3] : Bytes) ∉ keysO (some (.leaf [0] [5])) ∧
    DeleteE (some (.leaf [0] [5])) [3] = (false, some (.leaf [0] [5])) :=
  ⟨by decide, C10_delete_absent (some (.leaf [0] [5])) [3] (by decide)⟩

/-! ## Claim C7: the three-insert rotation scenario -/

/-- The spec scenario `Insert("a"), Insert("b"), Insert("c")` (with empty
values; the spec does not fix them). -/
def demoOpsC7 : List Op :=
  [Op.insert [97] [], Op.insert [98] [], Op.insert [99] []]

/-- C7 counterexample: the sequence produces a root `Fork3` whose height is
3 (a fork over the leaf "a" and a second fork of height 2 over "b","c"),
not a single Fork with height 2 as the claim states. -/
theorem C7_counterexample :
    applyOps demoOpsC7 =
      some (.fork 3 (.leaf [97] [])
        (.fork 2 (.leaf [98] []) (.leaf [99] []) [99]) [99]) ∧
    (Tree.fork 3 (.leaf [97] [])
      (.fork 2 (.leaf [98] []) (.leaf [99] []) [99]) [99]).getheight ≠ 2 :=
  ⟨by decide, by decide⟩

/-- C7 amended: starting from an empty engine,
`Insert("a"), Insert("b"), Insert("c")` triggers no rotation and produces a
root Fork of height 3 whose left subtree is the leaf "a" of height 1,
whose right subtree is a Fork of height 2 over "b" and "c", and whose
`max_key` is "c". -/
theorem C7_amended :
    applyOps demoOpsC7 =
      some (.fork 3 (.leaf [97] [])
        (.fork 2 (.leaf [98] []) (.leaf [99] []) [99]) [99]) ∧
    (Tree.leaf [97] ([] : Bytes)).getheight = 1 ∧
    (Tree.fork 3 (.leaf [97] [])
      (.fork 2 (.leaf [98] []) (.leaf [99] []) [99]) [99]).getmax = [99] :=
  ⟨by decide, rfl, rfl⟩

/-- The allocation-relevant state of the engine: the `pagesToRecycle` set
(a Go `map[PageID]struct\x7b\x7d`), the `freelist` stack and `maxPageId`. -/
structure AllocState where
  pagesToRecycle : Finset Nat
  freelist : List Nat
  maxPageId : Nat
deriving DecidableEq

/-- The maximum computed by the `for pageId := range t.pagesToRecycle`
loop of `nextPageId` (starting from the zero value of `id`). -/
def recycleMax (s : Finset Nat) : Nat := s.fold max 0 (fun x => x)

/-- `Avl3.nextPageId` (lines 295-314): take the maximum of the recycle set
(for determinism); if it is non-zero, remove and return it; else pop the
free list (LIFO); else increment and return `maxPageId`.
(`getLastD 0` is `t.freelist[len(t.freelist)-1]`, guarded by the length
check.) -/
def nextPageId (s : AllocState) : Nat × AllocState :=
  let mx := recycleMax s.pagesToRecycle
  if mx ≠ 0 then
    (mx, { s with pagesToRecycle := s.pagesToRecycle.erase mx })
  else if s.freelist.length > 0 then
    (s.freelist.getLastD 0, { s with freelist := s.freelist.dropLast })
  else
    (s.maxPageId + 1, { s with maxPageId := s.maxPageId + 1 })

theorem recycleMax_insert {a : Nat} {t : Finset Nat} (ha : a ∉ t) :
    recycleMax (insert a t) = max a (recycleMax t) :=
  Finset.fold_insert ha

theorem recycleMax_le {s : Finset Nat} : ∀ x ∈ s, x ≤ recycleMax s := by
  induction s using Finset.induction_on with
  | empty => simp
  | insert ha ih =>
    rename_i a t
    intro x hx
    rw [recycleMax_insert ha]
    rcases Finset.mem_insert.mp hx with hx | hx
    · subst hx
      exact le_max_left _ _
    · exact le_trans (ih x hx) (le_max_right _ _)

theorem recycleMax_mem {s : Finset Nat} (h : recycleMax s ≠ 0) :
    recycleMax s ∈ s := by
  induction s using Finset.induction_on with
  | empty => simp [recycleMax] at h
  | insert ha ih =>
    rename_i a t
    rw [recycleMax_insert ha] at h ⊢
    rcases max_cases a (recycleMax t) with ⟨he, -⟩ | ⟨he, -⟩
    · rw [he]
      exact Finset.mem_insert_self a t
    · rw [he] at h ⊢
      exact Finset.mem_insert_of_mem (ih h)

theorem recycleMax_ne_zero {s : Finset Nat} (h0 : 0 ∉ s)
    (hne : s.Nonempty) : recycleMax s ≠ 0 := by
  obtain ⟨x, hx⟩ := hne
  have hxle := recycleMax_le x hx
  intro hz
  rw [hz, Nat.le_zero] at hxle
  rw [hxle] at hx
  exact h0 hx

/-- C4.  `nextPageId` allocates in this order: a non-empty recycle set
yields its maximum element, which is removed; otherwise a non-empty free
list is popped from the back (LIFO); otherwise `maxPageId` is incremented
and returned.  Under the engine invariant that page id 0 (the reserved
"none" id) is never recycled or freed, the returned id is never 0. -/
theorem C4_nextPageId (s : AllocState)
    (h0r : 0 ∉ s.pagesToRecycle) (h0f : (0 : Nat) ∉ s.freelist) :
    (s.pagesToRecycle.Nonempty →
      (nextPageId s).1 ∈ s.pagesToRecycle ∧
      (∀ x ∈ s.pagesToRecycle, x ≤ (nextPageId s).1) ∧
      (nextPageId s).2 =
        { s with pagesToRecycle := s.pagesToRecycle.erase (nextPageId s).1 }) ∧
    (s.pagesToRecycle = ∅ → s.freelist ≠ [] →
      (nextPageId s).1 = s.freelist.getLastD 0 ∧
      (nextPageId s).2 = { s with freelist := s.freelist.dropLast }) ∧
    (s.pagesToRecycle = ∅ → s.freelist = [] →
      nextPageId s = (s.maxPageId + 1, { s with maxPageId := s.maxPageId + 1 })) ∧
    (nextPageId s).1 ≠ 0 := by
  refine ⟨?_, ?_, ?_, ?_⟩
  · intro hne
    have hmx := recycleMax_ne_zero h0r hne
    simp only [nextPageId, if_pos hmx]
    exact ⟨recycleMax_mem hmx, recycleMax_le, trivial⟩
  · intro hemp hfl
    have hmx : ¬recycleMax s.pagesToRecycle ≠ 0 := by
      rw [hemp]
      simp [recycleMax]
    have hlen : s.freelist.length > 0 := List.length_pos.mpr hfl
    simp only [nextPageId, if_neg hmx, if_pos hlen]
    exact ⟨trivial, trivial⟩
  · intro hemp hfl
    have hmx : ¬recycleMax s.pagesToRecycle ≠ 0 := by
      rw [hemp]
      simp [recycleMax]
    have hlen : ¬s.freelist.length > 0 := by
      rw [hfl]
      simp
    simp only [nextPageId, if_neg hmx, if_neg hlen]
  · by_cases hne : s.pagesToRecycle.Nonempty
    · have hmx := recycleMax_ne_zero h0r hne
      simp only [nextPageId, if_pos hmx]
      exact hmx
    · have hemp : s.pagesToRecycle = ∅ := Finset.not_nonempty_iff_eq_empty.mp hne
      have hmx : ¬recycleMax s.pagesToRecycle ≠ 0 := by
        rw [hemp]
        simp [recycleMax]
      by_cases hfl : s.freelist.length > 0
      · simp only [nextPageId, if_neg hmx, if_pos hfl]
        have hmem : s.freelist.getLastD 0 ∈ s.freelist := by
          cases hl : s.freelist with
          | nil =>
            rw [hl] at hfl
            simp at hfl
          | cons a rest =>
            rw [List.getLastD_eq_getLast?, List.getLast?_eq_getLast _ (by simp)]
            simp [List.getLast_mem]
        intro hz
        rw [hz] at hmem
        exact h0f hmem
      · simp only [nextPageId, if_neg hmx, if_neg hfl]
        omega

/-- Witness for C4 at a concrete allocator state. -/
theorem C4_nextPageId_witness :
    (0 ∉ ({3, 5} : Finset Nat)) ∧ ((0 : Nat) ∉ [7, 9]) ∧
    ((({3, 5} : Finset Nat).Nonempty →
      (nextPageId ⟨{3, 5}, [7, 9], 11⟩).1 ∈ ({3, 5} : Finset Nat) ∧
      (∀ x ∈ ({3, 5} : Finset Nat), x ≤ (nextPageId ⟨{3, 5}, [7, 9], 11⟩).1) ∧
      (nextPageId ⟨{3, 5}, [7, 9], 11⟩).2 =
        { pagesToRecycle := ({3, 5} : Finset Nat).erase (nextPageId ⟨{3, 5}, [7, 9], 11⟩).1,
          freelist := [7, 9], maxPageId := 11 }) ∧
    (({3, 5} : Finset Nat) = ∅ → [7, 9] ≠ [] →
      (nextPageId ⟨{3, 5}, [7, 9], 11⟩).1 = [7, 9].getLastD 0 ∧
      (nextPageId ⟨{3, 5}, [7, 9], 11⟩).2 =
        { pagesToRecycle := ({3, 5} : Finset Nat), freelist := [7, 9].dropLast,
          maxPageId := 11 }) ∧
    (({3, 5} : Finset Nat) = ∅ → [7, 9] = [] →
      nextPageId ⟨{3, 5}, [7, 9], 11⟩ =
        (12, { pagesToRecycle := ({3, 5} : Finset Nat), freelist := [7, 9],
               maxPageId := 12 })) ∧
    (nextPageId ⟨{3, 5}, [7, 9], 11⟩).1 ≠ 0) :=
  ⟨by decide, by decide, C4_nextPageId ⟨{3, 5}, [7, 9], 11⟩ (by decide) (by decide)⟩

/-! ## Claim C8: reading the version file in `UseFiles` -/

/-- `verFile.ReadAt(verdata[:], off)` modelled on a byte list: `n` bytes
are read into the front of the 8-byte buffer (`n = min 8 (len - off)`,
0 at or past the end of the file); the remaining buffer bytes keep their
previous contents. -/
def readAtVer (file : List Nat) (off : Nat) (buf : List Nat) : Nat × List Nat :=
  let n := min 8 (file.length - off)
  (n, (file.drop off).take n ++ buf.drop n)

/-- `binary.BigEndian.Uint64` of the 8-byte buffer. -/
def beUint64 (l : List Nat) : Nat := l.foldl (fun a b => a * 256 + b) 0

/-- The version-reading loop of `UseFiles` (lines 130-137): while
`ReadAt` returns `n > 0`, decode the buffer, record
`versions[currentVersion]`, remember `lastPageID` and advance
`currentVersion`. -/
def readVersionsLoop (file : List Nat) (buf : List Nat) (cv : Nat)
    (versions : List (Nat × Nat)) (lastPageID : Nat) :
    List (Nat × Nat) × Nat × Nat :=
  if h : (readAtVer file (cv * 8) buf).1 > 0 then
    readVersionsLoop file (readAtVer file (cv * 8) buf).2 (cv + 1)
      (versions ++ [(cv, beUint64 (readAtVer file (cv * 8) buf).2)])
      (beUint64 (readAtVer file (cv * 8) buf).2)
  else
    (versions, cv, lastPageID)
termination_by file.length - cv * 8
decreasing_by
  simp only [readAtVer] at h
  omega

/-- The whole version-reading phase of `UseFiles` on a fresh engine
(`currentVersion = 0`, zeroed `verdata`, zero `lastPageID`): returns the
recorded `versions` entries, the final `currentVersion` and the final
`lastPageID`. -/
def readVersions (file : List Nat) : List (Nat × Nat) × Nat × Nat :=
  readVersionsLoop file (List.replicate 8 0) 0 [] 0

/-- C8, behavior at the failing input: a version file holding one complete
big-endian entry (value 7) followed by a single stray byte 0x01.  The code
does NOT ignore the partial trailing entry: `ReadAt` returns `n = 1 > 0`,
so the loop decodes the buffer `[1,0,0,0,0,0,0,7]` (one new byte plus
seven stale bytes of the previous entry), records the fabricated version
entry `(1, 0x0100000000000007)` and sets `currentVersion = 2`, where the
claim requires `versions = [(0, 7)]` and `currentVersion = 1`. -/
theorem C8_version_tail_read :
    readVersions [0, 0, 0, 0, 0, 0, 0, 7, 1] =
      ([(0, 7), (1, 72057594037927943)], 2, 72057594037927943) ∧
    (2 : Nat) ≠ 1 := by
  constructor
  · rw [readVersions]
    unfold readVersionsLoop
    norm_num [readAtVer, beUint64]
    unfold readVersionsLoop
    norm_num [readAtVer, beUint64]
    unfold readVersionsLoop
    norm_num [readAtVer, beUint64]
  · decide

/-! ## The page serializer (claims C5, C6, C9)

The serializer operates on trees that may contain pins and arrows.  The
`arrow` pointer of a node lives in the shadow (previous-version) tree;
pass 1 and pass 2 only compare it against `nil` (and write its `pageId`
field, a mutation of the shadow tree outside the serializer's state), so
it is embedded as the Bool `hasArrow`. -/

/-- `PinnedPageID` (defined outside `src/`, fully determined by its uses
in `avl_3.go`): a page id together with the flag distinguishing an old
pin (`pinned = true`) from a freshly reserved merge id. -/
structure PinnedPageID where
  id : Nat
  pinned : Bool
deriving DecidableEq, Repr

/-- Serializer-side tree nodes: `Leaf3`, `Fork3` and `Arrow3`. -/
inductive SNode where
  | leaf (key value : Bytes) (valueId : Nat) (valueLen : Nat)
      (pinnedPageId : Nat) (hasArrow : Bool)
  | fork (height : Nat) (left right : SNode) (max : Bytes)
      (pinnedPageId : Nat) (hasArrow : Bool)
  | arrow (pageId : Nat) (height : Nat) (max : Bytes)
deriving DecidableEq, Repr

/-- `getmax` on serializer nodes. -/
def SNode.getmax : SNode → Bytes
  | .leaf k _ _ _ _ _ => k
  | .fork _ _ _ m _ _ => m
  | .arrow _ _ m => m

/-- `getheight` on serializer nodes. -/
def SNode.getheight : SNode → Nat
  | .leaf _ _ _ _ _ _ => 1
  | .fork h _ _ _ _ _ => h
  | .arrow _ h _ => h

/-- Modelled from the spec: the compile-time constants `PageSize`,
`InlineValueMax` and the global `HashLength` are defined outside `src/`
(§6 Configuration names them; no values are fixed there), so they are
carried as parameters; `hashLength` is the engine field `t.hashLength`
(default 32, settable via `SetHashLength`). -/
structure Config where
  pageSize : Nat
  inlineValueMax : Nat
  hashLengthG : Nat
  hashLength : Nat
deriving DecidableEq, Repr

/-- Modelled from the spec: `commonPrefix` (defined outside `src/`)
computes the longest common byte prefix of two keys (§4.D pass 1,
"prefix (common byte prefix of all keys)"). -/
def commonPref : Bytes → Bytes → Bytes
  | a :: as, b :: bs => if a = b then a :: commonPref as bs else []
  | _, _ => []

/-- `Avl3.pageSize` (lines 1088-1102).  All quantities are `uint32`; the
subtraction `keyBodySize - nodeCount*prefixLen` never underflows on the
calls the engine makes, because the prefix is a common prefix of the
`nodeCount` keys measured by `keyBodySize`, and there `Nat` and wrapped
subtraction agree. -/
def pageSizeF (cfg : Config) (keyCount pageCount keyBodySize valBodySize structBits : Nat)
    (pref : Bytes) : Nat :=
  let nodeCount := keyCount + pageCount
  let prefixLen := pref.length
  4 + 4 * ((nodeCount + 31) / 32) + 4 + (4 * nodeCount + 4) +
    (12 + cfg.hashLength) * pageCount + 4 * keyCount +
    4 * ((structBits + 31) / 32) + prefixLen +
    (keyBodySize - nodeCount * prefixLen) + valBodySize

/-- The serialisation-relevant engine state (in-memory mode: all files are
`nil`, pages live in `pageMap`, large values in `valueMap`). -/
structure SState where
  pageMap : List (Nat × List Nat)
  maxPageId : Nat
  freelist : List Nat
  pagesToRecycle : Finset Nat
  maxValueId : Nat
  valueMap : List (Nat × Bytes)
  valueLens : List (Nat × Nat)
  commitedCounter : Nat
  pageSpace : Nat
deriving DecidableEq

/-- `Avl3.nextPageId` acting on the serializer state (same code as
`nextPageId` above). -/
def nextPageIdS (s : SState) : Nat × SState :=
  let mx := recycleMax s.pagesToRecycle
  if mx ≠ 0 then
    (mx, { s with pagesToRecycle := s.pagesToRecycle.erase mx })
  else if s.freelist.length > 0 then
    (s.freelist.getLastD 0, { s with freelist := s.freelist.dropLast })
  else
    (s.maxPageId + 1, { s with maxPageId := s.maxPageId + 1 })

/-- `copy(data[off:], src)` on a byte list: positional write, truncated at
the end of the buffer (Go `copy` semantics); always length-preserving. -/
def copyAt (data : List Nat) (off : Nat) (src : List Nat) : List Nat :=
  data.take off ++ src.take (data.length - off) ++ data.drop (off + src.length)

/-- `data[idx] |= mask` (in-range in all reachable uses). -/
def orAt (data : List Nat) (idx : Nat) (mask : Nat) : List Nat :=
  data.set idx (data.getD idx 0 ||| mask)

/-- Big-endian bytes of a `uint32` (`binary.BigEndian.PutUint32`). -/
def be32 (n : Nat) : List Nat :=
  [n / 16777216 % 256, n / 65536 % 256, n / 256 % 256, n % 256]

/-- Big-endian bytes of a `uint64` (`binary.BigEndian.PutUint64`). -/
def be64 (n : Nat) : List Nat :=
  [n / 72057594037927936 % 256, n / 281474976710656 % 256,
   n / 1099511627776 % 256, n / 4294967296 % 256,
   n / 16777216 % 256, n / 65536 % 256, n / 256 % 256, n % 256]

/-- `Avl3.serialiseKey` (lines 1377-1382): write the key-body offset into
the key-header slot, copy the (prefix-stripped) key into the key body,
and advance both offsets. -/
def serialiseKey (key : Bytes) (data : List Nat) (keyHeaderOffset keyBodyOffset : Nat) :
    List Nat × Nat × Nat :=
  let d1 := copyAt data keyHeaderOffset (be32 keyBodyOffset)
  let d2 := copyAt d1 keyBodyOffset key
  (d2, keyHeaderOffset + 4, keyBodyOffset + key.length)

/-- `Avl3.serialiseVal` (lines 1384-1406): write the value length header;
an over-`InlineValueMax` value gets a value id (allocating one and adding
the value to the value store when `valueId = 0`) plus a zero hash slot in
the body, otherwise the value bytes are inlined.  Returns the (possibly
new) value id. -/
def serialiseVal (cfg : Config) (value : Bytes) (valueId : Nat) (valueLen : Nat)
    (data : List Nat) (valueHeaderOffset valBodyOffset : Nat) (s : SState) :
    Nat × List Nat × Nat × Nat × SState :=
  let d1 := copyAt data valueHeaderOffset (be32 valueLen)
  let vho := valueHeaderOffset + 4
  if valueLen > cfg.inlineValueMax then
    if valueId = 0 then
      let vid := s.maxValueId + 1
      let s1 : SState := { s with valueMap := (vid, value) :: s.valueMap,
                                  valueLens := (vid, value.length) :: s.valueLens,
                                  maxValueId := s.maxValueId + 1 }
      let d2 := copyAt d1 valBodyOffset (be64 vid)
      let d3 := copyAt d2 (valBodyOffset + 8) (List.replicate cfg.hashLengthG 0)
      (vid, d3, vho, valBodyOffset + 8 + cfg.hashLengthG, s1)
    else
      let d2 := copyAt d1 valBodyOffset (be64 valueId)
      let d3 := copyAt d2 (valBodyOffset + 8) (List.replicate cfg.hashLengthG 0)
      (valueId, d3, vho, valBodyOffset + 8 + cfg.hashLengthG, s)
  else
    let d2 := copyAt d1 valBodyOffset value
    (valueId, d2, vho, valBodyOffset + valueLen, s)

/-- The mutable cursor set of `serialisePass2`. -/
structure Pass2Ctx where
  data : List Nat
  nodeIndex : Nat
  structBit : Nat
  keyHeaderOffset : Nat
  arrowHeaderOffset : Nat
  valueHeaderOffset : Nat
  keyBodyOffset : Nat
  valBodyOffset : Nat
deriving DecidableEq

/-- `Avl3.serialisePass2` (lines 1408-1466): emit the page bytes.  A leaf
writes key and value and sets its structure bit unless pinned; a fork
advances the structure bit between its children and writes a closing `1`;
an arrow writes its header, key and page bit, and its structure bit
unless the subtree is pinned.  The writes `r.arrow.pageId = pageId`
mutate the shadow tree's arrow objects, which live outside this state.
Returns the updated node (leaf value ids are assigned). -/
def serialisePass2 (cfg : Config) :
    SNode → Nat → Nat → Bool → Nat → Nat → Pass2Ctx → SState →
      SNode × Pass2Ctx × SState
  | .leaf key value valueId valueLen pin hasArrow,
      pageId, prefixLen, subtreePinned, _pbo, sbo, ctx, s =>
    let k := serialiseKey (key.drop prefixLen) ctx.data ctx.keyHeaderOffset ctx.keyBodyOffset
    let v := serialiseVal cfg value valueId valueLen k.1 ctx.valueHeaderOffset ctx.valBodyOffset s
    let pinned := subtreePinned || decide (pin = pageId) || hasArrow
    let d := if pinned then v.2.1
             else orAt v.2.1 (sbo + ctx.structBit / 8) (1 <<< (ctx.structBit % 8))
    (.leaf key value v.1 valueLen pin hasArrow,
      { data := d, nodeIndex := ctx.nodeIndex + 1, structBit := ctx.structBit + 1,
        keyHeaderOffset := k.2.1, arrowHeaderOffset := ctx.arrowHeaderOffset,
        valueHeaderOffset := v.2.2.1, keyBodyOffset := k.2.2,
        valBodyOffset := v.2.2.2.1 },
      v.2.2.2.2)
  | .fork h l r m pin hasArrow, pageId, prefixLen, subtreePinned, pbo, sbo, ctx, s =>
    let pinned := subtreePinned || decide (pin = pageId) || hasArrow
    let a := serialisePass2 cfg l pageId prefixLen pinned pbo sbo ctx s
    let ctx2 := { a.2.1 with structBit := a.2.1.structBit + 1 }
    let b := serialisePass2 cfg r pageId prefixLen pinned pbo sbo ctx2 a.2.2
    let d := orAt b.2.1.data (sbo + b.2.1.structBit / 8) (1 <<< (b.2.1.structBit % 8))
    (.fork h a.1 b.1 m pin hasArrow,
      { b.2.1 with data := d, structBit := b.2.1.structBit + 1 }, b.2.2)
  | .arrow pid h m, _pageId, prefixLen, subtreePinned, pbo, sbo, ctx, s =>
    let d1 := copyAt ctx.data ctx.arrowHeaderOffset (be64 pid)
    let d2 := copyAt d1 (ctx.arrowHeaderOffset + 8) (be32 h)
    let k := serialiseKey (m.drop prefixLen) d2 ctx.keyHeaderOffset ctx.keyBodyOffset
    let d4 := orAt k.1 (pbo + ctx.nodeIndex / 8) (1 <<< (ctx.nodeIndex % 8))
    let d5 := if subtreePinned then d4
              else orAt d4 (sbo + ctx.structBit / 8) (1 <<< (ctx.structBit % 8))
    (.arrow pid h m,
      { data := d5, nodeIndex := ctx.nodeIndex + 1, structBit := ctx.structBit + 1,
        keyHeaderOffset := k.2.1,
        arrowHeaderOffset := ctx.arrowHeaderOffset + 8 + 4 + cfg.hashLength,
        valueHeaderOffset := ctx.valueHeaderOffset, keyBodyOffset := k.2.2,
        valBodyOffset := ctx.valBodyOffset }, s)

/-- The six packing metrics plus the inherited pin returned by pass 1. -/
structure Metrics where
  pref : Bytes
  keyCount : Nat
  pageCount : Nat
  keyBodySize : Nat
  valBodySize : Nat
  structBits : Nat
  pin : PinnedPageID
deriving DecidableEq, Repr

/-- `Avl3.commitPage` (lines 1141-1217): allocate the buffer of the
computed size, lay out the header offsets, choose the page id (the pinned
id for old pins, a fresh `nextPageId` otherwise), run pass 2, write the
terminating key offset, and store the page.  The source panics when the
final cursor values disagree with the metrics; this is the `none`
result. -/
def commitPage (cfg : Config) (r : SNode) (met : Metrics) (s : SState) :
    Option (Nat × SNode × SState) :=
  let nodeCount := met.keyCount + met.pageCount
  let size := pageSizeF cfg met.keyCount met.pageCount met.keyBodySize
    met.valBodySize met.structBits met.pref
  let d1 := copyAt (List.replicate size 0) 0 (be32 nodeCount)
  let pageBitsOffset := 4
  let prefixOffsetOffset := pageBitsOffset + 4 * ((nodeCount + 31) / 32)
  let keyHeaderOffset := prefixOffsetOffset + 4
  let arrowHeaderOffset := keyHeaderOffset + 4 * nodeCount + 4
  let valueHeaderOffset := arrowHeaderOffset + (12 + cfg.hashLength) * met.pageCount
  let structBitsOffset := valueHeaderOffset + 4 * met.keyCount
  let prefixStart := structBitsOffset + 4 * ((met.structBits + 31) / 32)
  let d2 := copyAt d1 prefixOffsetOffset (be32 prefixStart)
  let d3 := copyAt d2 prefixStart met.pref
  let keyBodyOffset := prefixStart + met.pref.length
  let valBodyOffset := keyBodyOffset + (met.keyBodySize - nodeCount * met.pref.length)
  let alloc := if met.pin.pinned then (met.pin.id, s) else nextPageIdS s
  let p := serialisePass2 cfg r alloc.1 met.pref.length false pageBitsOffset structBitsOffset
    ⟨d3, 0, 0, keyHeaderOffset, arrowHeaderOffset, valueHeaderOffset,
      keyBodyOffset, valBodyOffset⟩ alloc.2
  let d4 := copyAt p.2.1.data p.2.1.keyHeaderOffset (be32 p.2.1.keyBodyOffset)
  if p.2.1.valBodyOffset = size ∧ p.2.1.nodeIndex = nodeCount ∧
      p.2.1.structBit = met.structBits then
    some (alloc.1, p.1,
      { p.2.2 with pageMap := (alloc.1, d4) :: p.2.2.pageMap,
                   commitedCounter := p.2.2.commitedCounter + 1,
                   pageSpace := p.2.2.pageSpace + size })
  else
    none

/-- The repeated commit-the-child block of `Fork3.serialisePass1` (the
source inlines it four times, lines 1311-1321, 1336-1346 and their
mirrors): a child that is already an `Arrow3` is left alone, any other
child is committed as its own page and replaced by an arrow to it. -/
def commitChild (cfg : Config) (c : SNode) (mC : Metrics) (s : SState) :
    Option (SNode × SState) :=
  match c with
  | .arrow cpid ch cmax => some (.arrow cpid ch cmax, s)
  | c =>
    match commitPage cfg c mC s with
    | none => none
    | some (cid, _, s1) => some (.arrow cid c.getheight c.getmax, s1)

/-- The three-way pin-merge decision of `Fork3.serialisePass1` (lines
1254-1268), in the source's condition order. -/
def mergable3 (pl pr pf : PinnedPageID) : Bool :=
  if pl.id = 0 ∧ pr.id = 0 then true
  else if pl.id = 0 ∧ pf.id = 0 then true
  else if pr.id = 0 ∧ pf.id = 0 then true
  else if pl.id = pr.id ∧ pl.pinned = pr.pinned ∧ pr.id = pf.id ∧ pr.pinned = pf.pinned then true
  else false

/-- The merged pin of the three-way decision (meaningful when
`mergable3`). -/
def mergePin3 (pl pr pf : PinnedPageID) : PinnedPageID :=
  if pl.id = 0 ∧ pr.id = 0 then pf
  else if pl.id = 0 ∧ pf.id = 0 then pr
  else if pr.id = 0 ∧ pf.id = 0 then pl
  else pf

/-- The two-way pin-merge decision used by the re-tests with one
remaining child (lines 1284-1307); `pc` is the child pin, `pf` the fork's
own pin. -/
def mergable2 (pc pf : PinnedPageID) : Bool :=
  if pc.id = 0 then true
  else if pf.id = 0 then true
  else if pc.id = pf.id ∧ pc.pinned = pf.pinned then true
  else false

/-- The merged pin of the two-way decision. -/
def mergePin2 (pc pf : PinnedPageID) : PinnedPageID :=
  if pc.id = 0 then pf
  else if pf.id = 0 then pc
  else pf

/-- `serialisePass1` (lines 1220-1375) for all three node kinds, with the
`maxPageId` merge counter threaded as `mpid`.  A fork first tries to
merge fork and both children (three-way pin check plus the size check),
then commits the larger child (the right one on ties, because the
comparison is `sizeL > sizeR`), re-tests fork plus remaining child, and
if that still fails commits the other child as well and returns a fork of
two arrows. -/
def serialisePass1 (cfg : Config) :
    SNode → SState → Nat → Option (Metrics × SNode × SState × Nat)
  | .leaf key value valueId valueLen pin hasArrow, s, mpid =>
    let pin0 : PinnedPageID :=
      if pin ≠ 0 then ⟨pin, true⟩
      else if hasArrow then ⟨mpid + 1, false⟩ else ⟨0, false⟩
    let mpid0 := if pin = 0 ∧ hasArrow = true then mpid + 1 else mpid
    some (⟨key, 1, 0, key.length,
      if valueLen > cfg.inlineValueMax then 8 + cfg.hashLengthG else valueLen,
      1, pin0⟩, .leaf key value valueId valueLen pin hasArrow, s, mpid0)
  | .arrow pid h m, s, mpid =>
    some (⟨m, 0, 1, m.length, 0, 1, ⟨0, false⟩⟩, .arrow pid h m, s, mpid)
  | .fork h l r m pin hasArrow, s, mpid =>
    let pin0 : PinnedPageID :=
      if pin ≠ 0 then ⟨pin, true⟩
      else if hasArrow then ⟨mpid + 1, false⟩ else ⟨0, false⟩
    let mpid0 := if pin = 0 ∧ hasArrow = true then mpid + 1 else mpid
    match serialisePass1 cfg l s mpid0 with
    | none => none
    | some (mL, l1, s1, mpid1) =>
      match serialisePass1 cfg r s1 mpid1 with
      | none => none
      | some (mR, r1, s2, mpid2) =>
        let keyCountLFR := mL.keyCount + mR.keyCount
        let pageCountLFR := mL.pageCount + mR.pageCount
        let keyBodySizeLFR := mL.keyBodySize + mR.keyBodySize
        let valBodySizeLFR := mL.valBodySize + mR.valBodySize
        let structBitsLFR := mL.structBits + mR.structBits + 2
        let prefixLFR := commonPref mL.pref mR.pref
        let sizeLFR := pageSizeF cfg keyCountLFR pageCountLFR keyBodySizeLFR
          valBodySizeLFR structBitsLFR prefixLFR
        if mergable3 mL.pin mR.pin pin0 = true ∧ sizeLFR < cfg.pageSize then
          some (⟨prefixLFR, keyCountLFR, pageCountLFR, keyBodySizeLFR,
            valBodySizeLFR, structBitsLFR, mergePin3 mL.pin mR.pin pin0⟩,
            .fork h l1 r1 m pin hasArrow, s2, mpid2)
        else
          let sizeL := pageSizeF cfg mL.keyCount mL.pageCount mL.keyBodySize
            mL.valBodySize mL.structBits mL.pref
          let sizeR := pageSizeF cfg mR.keyCount mR.pageCount mR.keyBodySize
            mR.valBodySize mR.structBits mR.pref
          if sizeL > sizeR then
            match commitChild cfg l1 mL s2 with
            | none => none
            | some (lArrow, s3) =>
              let pageCountFR := mR.pageCount + 1
              let keyBodySizeFR := mR.keyBodySize + lArrow.getmax.length
              let structBitsFR := mR.structBits + 3
              let prefixFR := commonPref mR.pref lArrow.getmax
              let sizeFR := pageSizeF cfg mR.keyCount pageCountFR keyBodySizeFR
                mR.valBodySize structBitsFR prefixFR
              if mergable2 mR.pin pin0 = true ∧ sizeFR < cfg.pageSize then
                some (⟨prefixFR, mR.keyCount, pageCountFR, keyBodySizeFR,
                  mR.valBodySize, structBitsFR, mergePin2 mR.pin pin0⟩,
                  .fork h lArrow r1 m pin hasArrow, s3, mpid2)
              else
                match commitChild cfg r1 mR s3 with
                | none => none
                | some (rArrow, s4) =>
                  some (⟨commonPref rArrow.getmax lArrow.getmax, 0, 2,
                    lArrow.getmax.length + rArrow.getmax.length, 0, 4, pin0⟩,
                    .fork h lArrow rArrow m pin hasArrow, s4, mpid2)
          else
            match commitChild cfg r1 mR s2 with
            | none => none
            | some (rArrow, s3) =>
              let pageCountFL := mL.pageCount + 1
              let keyBodySizeFL := mL.keyBodySize + rArrow.getmax.length
              let structBitsFL := mL.structBits + 3
              let prefixFL := commonPref mL.pref rArrow.getmax
              let sizeFL := pageSizeF cfg mL.keyCount pageCountFL keyBodySizeFL
                mL.valBodySize structBitsFL prefixFL
              if mergable2 mL.pin pin0 = true ∧ sizeFL < cfg.pageSize then
                some (⟨prefixFL, mL.keyCount, pageCountFL, keyBodySizeFL,
                  mL.valBodySize, structBitsFL, mergePin2 mL.pin pin0⟩,
                  .fork h l1 rArrow m pin hasArrow, s3, mpid2)
              else
                match commitChild cfg l1 mL s3 with
                | none => none
                | some (lArrow, s4) =>
                  some (⟨commonPref rArrow.getmax lArrow.getmax, 0, 2,
                    lArrow.getmax.length + rArrow.getmax.length, 0, 4, pin0⟩,
                    .fork h lArrow rArrow m pin hasArrow, s4, mpid2)

/-- Association lookup for the page map. -/
def lookupPage : List (Nat × List Nat) → Nat → Option (List Nat)
  | [], _ => none
  | (k, v) :: rest, key => if key = k then some v else lookupPage rest key

/-- Deleting a key from the page map (Go `delete(t.pageMap, pageId)`). -/
def erasePage (l : List (Nat × List Nat)) (key : Nat) : List (Nat × List Nat) :=
  l.filter (fun p => p.1 ≠ key)

/-- `Avl3.freePageId` (lines 316-323): release the in-memory buffer and
push the id onto the free list (the page-cache invalidation is commented
out in the source). -/
def freePageIdS (s : SState) (pageId : Nat) : SState :=
  match lookupPage s.pageMap pageId with
  | some data =>
    { s with pageSpace := s.pageSpace - data.length,
             pageMap := erasePage s.pageMap pageId,
             freelist := s.freelist ++ [pageId] }
  | none => s

/-- The engine state around `Commit` (in-memory mode: `verFile` is nil,
so the version-file writes are skipped). -/
structure EngineS where
  root : Option SNode
  prevRoot : Option SNode
  st : SState
  currentVersion : Nat
  versions : List (Nat × Nat)
deriving DecidableEq

/-- A deterministic drain order for `pagesToRecycle` (the Go `for ... range`
order over the map is unspecified): repeatedly remove the maximum. -/
def drainRecycle : Nat → Finset Nat → List Nat
  | 0, _ => []
  | fuel + 1, s =>
    if s = ∅ then []
    else recycleMax s :: drainRecycle fuel (s.erase (recycleMax s))

/-- `Avl3.Commit` (lines 1105-1139): pass 1 and `commitPage` over the
current root; then, when `prevRoot` is present, pass 1 (with the merge
counter scoped to the current `maxPageId`) and `commitPage` over it,
recording `versions[currentVersion]`; drain `pagesToRecycle` through
`freePageId` (the Go `range` order over the map is unspecified;
descending order by repeated maximum is used here, and no claim depends
on it); advance the version and
install arrows to the new root page as both `root` and `prevRoot` (the
`back_arrow` link between them lives outside this state).  Returns the
number of pages committed. -/
def CommitS (cfg : Config) (e : EngineS) : Option (Nat × EngineS) :=
  match e.root with
  | none => some (0, e)
  | some root =>
    let startCounter := e.st.commitedCounter
    match serialisePass1 cfg root e.st 0 with
    | none => none
    | some (met, root1, s1, _) =>
      match commitPage cfg root1 met s1 with
      | none => none
      | some (currentId, _, s2) =>
        let afterPrev : Option (SState × List (Nat × Nat)) :=
          match e.prevRoot with
          | none => some (s2, e.versions)
          | some prev =>
            match serialisePass1 cfg prev s2 s2.maxPageId with
            | none => none
            | some (metP, prev1, s3, _) =>
              match commitPage cfg prev1 metP s3 with
              | none => none
              | some (prevId, _, s4) =>
                some (s4, e.versions ++ [(e.currentVersion, prevId)])
        match afterPrev with
        | none => none
        | some (s5, vers1) =>
          let s6 := (drainRecycle s5.pagesToRecycle.card s5.pagesToRecycle).foldl freePageIdS s5
          let s7 := { s6 with pagesToRecycle := ∅ }
          some (s7.commitedCounter - startCounter,
            { root := some (.arrow currentId root1.getheight root1.getmax),
              prevRoot := some (.arrow currentId root1.getheight root1.getmax),
              st := s7, currentVersion := e.currentVersion + 1,
              versions := vers1 ++ [(e.currentVersion + 1, currentId)] })

/-- `heightsCorrect` on serializer nodes, including `Arrow3.heightsCorrect`
(lines 1080-1082): an arrow reports its cached height as correct. -/
def heightsCorrectS : SNode → Nat × Bool
  | .leaf _ _ _ _ _ _ => (1, true)
  | .fork h l r _ _ _ =>
    let lp := heightsCorrectS l
    let rp := heightsCorrectS r
    (1 + maxu32 lp.1 rp.1, lp.2 && rp.2 && decide (1 + maxu32 lp.1 rp.1 = h))
  | .arrow _ h _ => (h, true)

/-- `balanceCorrect` on serializer nodes, including `Arrow3.balanceCorrect`
(lines 1084-1086). -/
def balanceCorrectS : SNode → Bool
  | .leaf _ _ _ _ _ _ => true
  | .fork _ l r _ _ _ =>
    let lH := l.getheight
    let rH := r.getheight
    let balanced := if rH ≥ lH then rH - lH < 2 else lH - rH < 2
    balanced && balanceCorrectS l && balanceCorrectS r
  | .arrow _ _ _ => true

/-- Keys and routing max-keys of a serializer tree all have length at
most `K` (the bound under which pages stay within the page budget). -/
def keysBounded (K : Nat) : SNode → Bool
  | .leaf k _ _ _ _ _ => decide (k.length ≤ K)
  | .fork _ l r m _ _ => decide (m.length ≤ K) && keysBounded K l && keysBounded K r
  | .arrow _ _ m => decide (m.length ≤ K)

/-- The size `commitPage` computes for a page with metrics `met`. -/
def metSize (cfg : Config) (met : Metrics) : Nat :=
  pageSizeF cfg met.keyCount met.pageCount met.keyBodySize met.valBodySize
    met.structBits met.pref

/-- An upper bound on the size of the pages `serialisePass1` can be forced
to emit regardless of the page budget: a single-leaf page, a single-arrow
page, and a fork-of-two-arrows page, with all keys of length at most
`K`. -/
def Abound (cfg : Config) (K : Nat) : Nat :=
  max (28 + K + max cfg.inlineValueMax (8 + cfg.hashLengthG))
    (max (36 + cfg.hashLength + K) (52 + 2 * cfg.hashLength + 2 * K))

theorem copyAt_length (data : List Nat) (off : Nat) (src : List Nat) :
    (copyAt data off src).length = data.length := by
  simp [copyAt]
  omega

theorem orAt_length (data : List Nat) (i m : Nat) :
    (orAt data i m).length = data.length := by
  simp [orAt]

theorem serialiseKey_length (key : Bytes) (d : List Nat) (kho kbo : Nat) :
    (serialiseKey key d kho kbo).1.length = d.length := by
  simp [serialiseKey, copyAt_length]

theorem serialiseVal_length (cfg : Config) (value : Bytes) (vid vlen : Nat)
    (d : List Nat) (vho vbo : Nat) (s : SState) :
    (serialiseVal cfg value vid vlen d vho vbo s).2.1.length = d.length := by
  unfold serialiseVal
  dsimp only
  split
  · split <;> simp [copyAt_length]
  · simp [copyAt_length]

theorem serialiseVal_pageMap (cfg : Config) (value : Bytes) (vid vlen : Nat)
    (d : List Nat) (vho vbo : Nat) (s : SState) :
    (serialiseVal cfg value vid vlen d vho vbo s).2.2.2.2.pageMap = s.pageMap := by
  unfold serialiseVal
  dsimp only
  split
  · split <;> rfl
  · rfl

theorem serialisePass2_inv (cfg : Config) (n : SNode) :
    ∀ (pid pl : Nat) (sp : Bool) (pbo sbo : Nat) (ctx : Pass2Ctx) (s : SState),
      (serialisePass2 cfg n pid pl sp pbo sbo ctx s).2.1.data.length = ctx.data.length ∧
      (serialisePass2 cfg n pid pl sp pbo sbo ctx s).2.2.pageMap = s.pageMap := by
  induction n with
  | leaf k v vid vlen pin ha =>
    intro pid pl sp pbo sbo ctx s
    simp only [serialisePass2]
    constructor
    · split <;> simp [serialiseVal_length, serialiseKey_length, orAt_length]
    · simp [serialiseVal_pageMap]
  | fork h l r m pin ha ihl ihr =>
    intro pid pl sp pbo sbo ctx s
    simp only [serialisePass2]
    constructor
    · simp only [orAt_length]
      rw [(ihr _ _ _ _ _ _ _).1]
      exact (ihl _ _ _ _ _ _ _).1
    · rw [(ihr _ _ _ _ _ _ _).2]
      exact (ihl _ _ _ _ _ _ _).2
  | arrow pid2 h2 m2 =>
    intro pid pl sp pbo sbo ctx s
    simp only [serialisePass2]
    constructor
    · split <;> simp [orAt_length, serialiseKey_length, copyAt_length]
    · trivial

theorem nextPageIdS_pageMap (s : SState) : (nextPageIdS s).2.pageMap = s.pageMap := by
  unfold nextPageIdS
  dsimp only
  split
  · rfl
  · split <;> rfl

theorem serialisePass2_pageMap (cfg : Config) (n : SNode) (pid pl : Nat) (sp : Bool)
    (pbo sbo : Nat) (ctx : Pass2Ctx) (s : SState) :
    (serialisePass2 cfg n pid pl sp pbo sbo ctx s).2.2.pageMap = s.pageMap :=
  (serialisePass2_inv cfg n pid pl sp pbo sbo ctx s).2

theorem serialisePass2_dataLength (cfg : Config) (n : SNode) (pid pl : Nat) (sp : Bool)
    (pbo sbo : Nat) (ctx : Pass2Ctx) (s : SState) :
    (serialisePass2 cfg n pid pl sp pbo sbo ctx s).2.1.data.length = ctx.data.length :=
  (serialisePass2_inv cfg n pid pl sp pbo sbo ctx s).1

theorem commitPage_pageMap (cfg : Config) (r : SNode) (met : Metrics) (s : SState)
    (id2 : Nat) (r1 : SNode) (s1 : SState)
    (hc : commitPage cfg r met s = some (id2, r1, s1)) :
    ∃ d : List Nat, s1.pageMap = (id2, d) :: s.pageMap ∧ d.length = metSize cfg met := by
  have halloc : (if met.pin.pinned then (met.pin.id, s) else nextPageIdS s).2.pageMap
      = s.pageMap := by
    split
    · rfl
    · exact nextPageIdS_pageMap s
  unfold commitPage at hc
  dsimp only at hc
  generalize hga : (if met.pin.pinned then (met.pin.id, s) else nextPageIdS s) = alloc at hc
  rw [hga] at halloc
  split at hc
  · simp only [Option.some.injEq, Prod.mk.injEq] at hc
    obtain ⟨hid, -, hs⟩ := hc
    subst hs
    subst hid
    simp only [serialisePass2_pageMap, halloc]
    refine ⟨_, rfl, ?_⟩
    simp only [copyAt_length, serialisePass2_dataLength]
    simp only [copyAt_length, List.length_replicate]
    rfl
  · exact absurd hc (by simp)

theorem commonPref_length_left : ∀ (a b : Bytes), (commonPref a b).length ≤ a.length
  | [], _ => by simp [commonPref]
  | _ :: _, [] => by simp [commonPref]
  | a :: as, b :: bs => by
    rw [commonPref]
    split
    · simpa using commonPref_length_left as bs
    · simp

theorem commonPref_length_right : ∀ (a b : Bytes), (commonPref a b).length ≤ b.length
  | [], _ => by simp [commonPref]
  | _ :: _, [] => by simp [commonPref]
  | a :: as, b :: bs => by
    rw [commonPref]
    split
    · simpa using commonPref_length_right as bs
    · simp

theorem keysBounded_getmax (K : Nat) (n : SNode) (h : keysBounded K n = true) :
    n.getmax.length ≤ K := by
  cases n with
  | leaf k v vid vlen pin ha => simpa [keysBounded, SNode.getmax] using h
  | fork h2 l r m pin ha =>
    simp only [keysBounded, Bool.and_eq_true, decide_eq_true_eq] at h
    exact h.1.1
  | arrow pid h2 m => simpa [keysBounded, SNode.getmax] using h


theorem commitChild_nonarrow (cfg : Config) (c : SNode) (mC : Metrics) (s : SState)
    (c1 : SNode) (s1 : SState)
    (hc : commitChild cfg c mC s = some (c1, s1))
    (hna : ∀ (pid h : Nat) (mx : Bytes), c ≠ .arrow pid h mx) :
    ∃ cid d, c1 = .arrow cid c.getheight c.getmax ∧
      s1.pageMap = (cid, d) :: s.pageMap ∧ d.length = metSize cfg mC := by
  cases c with
  | arrow cpid ch cmax => exact absurd rfl (hna cpid ch cmax)
  | leaf k v vid vlen pin ha =>
    simp only [commitChild] at hc
    rcases h4 : commitPage cfg (.leaf k v vid vlen pin ha) mC s with - | ⟨cid, cx, s2⟩ <;>
      rw [h4] at hc
    · exact absurd hc (by simp)
    · obtain ⟨d, hmap, hlen⟩ := commitPage_pageMap _ _ _ _ _ _ _ h4
      simp only [Option.some.injEq, Prod.mk.injEq] at hc
      obtain ⟨hc1, hs1⟩ := hc
      exact ⟨cid, d, hc1.symm, hs1 ▸ hmap, hlen⟩
  | fork h2 l r m pin ha =>
    simp only [commitChild] at hc
    rcases h4 : commitPage cfg (.fork h2 l r m pin ha) mC s with - | ⟨cid, cx, s2⟩ <;>
      rw [h4] at hc
    · exact absurd hc (by simp)
    · obtain ⟨d, hmap, hlen⟩ := commitPage_pageMap _ _ _ _ _ _ _ h4
      simp only [Option.some.injEq, Prod.mk.injEq] at hc
      obtain ⟨hc1, hs1⟩ := hc
      exact ⟨cid, d, hc1.symm, hs1 ▸ hmap, hlen⟩

theorem commitChild_spec (cfg : Config) (K B : Nat) (c : SNode) (mC : Metrics)
    (s : SState) (c1 : SNode) (s1 : SState)
    (hc : commitChild cfg c mC s = some (c1, s1))
    (hsz : metSize cfg mC ≤ B) (hkb : keysBounded K c = true)
    (hP : ∀ p ∈ s.pageMap, p.2.length ≤ B) :
    (∀ p ∈ s1.pageMap, p.2.length ≤ B) ∧ c1.getmax = c.getmax ∧
      keysBounded K c1 = true := by
  cases c with
  | arrow cpid ch cmax =>
    rw [commitChild] at hc
    simp only [Option.some.injEq, Prod.mk.injEq] at hc
    obtain ⟨hc1, hs1⟩ := hc
    subst hs1
    rw [← hc1]
    exact ⟨hP, rfl, hkb⟩
  | leaf k v vid vlen pin ha =>
    obtain ⟨cid, d, hc1, hmap, hlen⟩ :=
      commitChild_nonarrow cfg _ mC s c1 s1 hc (by intro pid h mx hne; cases hne)
    subst hc1
    refine ⟨?_, rfl, ?_⟩
    · intro p hp
      rw [hmap] at hp
      rcases List.mem_cons.mp hp with hp | hp
      · rw [hp]
        simpa [hlen] using hsz
      · exact hP p hp
    · simpa [keysBounded] using keysBounded_getmax K _ hkb
  | fork h2 l r m pin ha =>
    obtain ⟨cid, d, hc1, hmap, hlen⟩ :=
      commitChild_nonarrow cfg _ mC s c1 s1 hc (by intro pid h mx hne; cases hne)
    subst hc1
    refine ⟨?_, rfl, ?_⟩
    · intro p hp
      rw [hmap] at hp
      rcases List.mem_cons.mp hp with hp | hp
      · rw [hp]
        simpa [hlen] using hsz
      · exact hP p hp
    · simpa [keysBounded] using keysBounded_getmax K _ hkb

theorem commitChild_mem (cfg : Config) (c : SNode) (mC : Metrics) (s : SState)
    (c1 : SNode) (s1 : SState)
    (hc : commitChild cfg c mC s = some (c1, s1))
    (p : Nat × List Nat) (hp : p ∈ s.pageMap) : p ∈ s1.pageMap := by
  cases c with
  | arrow cpid ch cmax =>
    rw [commitChild] at hc
    simp only [Option.some.injEq, Prod.mk.injEq] at hc
    rw [← hc.2]
    exact hp
  | leaf k v vid vlen pin ha =>
    obtain ⟨cid, d, hc1, hmap, hlen⟩ :=
      commitChild_nonarrow cfg _ mC s c1 s1 hc (by intro pid h mx hne; cases hne)
    rw [hmap]
    exact List.mem_cons_of_mem _ hp
  | fork h2 l r m pin ha =>
    obtain ⟨cid, d, hc1, hmap, hlen⟩ :=
      commitChild_nonarrow cfg _ mC s c1 s1 hc (by intro pid h mx hne; cases hne)
    rw [hmap]
    exact List.mem_cons_of_mem _ hp

theorem commitChild_getheight (cfg : Config) (c : SNode) (mC : Metrics) (s : SState)
    (c1 : SNode) (s1 : SState)
    (hc : commitChild cfg c mC s = some (c1, s1)) :
    c1.getheight = c.getheight ∧ c1.getmax = c.getmax := by
  cases c with
  | arrow cpid ch cmax =>
    rw [commitChild] at hc
    simp only [Option.some.injEq, Prod.mk.injEq] at hc
    rw [← hc.1]
    exact ⟨rfl, rfl⟩
  | leaf k v vid vlen pin ha =>
    obtain ⟨cid, d, hc1, -, -⟩ :=
      commitChild_nonarrow cfg _ mC s c1 s1 hc (by intro pid h mx hne; cases hne)
    rw [hc1]
    exact ⟨rfl, rfl⟩
  | fork h2 l r m pin ha =>
    obtain ⟨cid, d, hc1, -, -⟩ :=
      commitChild_nonarrow cfg _ mC s c1 s1 hc (by intro pid h mx hne; cases hne)
    rw [hc1]
    exact ⟨rfl, rfl⟩

/-- Pass 1 keeps every stored page within `B` when `B` accommodates the
page budget and the unavoidable single-node pages: every page it commits
is either a child whose metrics passed the `< PageSize` check earlier, or
an atom (single leaf, single arrow, fork of two arrows) bounded by
`Abound`.  Also returns the structural facts the induction needs. -/
theorem pass1_bounded (cfg : Config) (K B : Nat)
    (hpage : cfg.pageSize ≤ B + 1) (hatom : Abound cfg K ≤ B) :
    ∀ (n : SNode) (s : SState) (mpid : Nat) (met : Metrics) (n1 : SNode)
      (s1 : SState) (mpid1 : Nat),
      keysBounded K n = true →
      serialisePass1 cfg n s mpid = some (met, n1, s1, mpid1) →
      (∀ p ∈ s.pageMap, p.2.length ≤ B) →
      ((∀ p ∈ s1.pageMap, p.2.length ≤ B) ∧ metSize cfg met ≤ B ∧
        keysBounded K n1 = true ∧ met.pref.length ≤ K) := by
  obtain ⟨hA1, hA2, hA3⟩ :
      28 + K + max cfg.inlineValueMax (8 + cfg.hashLengthG) ≤ B ∧
      36 + cfg.hashLength + K ≤ B ∧ 52 + 2 * cfg.hashLength + 2 * K ≤ B := by
    simpa [Abound] using hatom
  intro n
  induction n with
  | leaf k v vid vlen pin ha =>
    intro s mpid met n1 s1 mpid1 hkb hp hP
    simp only [keysBounded, decide_eq_true_eq] at hkb
    simp only [serialisePass1] at hp
    simp only [Option.some.injEq, Prod.mk.injEq] at hp
    obtain ⟨hmet, hn1, hs, -⟩ := hp
    subst hs
    refine ⟨hP, ?_, ?_, ?_⟩
    · rw [← hmet]
      have hvb : (if vlen > cfg.inlineValueMax then 8 + cfg.hashLengthG else vlen)
          ≤ max cfg.inlineValueMax (8 + cfg.hashLengthG) := by
        split
        · exact Nat.le_max_right _ _
        · exact le_trans (by omega) (Nat.le_max_left _ _)
      simp only [metSize, pageSizeF]
      omega
    · rw [← hn1]
      simp only [keysBounded, decide_eq_true_eq]
      exact hkb
    · rw [← hmet]
      exact hkb
  | arrow pid2 h2 m2 =>
    intro s mpid met n1 s1 mpid1 hkb hp hP
    simp only [keysBounded, decide_eq_true_eq] at hkb
    simp only [serialisePass1] at hp
    simp only [Option.some.injEq, Prod.mk.injEq] at hp
    obtain ⟨hmet, hn1, hs, -⟩ := hp
    subst hs
    refine ⟨hP, ?_, ?_, ?_⟩
    · rw [← hmet]
      simp only [metSize, pageSizeF]
      omega
    · rw [← hn1]
      simp only [keysBounded, decide_eq_true_eq]
      exact hkb
    · rw [← hmet]
      exact hkb
  | fork h l r m pin ha ihl ihr =>
    intro s mpid met n1 s1 mpid1 hkb hp hP
    simp only [keysBounded, Bool.and_eq_true, decide_eq_true_eq] at hkb
    obtain ⟨⟨hm, hbl⟩, hbr⟩ := hkb
    simp only [serialisePass1] at hp
    rcases h1 : serialisePass1 cfg l s (if pin = 0 ∧ ha = true then mpid + 1 else mpid)
      with - | ⟨mL, l1, sA, mp1⟩ <;> rw [h1] at hp
    · simp at hp
    dsimp only at hp
    rcases h2 : serialisePass1 cfg r sA mp1 with - | ⟨mR, r1, sB, mp2⟩ <;> rw [h2] at hp
    · simp at hp
    dsimp only at hp
    generalize hg0 : (if pin ≠ 0 then (⟨pin, true⟩ : PinnedPageID)
      else if ha = true then ⟨mpid + 1, false⟩ else ⟨0, false⟩) = pin0 at hp
    obtain ⟨hPA, hszL, hkbl1, hprefL⟩ := ihl s _ mL l1 sA mp1 hbl h1 hP
    obtain ⟨hPB, hszR, hkbr1, hprefR⟩ := ihr sA mp1 mR r1 sB mp2 hbr h2 hPA
    have hgl : l1.getmax.length ≤ K := keysBounded_getmax K l1 hkbl1
    have hgr : r1.getmax.length ≤ K := keysBounded_getmax K r1 hkbr1
    split at hp
    · rename_i hcond
      obtain ⟨-, hsize⟩ := hcond
      simp only [Option.some.injEq, Prod.mk.injEq] at hp
      obtain ⟨hmet, hn1, hs, -⟩ := hp
      subst hs
      refine ⟨hPB, ?_, ?_, ?_⟩
      · rw [← hmet]
        simp only [metSize]
        omega
      · rw [← hn1]
        simp only [keysBounded, Bool.and_eq_true, decide_eq_true_eq]
        exact ⟨⟨hm, hkbl1⟩, hkbr1⟩
      · rw [← hmet]
        exact le_trans (commonPref_length_left _ _) hprefL
    · split at hp
      · rcases h3 : commitChild cfg l1 mL sB with - | ⟨lArrow, s3⟩ <;> rw [h3] at hp
        · simp at hp
        dsimp only at hp
        obtain ⟨hPC, hglmax, hkbLA⟩ :=
          commitChild_spec cfg K B l1 mL sB lArrow s3 h3 hszL hkbl1 hPB
        have hLlen : lArrow.getmax.length ≤ K := by rw [hglmax]; exact hgl
        split at hp
        · rename_i hcond2
          obtain ⟨-, hsize2⟩ := hcond2
          simp only [Option.some.injEq, Prod.mk.injEq] at hp
          obtain ⟨hmet, hn1, hs, -⟩ := hp
          subst hs
          refine ⟨hPC, ?_, ?_, ?_⟩
          · rw [← hmet]
            simp only [metSize]
            omega
          · rw [← hn1]
            simp only [keysBounded, Bool.and_eq_true, decide_eq_true_eq]
            exact ⟨⟨hm, hkbLA⟩, hkbr1⟩
          · rw [← hmet]
            exact le_trans (commonPref_length_left _ _) hprefR
        · rcases h4 : commitChild cfg r1 mR s3 with - | ⟨rArrow, s4⟩ <;> rw [h4] at hp
          · simp at hp
          dsimp only at hp
          obtain ⟨hPD, hgrmax, hkbRA⟩ :=
            commitChild_spec cfg K B r1 mR s3 rArrow s4 h4 hszR hkbr1 hPC
          have hRlen : rArrow.getmax.length ≤ K := by rw [hgrmax]; exact hgr
          simp only [Option.some.injEq, Prod.mk.injEq] at hp
          obtain ⟨hmet, hn1, hs, -⟩ := hp
          subst hs
          refine ⟨hPD, ?_, ?_, ?_⟩
          · rw [← hmet]
            have hp1 : (commonPref rArrow.getmax lArrow.getmax).length
                ≤ rArrow.getmax.length := commonPref_length_left _ _
            have hp2 : (commonPref rArrow.getmax lArrow.getmax).length
                ≤ lArrow.getmax.length := commonPref_length_right _ _
            simp only [metSize, pageSizeF]
            omega
          · rw [← hn1]
            simp only [keysBounded, Bool.and_eq_true, decide_eq_true_eq]
            exact ⟨⟨hm, hkbLA⟩, hkbRA⟩
          · rw [← hmet]
            exact le_trans (commonPref_length_left _ _) hRlen
      · rcases h3 : commitChild cfg r1 mR sB with - | ⟨rArrow, s3⟩ <;> rw [h3] at hp
        · simp at hp
        dsimp only at hp
        obtain ⟨hPC, hgrmax, hkbRA⟩ :=
          commitChild_spec cfg K B r1 mR sB rArrow s3 h3 hszR hkbr1 hPB
        have hRlen : rArrow.getmax.length ≤ K := by rw [hgrmax]; exact hgr
        split at hp
        · rename_i hcond2
          obtain ⟨-, hsize2⟩ := hcond2
          simp only [Option.some.injEq, Prod.mk.injEq] at hp
          obtain ⟨hmet, hn1, hs, -⟩ := hp
          subst hs
          refine ⟨hPC, ?_, ?_, ?_⟩
          · rw [← hmet]
            simp only [metSize]
            omega
          · rw [← hn1]
            simp only [keysBounded, Bool.and_eq_true, decide_eq_true_eq]
            exact ⟨⟨hm, hkbl1⟩, hkbRA⟩
          · rw [← hmet]
            exact le_trans (commonPref_length_left _ _) hprefL
        · rcases h4 : commitChild cfg l1 mL s3 with - | ⟨lArrow, s4⟩ <;> rw [h4] at hp
          · simp at hp
          dsimp only at hp
          obtain ⟨hPD, hglmax, hkbLA⟩ :=
            commitChild_spec cfg K B l1 mL s3 lArrow s4 h4 hszL hkbl1 hPC
          have hLlen : lArrow.getmax.length ≤ K := by rw [hglmax]; exact hgl
          simp only [Option.some.injEq, Prod.mk.injEq] at hp
          obtain ⟨hmet, hn1, hs, -⟩ := hp
          subst hs
          refine ⟨hPD, ?_, ?_, ?_⟩
          · rw [← hmet]
            have hp1 : (commonPref rArrow.getmax lArrow.getmax).length
                ≤ rArrow.getmax.length := commonPref_length_left _ _
            have hp2 : (commonPref rArrow.getmax lArrow.getmax).length
                ≤ lArrow.getmax.length := commonPref_length_right _ _
            simp only [metSize, pageSizeF]
            omega
          · rw [← hn1]
            simp only [keysBounded, Bool.and_eq_true, decide_eq_true_eq]
            exact ⟨⟨hm, hkbLA⟩, hkbRA⟩
          · rw [← hmet]
            exact le_trans (commonPref_length_left _ _) hRlen

theorem freePageIdS_pages (B : Nat) (s : SState) (pid : Nat)
    (hP : ∀ p ∈ s.pageMap, p.2.length ≤ B) :
    ∀ p ∈ (freePageIdS s pid).pageMap, p.2.length ≤ B := by
  unfold freePageIdS
  split
  · intro p hp
    simp [erasePage] at hp
    exact hP p hp.1
  · exact hP

theorem foldl_free_pages (B : Nat) : ∀ (l : List Nat) (s : SState),
    (∀ p ∈ s.pageMap, p.2.length ≤ B) →
    ∀ p ∈ (List.foldl freePageIdS s l).pageMap, p.2.length ≤ B
  | [], _, hP => hP
  | pid :: rest, s, hP =>
    foldl_free_pages B rest (freePageIdS s pid) (freePageIdS_pages B s pid hP)

/-- C9 (amended).  The unconditional page budget fails (see the
counterexample: a single over-long key forces an oversized page), but it
holds as soon as the unavoidable single-node pages fit the budget: if
every key and routing max-key of the trees being committed has length at
most `K` and `Abound cfg K ≤ PageSize` (the single-leaf, single-arrow and
fork-of-two-arrows pages fit), then after `Commit` every stored page
buffer has length at most `PageSize`. -/
theorem C9_amended (cfg : Config) (K : Nat) (e : EngineS) (n : Nat) (e1 : EngineS)
    (hatom : Abound cfg K ≤ cfg.pageSize)
    (hc : CommitS cfg e = some (n, e1))
    (hroot : ∀ t ∈ e.root, keysBounded K t = true)
    (hprev : ∀ t ∈ e.prevRoot, keysBounded K t = true)
    (hP : ∀ p ∈ e.st.pageMap, p.2.length ≤ cfg.pageSize) :
    ∀ p ∈ e1.st.pageMap, p.2.length ≤ cfg.pageSize := by
  have hpage : cfg.pageSize ≤ cfg.pageSize + 1 := Nat.le_succ _
  cases hroot0 : e.root with
  | none =>
    rw [CommitS, hroot0] at hc
    dsimp only at hc
    have he := congrArg Prod.snd (Option.some.inj hc)
    dsimp only at he
    rw [← he]
    exact hP
  | some root =>
    have hkroot : keysBounded K root = true := hroot root (by simp [hroot0])
    rw [CommitS, hroot0] at hc
    dsimp only at hc
    rcases h1 : serialisePass1 cfg root e.st 0 with - | ⟨met, root1, s1, mp⟩ <;>
      rw [h1] at hc
    · simp at hc
    dsimp only at hc
    obtain ⟨hP1, hsz1, -, -⟩ :=
      pass1_bounded cfg K cfg.pageSize hpage hatom root e.st 0 met root1 s1 mp hkroot h1 hP
    rcases h2 : commitPage cfg root1 met s1 with - | ⟨currentId, r2, s2⟩ <;> rw [h2] at hc
    · simp at hc
    dsimp only at hc
    obtain ⟨d, hmap2, hlen2⟩ := commitPage_pageMap cfg root1 met s1 currentId r2 s2 h2
    have hP2 : ∀ p ∈ s2.pageMap, p.2.length ≤ cfg.pageSize := by
      intro p hp
      rw [hmap2] at hp
      rcases List.mem_cons.mp hp with hp | hp
      · rw [hp]
        simpa [hlen2] using hsz1
      · exact hP1 p hp
    cases hpr : e.prevRoot with
    | none =>
      rw [hpr] at hc
      dsimp only at hc
      have he := congrArg Prod.snd (Option.some.inj hc)
      dsimp only at he
      rw [← he]
      dsimp only
      exact foldl_free_pages cfg.pageSize _ s2 hP2
    | some prev =>
      have hkprev : keysBounded K prev = true := hprev prev (by simp [hpr])
      rw [hpr] at hc
      dsimp only at hc
      rcases h3 : serialisePass1 cfg prev s2 s2.maxPageId with - | ⟨metP, prev1, s3, mp2⟩ <;>
        rw [h3] at hc
      · simp at hc
      dsimp only at hc
      obtain ⟨hP3, hsz3, -, -⟩ :=
        pass1_bounded cfg K cfg.pageSize hpage hatom prev s2 s2.maxPageId metP prev1 s3 mp2
          hkprev h3 hP2
      rcases h4 : commitPage cfg prev1 metP s3 with - | ⟨prevId, p2, s4⟩ <;> rw [h4] at hc
      · simp at hc
      dsimp only at hc
      obtain ⟨d4, hmap4, hlen4⟩ := commitPage_pageMap cfg prev1 metP s3 prevId p2 s4 h4
      have hP4 : ∀ p ∈ s4.pageMap, p.2.length ≤ cfg.pageSize := by
        intro p hp
        rw [hmap4] at hp
        rcases List.mem_cons.mp hp with hp | hp
        · rw [hp]
          simpa [hlen4] using hsz3
        · exact hP3 p hp
      have he := congrArg Prod.snd (Option.some.inj hc)
      dsimp only at he
      rw [← he]
      dsimp only
      exact foldl_free_pages cfg.pageSize _ s4 hP4

/-- The configuration of the C9 counterexample: a 30-byte page budget
with small hash and inline-value limits. -/
def cfgC9 : Config := ⟨30, 16, 4, 4⟩

/-- The engine of the C9 counterexample: a fresh in-memory engine whose
tree is a single leaf with a 30-byte key. -/
def engC9 : EngineS :=
  ⟨some (.leaf (List.replicate 30 7) [] 0 0 0 false), none,
    ⟨[], 0, [], ∅, 0, [], [], 0, 0⟩, 1, []⟩

/-- C9, counterexample.  The claim "every page buffer written by
`commitPage` has length at most `PageSize`" is false without a bound on
the key length: committing a single leaf whose key has `PageSize` bytes
writes a page of `28 + PageSize` bytes (nothing in `commitPage` checks
the computed size against the budget). -/
theorem C9_counterexample :
    ((CommitS cfgC9 engC9).map (fun p => p.2.st.pageMap.map (fun q => q.2.length)) =
      some [58]) ∧ ¬(58 ≤ cfgC9.pageSize) := by
  constructor
  · decide
  · decide

/-- The configuration of the C9 witness: a 200-byte page budget under
which all single-node pages with 1-byte keys fit. -/
def cfgW : Config := ⟨200, 16, 4, 4⟩

/-- The engine of the C9 witness: a fresh in-memory engine with a single
one-byte-key leaf. -/
def engW : EngineS :=
  ⟨some (.leaf [7] [] 0 0 0 false), none, ⟨[], 0, [], ∅, 0, [], [], 0, 0⟩, 1, []⟩

/-- The engine `Commit` produces from `engW` under `cfgW`: one 29-byte
page, both roots re-pointed at it. -/
def engW1 : EngineS :=
  ⟨some (.arrow 1 1 [7]), some (.arrow 1 1 [7]),
    ⟨[(1, [0, 0, 0, 1, 0, 0, 0, 0, 0, 0, 0, 28, 0, 0, 0, 29, 0, 0, 0, 29,
        0, 0, 0, 0, 1, 0, 0, 0, 7])], 1, [], ∅, 0, [], [], 1, 29⟩, 2, [(2, 1)]⟩

/-- Witness for the amended C9 at a concrete commit: the single-node
bound holds for `cfgW` with 1-byte keys, and every page of the committed
engine is within the 200-byte budget. -/
theorem C9_amended_witness :
    Abound cfgW 1 ≤ cfgW.pageSize ∧
      (∀ p ∈ engW1.st.pageMap, p.2.length ≤ cfgW.pageSize) :=
  ⟨by decide,
    C9_amended cfgW 1 engW 1 engW1 (by decide) (by decide) (by decide) (by decide)
      (by decide)⟩

/-- C5.  When a `Fork3` does not fit in one page together with both
children (the three-way merge test fails), the first pass commits the
child with the larger estimated page size as its own page — replacing it
in the returned tree by an arrow to the new page — and on a size tie the
right child is the one committed (the comparison is the strict
`sizeL > sizeR`).  Children that are already arrows are not re-committed,
hence the two no-arrow hypotheses. -/
theorem C5_commit_larger_child (cfg : Config) (hgt : Nat) (l r : SNode) (m : Bytes)
    (pin : Nat) (ha : Bool) (s : SState) (mpid : Nat)
    (mL : Metrics) (l1 : SNode) (sA : SState) (mp1 : Nat)
    (mR : Metrics) (r1 : SNode) (sB : SState) (mp2 : Nat)
    (met : Metrics) (n1 : SNode) (s1 : SState) (mpid1 : Nat)
    (hL : serialisePass1 cfg l s (if pin = 0 ∧ ha = true then mpid + 1 else mpid)
      = some (mL, l1, sA, mp1))
    (hR : serialisePass1 cfg r sA mp1 = some (mR, r1, sB, mp2))
    (hp : serialisePass1 cfg (.fork hgt l r m pin ha) s mpid = some (met, n1, s1, mpid1))
    (hnofit : ¬(mergable3 mL.pin mR.pin (if pin ≠ 0 then (⟨pin, true⟩ : PinnedPageID)
        else if ha = true then ⟨mpid + 1, false⟩ else ⟨0, false⟩) = true ∧
      pageSizeF cfg (mL.keyCount + mR.keyCount) (mL.pageCount + mR.pageCount)
        (mL.keyBodySize + mR.keyBodySize) (mL.valBodySize + mR.valBodySize)
        (mL.structBits + mR.structBits + 2) (commonPref mL.pref mR.pref) < cfg.pageSize))
    (hnaL : ∀ (pid h : Nat) (mx : Bytes), l1 ≠ .arrow pid h mx)
    (hnaR : ∀ (pid h : Nat) (mx : Bytes), r1 ≠ .arrow pid h mx) :
    (metSize cfg mR < metSize cfg mL →
      ∃ lid d r2, n1 = .fork hgt (.arrow lid l1.getheight l1.getmax) r2 m pin ha ∧
        (lid, d) ∈ s1.pageMap ∧ d.length = metSize cfg mL) ∧
    (¬(metSize cfg mR < metSize cfg mL) →
      ∃ rid d l2, n1 = .fork hgt l2 (.arrow rid r1.getheight r1.getmax) m pin ha ∧
        (rid, d) ∈ s1.pageMap ∧ d.length = metSize cfg mR) := by
  simp only [serialisePass1] at hp
  rw [hL] at hp
  dsimp only at hp
  rw [hR] at hp
  dsimp only at hp
  generalize hg0 : (if pin ≠ 0 then (⟨pin, true⟩ : PinnedPageID)
    else if ha = true then ⟨mpid + 1, false⟩ else ⟨0, false⟩) = pin0 at hp hnofit
  split at hp
  · rename_i hcond
    exact absurd hcond hnofit
  · split at hp
    · rename_i hlt
      rcases h3 : commitChild cfg l1 mL sB with - | ⟨lArrow, s3⟩ <;> rw [h3] at hp
      · simp at hp
      dsimp only at hp
      obtain ⟨lid, d, hLA, hmap3, hlen3⟩ :=
        commitChild_nonarrow cfg l1 mL sB lArrow s3 h3 hnaL
      subst hLA
      constructor
      · rintro -
        split at hp
        · simp only [Option.some.injEq, Prod.mk.injEq] at hp
          obtain ⟨-, hn1, hs, -⟩ := hp
          subst hs
          refine ⟨lid, d, r1, hn1.symm, ?_, hlen3⟩
          rw [hmap3]
          exact List.mem_cons_self _ _
        · rcases h4 : commitChild cfg r1 mR s3 with - | ⟨rArrow, s4⟩ <;> rw [h4] at hp
          · simp at hp
          dsimp only at hp
          obtain ⟨rid, d2, hRA, hmap4, hlen4⟩ :=
            commitChild_nonarrow cfg r1 mR s3 rArrow s4 h4 hnaR
          simp only [Option.some.injEq, Prod.mk.injEq] at hp
          obtain ⟨-, hn1, hs, -⟩ := hp
          subst hs
          refine ⟨lid, d, rArrow, hn1.symm, ?_, hlen3⟩
          rw [hmap4, hmap3]
          exact List.mem_cons_of_mem _ (List.mem_cons_self _ _)
      · intro hcontra
        exact absurd (by simpa [metSize] using hlt) hcontra
    · rename_i hnlt
      rcases h3 : commitChild cfg r1 mR sB with - | ⟨rArrow, s3⟩ <;> rw [h3] at hp
      · simp at hp
      dsimp only at hp
      obtain ⟨rid, d, hRA, hmap3, hlen3⟩ :=
        commitChild_nonarrow cfg r1 mR sB rArrow s3 h3 hnaR
      subst hRA
      constructor
      · intro hcontra
        exact absurd (by simpa [metSize] using hcontra) hnlt
      · rintro -
        split at hp
        · simp only [Option.some.injEq, Prod.mk.injEq] at hp
          obtain ⟨-, hn1, hs, -⟩ := hp
          subst hs
          refine ⟨rid, d, l1, hn1.symm, ?_, hlen3⟩
          rw [hmap3]
          exact List.mem_cons_self _ _
        · rcases h4 : commitChild cfg l1 mL s3 with - | ⟨lArrow, s4⟩ <;> rw [h4] at hp
          · simp at hp
          dsimp only at hp
          obtain ⟨lid, d2, hLA, hmap4, hlen4⟩ :=
            commitChild_nonarrow cfg l1 mL s3 lArrow s4 h4 hnaL
          simp only [Option.some.injEq, Prod.mk.injEq] at hp
          obtain ⟨-, hn1, hs, -⟩ := hp
          subst hs
          refine ⟨rid, d, lArrow, hn1.symm, ?_, hlen3⟩
          rw [hmap4, hmap3]
          exact List.mem_cons_of_mem _ (List.mem_cons_self _ _)

/-- The configuration of the C5 witness: a 40-byte page budget. -/
def cfgC5 : Config := ⟨40, 16, 4, 4⟩

/-- The fresh serializer state of the C5 witness. -/
def stC5 : SState := ⟨[], 0, [], ∅, 0, [], [], 0, 0⟩

/-- The left child of the C5 witness: a leaf with a 5-byte key (estimated
page size 33). -/
def lC5 : SNode := .leaf [1, 1, 1, 1, 1] [] 0 0 0 false

/-- The right child of the C5 witness: a leaf with a 1-byte key
(estimated page size 29). -/
def rC5 : SNode := .leaf [2] [] 0 0 0 false

/-- Metrics pass 1 returns for `lC5`. -/
def mLC5 : Metrics := ⟨[1, 1, 1, 1, 1], 1, 0, 5, 0, 1, ⟨0, false⟩⟩

/-- Metrics pass 1 returns for `rC5`. -/
def mRC5 : Metrics := ⟨[2], 1, 0, 1, 0, 1, ⟨0, false⟩⟩

/-- The node pass 1 returns for the C5 witness fork: both children became
arrows, the left one (larger, 33 > 29) was committed first as page 1. -/
def n1C5 : SNode := .fork 2 (.arrow 1 1 [1, 1, 1, 1, 1]) (.arrow 2 1 [2]) [2] 0 false

/-- The serializer state after pass 1 on the C5 witness fork: two pages,
the 33-byte left child page and the 29-byte right child page. -/
def s1C5 : SState :=
  ⟨[(2, [0, 0, 0, 1, 0, 0, 0, 0, 0, 0, 0, 28, 0, 0, 0, 29, 0, 0, 0, 29,
      0, 0, 0, 0, 1, 0, 0, 0, 2]),
    (1, [0, 0, 0, 1, 0, 0, 0, 0, 0, 0, 0, 28, 0, 0, 0, 33, 0, 0, 0, 33,
      0, 0, 0, 0, 1, 0, 0, 0, 1, 1, 1, 1, 1])], 2, [], ∅, 0, [], [], 2, 62⟩

/-- Witness for C5: on a fork of two leaves that does not merge into one
page, the larger (left, 33 > 29) child is committed as page 1 and
replaced by an arrow in the returned fork. -/
theorem C5_commit_larger_child_witness :
    ∃ lid d r2,
      n1C5 = .fork 2 (.arrow lid lC5.getheight lC5.getmax) r2 [2] 0 false ∧
        (lid, d) ∈ s1C5.pageMap ∧ d.length = metSize cfgC5 mLC5 :=
  (C5_commit_larger_child cfgC5 2 lC5 rC5 [2] 0 false stC5 0
    mLC5 lC5 stC5 0 mRC5 rC5 stC5 0
    ⟨[], 0, 2, 6, 0, 4, ⟨0, false⟩⟩ n1C5 s1C5 0
    (by decide) (by decide) (by decide) (by decide)
    (fun _ _ _ h => SNode.noConfusion h) (fun _ _ _ h => SNode.noConfusion h)).1
    (by decide)

/-- The spec's pin-compatibility rule, stated from its words (§4.D "Pin
merge rule"): two pin ids `(id, is_old)` are compatible if either is zero
or they are identical.  Declared for comparison with the source's
`mergable3`/`mergable2` decisions. -/
def specCompatible (a b : PinnedPageID) : Bool :=
  decide (a.id = 0) || decide (b.id = 0) || decide (a = b)

/-- C6 (amended).  The spec's pairwise rule describes the two-way re-test
exactly (`mergable2` is pairwise compatibility, and its merged pin is the
non-zero one, the fork's own — outer — pin when the child's is zero), but
the three-way decision `mergable3` is strictly stronger than pairwise
compatibility: it only implies it (see the counterexample for a
pairwise-compatible triple the code refuses to merge). -/
theorem C6_amended :
    (∀ pc pf : PinnedPageID, mergable2 pc pf = specCompatible pc pf) ∧
    (∀ pl pr pf : PinnedPageID, mergable3 pl pr pf = true →
      specCompatible pl pr = true ∧ specCompatible pl pf = true ∧
        specCompatible pr pf = true) ∧
    (∀ pc pf : PinnedPageID, mergable2 pc pf = true →
      mergePin2 pc pf = if pc.id = 0 then pf else pc) := by
  refine ⟨?_, ?_, ?_⟩
  · intro pc pf
    obtain ⟨ai, ap⟩ := pc
    obtain ⟨bi, bp⟩ := pf
    by_cases h1 : ai = 0 <;> by_cases h2 : bi = 0 <;> by_cases h3 : ai = bi <;>
      by_cases h4 : ap = bp <;>
      simp [mergable2, specCompatible, PinnedPageID.mk.injEq, h1, h2, h3, h4]
  · intro pl pr pf h
    obtain ⟨ai, ap⟩ := pl
    obtain ⟨bi, bp⟩ := pr
    obtain ⟨ci, cp⟩ := pf
    simp only [mergable3] at h
    by_cases h1 : ai = 0 ∧ bi = 0
    · refine ⟨?_, ?_, ?_⟩ <;> simp [specCompatible, h1.1, h1.2]
    · rw [if_neg h1] at h
      by_cases h2 : ai = 0 ∧ ci = 0
      · refine ⟨?_, ?_, ?_⟩ <;> simp [specCompatible, h2.1, h2.2]
      · rw [if_neg h2] at h
        by_cases h3 : bi = 0 ∧ ci = 0
        · refine ⟨?_, ?_, ?_⟩ <;> simp [specCompatible, h3.1, h3.2]
        · rw [if_neg h3] at h
          by_cases h4 : ai = bi ∧ ap = bp ∧ bi = ci ∧ bp = cp
          · obtain ⟨e1, e2, e3, e4⟩ := h4
            subst e1
            subst e2
            subst e3
            subst e4
            refine ⟨?_, ?_, ?_⟩ <;> simp [specCompatible]
          · rw [if_neg h4] at h
            exact absurd h (by simp)
  · intro pc pf h
    obtain ⟨ai, ap⟩ := pc
    obtain ⟨bi, bp⟩ := pf
    by_cases h1 : ai = 0
    · simp [mergePin2, h1]
    · by_cases h2 : bi = 0
      · simp [mergePin2, h1, h2]
      · simp only [mergable2] at h
        dsimp only at h
        rw [if_neg h1, if_neg h2] at h
        have h5 : ai = bi ∧ ap = bp := by
          by_cases h3 : ai = bi ∧ ap = bp
          · exact h3
          · rw [if_neg h3] at h
            exact absurd h (by simp)
        obtain ⟨e1, e2⟩ := h5
        subst e1
        subst e2
        simp [mergePin2, h1]

/-- The configuration of the C6 counterexample: a 1000-byte budget under
which the fork and both leaves would comfortably share one page. -/
def cfgC6 : Config := ⟨1000, 16, 4, 4⟩

/-- The fork of the C6 counterexample: the fork and its right leaf carry
the old pin 5, the left leaf is unpinned — pairwise compatible under the
spec's rule. -/
def nodeC6 : SNode :=
  .fork 2 (.leaf [1] [] 0 0 0 false) (.leaf [2] [] 0 0 5 false) [2] 5 false

/-- The fresh serializer state of the C6 counterexample. -/
def stC6 : SState := ⟨[], 0, [], ∅, 0, [], [], 0, 0⟩

/-- C6, counterexample.  The pins `(0, new)`, `(5, old)`, `(5, old)` of
left child, right child and fork are pairwise compatible under the spec's
rule (one of each pair is zero or they are identical), and the merged
page would fit (42 < 1000 bytes), yet `mergable3` refuses the merge —
it requires two zero ids among its first three tests — so pass 1 splits
the fork and emits a page (under the pinned id 5) instead of sharing. -/
theorem C6_counterexample :
    (specCompatible ⟨0, false⟩ ⟨5, true⟩ = true ∧
     specCompatible ⟨5, true⟩ ⟨5, true⟩ = true ∧
     mergable3 ⟨0, false⟩ ⟨5, true⟩ ⟨5, true⟩ = false) ∧
    (pageSizeF cfgC6 2 0 2 0 4 [] < cfgC6.pageSize ∧
     (serialisePass1 cfgC6 nodeC6 stC6 0).map
        (fun q => q.2.2.1.pageMap.map (fun p => p.1)) = some [5]) :=
  ⟨⟨by decide, by decide, by decide⟩, by decide, by decide⟩

/-! ## The post-`Commit` mutation phase (claim C2): arrow-full trees, the
shadow `prevRoot` tree, `Peel`, `moveArrowOver*`, `deserialisePage`, and
the arrow-full `insert`/`delete`. -/

/-- A position inside the `prevRoot` tree: `false` descends left, `true`
descends right.  The source keeps `parent`/`parentC` pointers in each
shadow `Arrow3`; a path from the root is the functional encoding of that
pointer. -/
abbrev Path := List Bool

/-- Current-tree nodes of the post-`Commit` phase: `Leaf3`, `Fork3` and
`Arrow3` with their `arrow` back-pointer field (`arrow *Arrow3` in the
source) encoded as the position of the shadow arrow inside `prevRoot`. -/
inductive RNode where
  | leaf (key value : Bytes) (valueId valueLen : Nat) (pinnedPageId : Nat)
      (arrow : Option Path)
  | fork (height : Nat) (left right : RNode) (max : Bytes) (pinnedPageId : Nat)
      (arrow : Option Path)
  | arr (pageId height : Nat) (max : Bytes) (arrow : Option Path)
deriving DecidableEq, Repr

/-- `getheight` (lines 355-365). -/
def RNode.getheight : RNode → Nat
  | .leaf _ _ _ _ _ _ => 1
  | .fork h _ _ _ _ _ => h
  | .arr _ h _ _ => h

/-- `getmax` (lines 379-389). -/
def RNode.getmax : RNode → Bytes
  | .leaf k _ _ _ _ _ => k
  | .fork _ _ _ m _ _ => m
  | .arr _ _ m _ => m

/-- The `arrow` back-pointer of a node. -/
def RNode.arrowOf : RNode → Option Path
  | .leaf _ _ _ _ _ ar => ar
  | .fork _ _ _ _ _ ar => ar
  | .arr _ _ _ ar => ar

/-- Overwrite the `arrow` back-pointer (the unconditional `n.arrow = ...`
assignments of `moveArrowOverFork` and `Peel`). -/
def setArrowR : RNode → Option Path → RNode
  | .leaf k v vid vlen pin _, ar => .leaf k v vid vlen pin ar
  | .fork h l r m pin _, ar => .fork h l r m pin ar
  | .arr pid h m _, ar => .arr pid h m ar

/-- Set `pinnedPageId` on a `Leaf3` or `Fork3`; the source's type switches
have no `Arrow3` case, so an arrow is returned unchanged. -/
def setPinLF : RNode → Nat → RNode
  | .leaf k v vid vlen _ ar, pid => .leaf k v vid vlen pid ar
  | .fork h l r m _ ar, pid => .fork h l r m pid ar
  | .arr a b c ar, _ => .arr a b c ar

/-- `heightsCorrect` over the phase's nodes (lines 1050-1062, 1080-1082):
an arrow reports its cached height as correct. -/
def heightsCorrectR : RNode → Nat × Bool
  | .leaf _ _ _ _ _ _ => (1, true)
  | .fork h l r _ _ _ =>
    let lp := heightsCorrectR l
    let rp := heightsCorrectR r
    (1 + maxu32 lp.1 rp.1, lp.2 && rp.2 && decide (1 + maxu32 lp.1 rp.1 = h))
  | .arr _ h _ _ => (h, true)

/-- `balanceCorrect` over the phase's nodes (lines 1064-1078, 1084-1086). -/
def balanceCorrectR : RNode → Bool
  | .leaf _ _ _ _ _ _ => true
  | .fork _ l r _ _ _ =>
    let lH := l.getheight
    let rH := r.getheight
    let balanced := if rH ≥ lH then rH - lH < 2 else lH - rH < 2
    balanced && balanceCorrectR l && balanceCorrectR r
  | .arr _ _ _ _ => true

/-- The page references (`Arrow3` nodes) of a tree, with their cached
heights and max keys. -/
def arrowsInR : RNode → List (Nat × Nat × Bytes)
  | .leaf _ _ _ _ _ _ => []
  | .fork _ l r _ _ _ => arrowsInR l ++ arrowsInR r
  | .arr pid h mx _ => [(pid, h, mx)]

/-- The back-pointer paths present in a tree. -/
def pathsOfR : RNode → List Path
  | .leaf _ _ _ _ _ ar => ar.toList
  | .fork _ l r _ _ ar => ar.toList ++ pathsOfR l ++ pathsOfR r
  | .arr _ _ _ ar => ar.toList

/-- The subtree of a prevRoot tree at a path (the dereference of a
`parent`/`parentC` pointer chain). -/
def prevAt : SNode → Path → Option SNode
  | n, [] => some n
  | .fork _ l r _ _ _, d :: p => prevAt (if d then r else l) p
  | _, _ :: _ => none

/-- Replace the subtree of a prevRoot tree at a path (the source writes
through `a.parent.left`/`a.parent.right`, or `t.prevRoot` when the parent
is nil — the empty path). -/
def prevReplace : SNode → Path → SNode → SNode
  | _, [], n => n
  | .fork h l r m pin ha, d :: p, n =>
    if d then .fork h l (prevReplace r p n) m pin ha
    else .fork h (prevReplace l p n) r m pin ha
  | t, _ :: _, _ => t

/-- The subtree of a current-phase tree at a path (used to extract the
`point` result of `deserialisePage`). -/
def subtreeAtR : RNode → Path → Option RNode
  | n, [] => some n
  | .fork _ l r _ _ _, d :: q => subtreeAtR (if d then r else l) q
  | _, _ :: _ => none

/-- The mutable engine state of the post-`Commit` phase, in-memory mode:
the shadow `prevRoot`, the page store (read-only in this phase), the
large-value store, and the recycle set.  `valueHashes` is only ever
written in this phase (never read), so it is not tracked. -/
structure MState where
  prev : Option SNode
  pageMap : List (Nat × List Nat)
  valueMap : List (Nat × Bytes)
  valueLens : List (Nat × Nat)
  pagesToRecycle : Finset Nat
deriving DecidableEq

/-- Go map read with a `nil` miss (`t.valueMap[valueId]`). -/
def lookupValue : List (Nat × Bytes) → Nat → Bytes
  | [], _ => []
  | (k, v) :: rest, key => if key = k then v else lookupValue rest key

/-- `Leaf3.nvalue` (lines 391-403), in-memory mode: the inline value when
`valueId` is 0, otherwise the value store. -/
def nvalueM (s : MState) (value : Bytes) (valueId : Nat) : Bytes :=
  if valueId = 0 then value else lookupValue s.valueMap valueId

/-- `Avl3.freeValueId` (lines 329-336): a zero id is ignored, otherwise
the value is dropped from the stores. -/
def freeValueIdM (s : MState) (valueId : Nat) : MState :=
  if valueId = 0 then s
  else { s with valueMap := s.valueMap.filter (fun p => p.1 ≠ valueId),
                valueLens := s.valueLens.filter (fun p => p.1 ≠ valueId) }

/-- `data[i]` on a page buffer (Go panics out of range → `none`). -/
def byteAt (data : List Nat) (i : Nat) : Option Nat := data[i]?

/-- `binary.BigEndian.Uint32(data[off:])`; fewer than 4 remaining bytes is
a Go slice panic → `none`. -/
def beU32At (data : List Nat) (off : Nat) : Option Nat :=
  if off + 4 ≤ data.length then
    some (((data.getD off 0 * 256 + data.getD (off + 1) 0) * 256 +
      data.getD (off + 2) 0) * 256 + data.getD (off + 3) 0)
  else none

/-- `binary.BigEndian.Uint64(data[off:])`. -/
def beU64At (data : List Nat) (off : Nat) : Option Nat :=
  if off + 8 ≤ data.length then
    some (((((((data.getD off 0 * 256 + data.getD (off + 1) 0) * 256 +
      data.getD (off + 2) 0) * 256 + data.getD (off + 3) 0) * 256 +
      data.getD (off + 4) 0) * 256 + data.getD (off + 5) 0) * 256 +
      data.getD (off + 6) 0) * 256 + data.getD (off + 7) 0)
  else none

/-- Wrapped `uint32` subtraction: the deserialiser subtracts offsets that
can underflow on corrupt pages, and Go wraps them. -/
def sub32 (a b : Nat) : Nat := (a % 4294967296 + 4294967296 - b % 4294967296) % 4294967296

/-- `bits.OnesCount32`, one bit per fuel step. -/
def popCount32 : Nat → Nat → Nat
  | 0, _ => 0
  | fuel + 1, n => n % 2 + popCount32 fuel (n / 2)

/-- The page-count loop of `deserialisePage` (lines 1520-1524): the
popcount of each 32-bit word of the page-bits region. -/
def countPageBits (data : List Nat) (off : Nat) : Nat → Option Nat
  | 0 => some 0
  | k + 1 =>
    match beU32At data off with
    | none => none
    | some w =>
      match countPageBits data (off + 4) k with
      | none => none
      | some rest => some (popCount32 32 w + rest)

/-- `Avl3.deserialiseKey` (lines 1468-1473): read this key's body offset
and the next one, append the prefix-stripped bytes to the prefix, advance
the key-header cursor. -/
def deserialiseKeyD (data : List Nat) (kho : Nat) (pref : Bytes) :
    Option (Bytes × Nat) :=
  match beU32At data kho, beU32At data (kho + 4) with
  | some keyStart, some keyEnd =>
    if keyStart ≤ keyEnd ∧ keyEnd ≤ data.length then
      some (pref ++ (data.drop keyStart).take (keyEnd - keyStart), kho + 4)
    else none
  | _, _ => none

/-- `Avl3.deserialiseVal` (lines 1476-1489): an over-`InlineValueMax`
length reads a value id and skips the hash slot, otherwise the value
bytes are read inline (`copy` pads a short tail with zeros).  Returns
`(value, valueId, valLen, valueHeaderOffset, valBodyOffset)`. -/
def deserialiseValD (cfg : Config) (data : List Nat) (vho vbo : Nat) :
    Option (Bytes × Nat × Nat × Nat × Nat) :=
  match beU32At data vho with
  | none => none
  | some valLen =>
    if valLen > cfg.inlineValueMax then
      match beU64At data vbo with
      | none => none
      | some vid => some ([], vid, valLen, vho + 4, vbo + 8 + cfg.hashLengthG)
    else
      if vbo ≤ data.length then
        some ((data.drop vbo).take valLen ++
          List.replicate (valLen - (data.length - vbo)) 0, 0, valLen, vho + 4,
          vbo + valLen)
      else none

/-- The cursor-and-stack state of the `deserialisePage` loop.  The fork
stack is kept bottom-first (the source indexes it from 0); `point` is the
position of the matched node — stack index plus path inside that entry —
standing for the source's `point` pointer, so that pin writes made after
the match are reflected in the returned node. -/
structure DState where
  stack : List (RNode × Bool)
  nodeIndex : Nat
  structBit : Nat
  noLeaf : Bool
  releaseId : Bool
  point : Option (Nat × Path)
  kho : Nat
  aho : Nat
  vho : Nat
  vbo : Nat
deriving DecidableEq

/-- The structural loop of `deserialisePage` (lines 1553-1669): a stack
machine over the structure bits.  A set bit after a node finishes the
open fork below the top (assigning its right child, final height and
max); a clear bit after a node opens a fork above the top (an open fork
keeps its left child duplicated in the not-yet-assigned right slot — the
source leaves the field nil and always assigns it before reading); a bit
in leaf position emits an arrow (page bit set) or a leaf.  Go panics
(slice and stack under/overruns, failed type asserts) are `none`; the
fuel exceeds any in-range bit count, so exhaustion only happens en route
to an out-of-range read. -/
def deserialiseLoop (cfg : Config) (data : List Nat) (pageId : Nat)
    (keyArg : Option Bytes) (heightArg : Nat)
    (nodeCount maxStructBits pageBitsOffset structBitsOffset : Nat) (pref : Bytes) :
    Nat → DState → Option DState
  | 0, _ => none
  | fuel + 1, ds =>
    if ds.nodeIndex < nodeCount ∨ ds.structBit < maxStructBits then
      match byteAt data (structBitsOffset + ds.structBit / 8) with
      | none => none
      | some sbyte =>
        let sbit := sbyte.testBit (ds.structBit % 8)
        if sbit = false ∧ ds.nodeIndex = nodeCount then some ds
        else if ds.noLeaf then
          if sbit then
            match ds.stack.getLast?, ds.stack.dropLast.getLast? with
            | some (x, xPinned), some (y, yPinned) =>
              match y with
              | .fork yh yl _ _ ypin yar =>
                let yh1 := maxu32 yh (1 + x.getheight)
                let ymax1 := x.getmax
                let x1 := if xPinned ∧ ¬yPinned then setPinLF x pageId else x
                let yl1 := if ¬xPinned ∧ yPinned then setPinLF yl pageId else yl
                let yPinned1 := if ¬xPinned ∧ yPinned then false else yPinned
                let ynew := RNode.fork yh1 yl1 x1 ymax1 ypin yar
                let len0 := ds.stack.length
                let point1 :=
                  match ds.point with
                  | some (i, q) =>
                    if i = len0 - 1 then some (len0 - 2, (true : Bool) :: q)
                    else some (i, q)
                  | none => none
                let point2 :=
                  if yh1 = heightArg ∧ ymax1 = keyArg.getD [] then
                    some (len0 - 2, ([] : Path))
                  else point1
                deserialiseLoop cfg data pageId keyArg heightArg nodeCount
                  maxStructBits pageBitsOffset structBitsOffset pref fuel
                  { ds with stack := ds.stack.dropLast.dropLast ++ [(ynew, yPinned1)],
                            structBit := ds.structBit + 1, noLeaf := true,
                            point := point2 }
              | _ => none
            | _, _ => none
          else
            match ds.stack.getLast? with
            | none => none
            | some (x, xPinned) =>
              let ynew := RNode.fork (1 + x.getheight) x x [] 0 none
              let len0 := ds.stack.length
              let point1 :=
                match ds.point with
                | some (i, q) =>
                  if i = len0 - 1 then some (i, (false : Bool) :: q) else some (i, q)
                | none => none
              deserialiseLoop cfg data pageId keyArg heightArg nodeCount
                maxStructBits pageBitsOffset structBitsOffset pref fuel
                { ds with stack := ds.stack.dropLast ++ [(ynew, xPinned)],
                          structBit := ds.structBit + 1, noLeaf := false,
                          point := point1 }
        else
          match byteAt data (pageBitsOffset + ds.nodeIndex / 8) with
          | none => none
          | some pbyte =>
            if pbyte.testBit (ds.nodeIndex % 8) then
              match beU64At data ds.aho, beU32At data (ds.aho + 8) with
              | some id2, some h2 =>
                match deserialiseKeyD data ds.kho pref with
                | none => none
                | some (mx, kho1) =>
                  deserialiseLoop cfg data pageId keyArg heightArg nodeCount
                    maxStructBits pageBitsOffset structBitsOffset pref fuel
                    { ds with stack := ds.stack ++ [(.arr id2 h2 mx none, !sbit)],
                              nodeIndex := ds.nodeIndex + 1,
                              structBit := ds.structBit + 1, noLeaf := true,
                              releaseId := ds.releaseId && sbit,
                              kho := kho1, aho := ds.aho + 12 + cfg.hashLength }
              | _, _ => none
            else
              match deserialiseKeyD data ds.kho pref with
              | none => none
              | some (k, kho1) =>
                match deserialiseValD cfg data ds.vho ds.vbo with
                | none => none
                | some (v, vid2, vlen2, vho1, vbo1) =>
                  let point1 :=
                    if heightArg = 1 ∧ k = keyArg.getD [] then
                      some (ds.stack.length, ([] : Path))
                    else ds.point
                  deserialiseLoop cfg data pageId keyArg heightArg nodeCount
                    maxStructBits pageBitsOffset structBitsOffset pref fuel
                    { ds with stack := ds.stack ++ [(.leaf k v vid2 vlen2 0 none, !sbit)],
                              nodeIndex := ds.nodeIndex + 1,
                              structBit := ds.structBit + 1, noLeaf := true,
                              releaseId := ds.releaseId && sbit,
                              point := point1, kho := kho1, vho := vho1, vbo := vbo1 }
    else some ds

/-- `Avl3.deserialisePage` (lines 1491-1683), in-memory mode (`pageFile`
nil, `data = t.pageMap[pageId]`): a missing page or zero node count is
`(nil, false)`; otherwise the header offsets are decoded and the
structural loop rebuilds the node; pinned stack remains get this page's
id as `pinnedPageId`; the `point` matching the requested key and height
(or the stack bottom for the nil-key scan form) is returned together with
the release flag (false as soon as any pin bit was seen).  The rebuilt
nodes carry no `arrow` back-pointers. -/
def deserialisePage (cfg : Config) (pm : List (Nat × List Nat)) (pageId : Nat)
    (keyArg : Option Bytes) (heightArg : Nat) : Option (Option RNode × Bool) :=
  match lookupPage pm pageId with
  | none => some (none, false)
  | some data =>
    match beU32At data 0 with
    | none => none
    | some nodeCount =>
      if nodeCount = 0 then some (none, false)
      else
        let pageBitsOffset := 4
        let pageBitsLen := 4 * ((nodeCount + 31) / 32)
        match countPageBits data pageBitsOffset ((nodeCount + 31) / 32) with
        | none => none
        | some pageCount =>
          let offset1 := 4 + pageBitsLen
          let keyCount := sub32 nodeCount pageCount
          match beU32At data offset1 with
          | none => none
          | some prefixOffset =>
            let keyHeaderOffset := offset1 + 4
            match beU32At data keyHeaderOffset with
            | none => none
            | some firstKeyOff =>
              let prefixLen := sub32 firstKeyOff prefixOffset
              if prefixOffset ≤ data.length then
                let pref := (data.drop prefixOffset).take prefixLen ++
                  List.replicate (prefixLen - (data.length - prefixOffset)) 0
                let offset2 := keyHeaderOffset + 4 * nodeCount
                match beU32At data offset2 with
                | none => none
                | some valBodyOffset =>
                  let arrowHeaderOffset := offset2 + 4
                  let valueHeaderOffset := arrowHeaderOffset + (12 + cfg.hashLength) * pageCount
                  let structBitsOffset := valueHeaderOffset + 4 * keyCount
                  match deserialiseLoop cfg data pageId keyArg heightArg nodeCount
                      (sub32 prefixOffset structBitsOffset * 8 % 4294967296)
                      pageBitsOffset structBitsOffset pref
                      (8 * data.length + nodeCount + 2)
                      ⟨[], 0, 0, false, true, none, keyHeaderOffset,
                        arrowHeaderOffset, valueHeaderOffset, valBodyOffset⟩ with
                  | none => none
                  | some ds =>
                    let finalStack := ds.stack.map
                      (fun e => (if e.2 then setPinLF e.1 pageId else e.1, e.2))
                    let point :=
                      match ds.point with
                      | some (i, q) =>
                        match finalStack[i]? with
                        | some e => subtreeAtR e.1 q
                        | none => none
                      | none =>
                        if keyArg = none ∧ heightArg = 0 then
                          finalStack.head?.map (fun e => e.1)
                        else none
                    some (point, ds.releaseId)
              else none

/-- `Avl3.Peel` (lines 465-505): expand arrows until a fork or leaf is
reached.  Each expansion deserialises the page, recycles it when fully
owned, and moves the expanded arrow's own back-arrow over the expansion:
the shadow arrow's `pageId` is redirected (`r.arrow.pageId = r.pageId`)
and the back-pointer transfers onto the expanded node.  Go panics (nil
point, and the nil pointer dereferences impossible under the
correspondence invariant) are `none`. -/
def peel (cfg : Config) : Nat → MState → RNode → Option (RNode × MState)
  | 0, _, _ => none
  | fuel + 1, st, r =>
    match r with
    | .leaf k v vid vlen pin ar => some (.leaf k v vid vlen pin ar, st)
    | .fork h l rr m pin ar => some (.fork h l rr m pin ar, st)
    | .arr pid h mx ar =>
      match deserialisePage cfg st.pageMap pid (some mx) h with
      | none => none
      | some (none, _) => none
      | some (some point, releaseId) =>
        let st1 := if releaseId then
          { st with pagesToRecycle := insert pid st.pagesToRecycle } else st
        match ar with
        | none => peel cfg fuel st1 point
        | some p =>
          match st1.prev with
          | none => none
          | some pr =>
            match prevAt pr p with
            | some (.arrow _ ah amx) =>
              peel cfg fuel
                { st1 with prev := some (prevReplace pr p (.arrow pid ah amx)) }
                (setArrowR point (some p))
            | _ => none

/-- `Avl3.IsLeaf` (lines 445-463): look through arrows (read-only
deserialisation, no recycling, no arrow moves). -/
def isLeafR (cfg : Config) (pm : List (Nat × List Nat)) : Nat → RNode → Option Bool
  | 0, _ => none
  | fuel + 1, r =>
    match r with
    | .leaf _ _ _ _ _ _ => some true
    | .fork _ _ _ _ _ _ => some false
    | .arr pid h mx _ =>
      match deserialisePage cfg pm pid (some mx) h with
      | some (some point, _) => isLeafR cfg pm fuel point
      | _ => none

/-- `Avl3.moveArrowOverFork` (lines 507-555) on the fork
`Fork3 h l r mx pin` whose back-arrow sits at path `p` of `prevRoot`: the
shadow arrow is replaced by a fork of two shadow arrows caching the
children's heights and max keys (a child that is itself an arrow passes
its own page id on), the fork's pin moves to the shadow copy, and the
children receive the new back-pointers.  Returns the updated state and
the updated current-tree fork. -/
def moveArrowOverForkM (st : MState) (p : Path) (h : Nat) (l r : RNode)
    (mx : Bytes) (pin : Nat) : Option (MState × RNode) :=
  match st.prev with
  | none => none
  | some pr =>
    match prevAt pr p with
    | some (.arrow apid _ _) =>
      let lpid := match l with | .arr cpid _ _ _ => cpid | _ => apid
      let rpid := match r with | .arr cpid _ _ _ => cpid | _ => apid
      let shadow : SNode := .fork h (.arrow lpid l.getheight l.getmax)
        (.arrow rpid r.getheight r.getmax) mx pin false
      some ({ st with prev := some (prevReplace pr p shadow) },
        .fork h (setArrowR l (some (p ++ [false]))) (setArrowR r (some (p ++ [true])))
          mx 0 none)
    | _ => none

/-- `Avl3.moveArrowOverLeaf` (lines 557-574) on the leaf with back-arrow
at path `p`: the shadow arrow is replaced by a copy of the leaf (with the
value resolved through `nvalue`), and the leaf's back-pointer is cleared.
The leaf's pin is not moved. -/
def moveArrowOverLeafM (st : MState) (p : Path) (key value : Bytes)
    (valueId : Nat) : Option MState :=
  match st.prev with
  | none => none
  | some pr =>
    match prevAt pr p with
    | some (.arrow _ _ _) =>
      let v := nvalueM st value valueId
      some { st with prev := some (prevReplace pr p (.leaf key v 0 v.length 0 false)) }
    | _ => none

/-- The rebalancing tail of the arrow-full `Avl3.insert` (lines 657-745):
heights are read through `getheight` (arrows answer with their cached
height), an over-heavy child is peeled (and its arrow moved) before being
rotated, and the single left rotation bumps the new root's max to the
inserted key when larger.  Failed `(*Fork3)` type asserts are `none`. -/
def insBalanceR (cfg : Config) (fuel : Nat) (st : MState) (key : Bytes)
    (l1 r1 : RNode) (m1 : Bytes) (pin1 : Nat) : Option (RNode × MState) :=
  let lH := l1.getheight
  let rH := r1.getheight
  if rH > lH then
    if rH - lH > 1 then
      match peel cfg fuel st r1 with
      | none => none
      | some (nr0, st1) =>
        match nr0 with
        | .fork nrh nrl0 nrr0 nrm nrpin nrar =>
          match (match nrar with
            | some p => moveArrowOverForkM st1 p nrh nrl0 nrr0 nrm nrpin
            | none => some (st1, .fork nrh nrl0 nrr0 nrm nrpin none)) with
          | none => none
          | some (st2, nr1) =>
            match nr1 with
            | .fork _ nrl nrr nrm1 nrpin1 _ =>
              if nrr.getheight ≥ nrl.getheight then
                let n1 : RNode := .fork (1 + maxu32 l1.getheight nrl.getheight) l1 nrl
                  nrl.getmax pin1 none
                some (.fork (1 + maxu32 n1.getheight nrr.getheight) n1 nrr nrm1
                  nrpin1 none, st2)
              else
                match peel cfg fuel st2 nrl with
                | none => none
                | some (nrl0b, st3) =>
                  match nrl0b with
                  | .fork qh ql0 qr0 qm qpin qar =>
                    match (match qar with
                      | some p => moveArrowOverForkM st3 p qh ql0 qr0 qm qpin
                      | none => some (st3, .fork qh ql0 qr0 qm qpin none)) with
                    | none => none
                    | some (st4, nrl1) =>
                      match nrl1 with
                      | .fork _ nrll nrlr _ nrlpin _ =>
                        let n1 : RNode := .fork (1 + maxu32 l1.getheight nrll.getheight)
                          l1 nrll nrll.getmax pin1 none
                        let nr2 : RNode := .fork (1 + maxu32 nrlr.getheight nrr.getheight)
                          nrlr nrr nrm1 nrpin1 none
                        some (.fork (1 + maxu32 n1.getheight nr2.getheight) n1 nr2
                          nrm1 nrlpin none, st4)
                      | _ => none
                  | _ => none
            | _ => none
        | _ => none
    else some (.fork (1 + maxu32 lH rH) l1 r1 m1 pin1 none, st)
  else if lH - rH > 1 then
    match peel cfg fuel st l1 with
    | none => none
    | some (nl0, st1) =>
      match nl0 with
      | .fork nlh nll0 nlr0 nlm nlpin nlar =>
        match (match nlar with
          | some p => moveArrowOverForkM st1 p nlh nll0 nlr0 nlm nlpin
          | none => some (st1, .fork nlh nll0 nlr0 nlm nlpin none)) with
        | none => none
        | some (st2, nl1) =>
          match nl1 with
          | .fork _ nll nlr _ nlpin1 _ =>
            if nll.getheight ≥ nlr.getheight then
              let n1 : RNode := .fork (1 + maxu32 nlr.getheight r1.getheight) nlr r1
                m1 pin1 none
              let nlmax := if bytesCompare key m1 = 1 then key else m1
              some (.fork (1 + maxu32 nll.getheight n1.getheight) nll n1 nlmax
                nlpin1 none, st2)
            else
              match peel cfg fuel st2 nlr with
              | none => none
              | some (nlr0b, st3) =>
                match nlr0b with
                | .fork qh ql0 qr0 qm qpin qar =>
                  match (match qar with
                    | some p => moveArrowOverForkM st3 p qh ql0 qr0 qm qpin
                    | none => some (st3, .fork qh ql0 qr0 qm qpin none)) with
                  | none => none
                  | some (st4, nlr1) =>
                    match nlr1 with
                    | .fork _ nlrl nlrr _ nlrpin _ =>
                      let n1 : RNode := .fork (1 + maxu32 nlrr.getheight r1.getheight)
                        nlrr r1 m1 pin1 none
                      let nl2 : RNode := .fork (1 + maxu32 nll.getheight nlrl.getheight)
                        nll nlrl nlrl.getmax nlpin1 none
                      some (.fork (1 + maxu32 nl2.getheight n1.getheight) nl2 n1 m1
                        nlrpin none, st4)
                    | _ => none
                | _ => none
          | _ => none
      | _ => none
  else some (.fork (1 + maxu32 lH rH) l1 r1 m1 pin1 none, st)

/-- The arrow-full `Avl3.insert` (lines 610-751): arrows are peeled, a
fork's back-arrow is moved over it before any mutation, the leaf cases
build the two-leaf fork (an equal key overwrites the value, moving the
leaf's back-arrow first and releasing the old value id), and the fork
case recurses into the compared side before rebalancing. -/
def insertRec (cfg : Config) : Nat → MState → RNode → Bytes → Bytes →
    Option (RNode × MState)
  | 0, _, _, _, _ => none
  | fuel + 1, st, cur, key, value =>
    match cur with
    | .arr pid h mx ar =>
      match peel cfg (fuel + 1) st (.arr pid h mx ar) with
      | none => none
      | some (point, st1) => insertRec cfg fuel st1 point key value
    | .leaf k v vid vlen pin ar =>
      match bytesCompare key k with
      | 0 =>
        match (match ar with
          | some p => moveArrowOverLeafM st p k v vid
          | none => some st) with
        | none => none
        | some st1 =>
          some (.leaf k value 0 value.length pin none, freeValueIdM st1 vid)
      | -1 =>
        some (.fork 2 (.leaf key value 0 value.length 0 none)
          (.leaf k v vid vlen pin ar) k 0 none, st)
      | _ =>
        some (.fork 2 (.leaf k v vid vlen pin ar)
          (.leaf key value 0 value.length 0 none) key 0 none, st)
    | .fork h l r mx pin ar =>
      let c := bytesCompare key l.getmax
      match (match ar with
        | some p => moveArrowOverForkM st p h l r mx pin
        | none => some (st, .fork h l r mx pin none)) with
      | none => none
      | some (st1, n1) =>
        match n1 with
        | .fork _ l1 r1 mx1 pin1 _ =>
          if c = 1 then
            match insertRec cfg fuel st1 r1 key value with
            | none => none
            | some (r2, st2) =>
              insBalanceR cfg fuel st2 key l1 r2 r2.getmax pin1
          else
            match insertRec cfg fuel st1 l1 key value with
            | none => none
            | some (l2, st2) =>
              insBalanceR cfg fuel st2 key l2 r1 mx1 pin1
        | _ => none

/-- The rebalancing tail of the arrow-full `Avl3.delete` (lines 846-930).
Identical in shape to the insert version except that the single left
rotation has no key bump, and the single right-to-left rotation computes
the new root height from the already-moved `n.right` (the source's
line 864 quirk). -/
def delBalanceR (cfg : Config) (fuel : Nat) (st : MState)
    (l1 r1 : RNode) (m1 : Bytes) (pin1 : Nat) : Option (RNode × MState) :=
  let lH := l1.getheight
  let rH := r1.getheight
  if rH > lH then
    if rH - lH > 1 then
      match peel cfg fuel st r1 with
      | none => none
      | some (nr0, st1) =>
        match nr0 with
        | .fork nrh nrl0 nrr0 nrm nrpin nrar =>
          match (match nrar with
            | some p => moveArrowOverForkM st1 p nrh nrl0 nrr0 nrm nrpin
            | none => some (st1, .fork nrh nrl0 nrr0 nrm nrpin none)) with
          | none => none
          | some (st2, nr1) =>
            match nr1 with
            | .fork _ nrl nrr nrm1 nrpin1 _ =>
              if nrr.getheight ≥ nrl.getheight then
                let n1 : RNode := .fork (1 + maxu32 l1.getheight nrl.getheight) l1 nrl
                  nrl.getmax pin1 none
                some (.fork (1 + maxu32 n1.getheight nrl.getheight) n1 nrr nrm1
                  nrpin1 none, st2)
              else
                match peel cfg fuel st2 nrl with
                | none => none
                | some (nrl0b, st3) =>
                  match nrl0b with
                  | .fork qh ql0 qr0 qm qpin qar =>
                    match (match qar with
                      | some p => moveArrowOverForkM st3 p qh ql0 qr0 qm qpin
                      | none => some (st3, .fork qh ql0 qr0 qm qpin none)) with
                    | none => none
                    | some (st4, nrl1) =>
                      match nrl1 with
                      | .fork _ nrll nrlr _ nrlpin _ =>
                        let n1 : RNode := .fork (1 + maxu32 l1.getheight nrll.getheight)
                          l1 nrll nrll.getmax pin1 none
                        let nr2 : RNode := .fork (1 + maxu32 nrlr.getheight nrr.getheight)
                          nrlr nrr nrm1 nrpin1 none
                        some (.fork (1 + maxu32 n1.getheight nr2.getheight) n1 nr2
                          nrm1 nrlpin none, st4)
                      | _ => none
                  | _ => none
            | _ => none
        | _ => none
    else some (.fork (1 + maxu32 lH rH) l1 r1 m1 pin1 none, st)
  else if lH - rH > 1 then
    match peel cfg fuel st l1 with
    | none => none
    | some (nl0, st1) =>
      match nl0 with
      | .fork nlh nll0 nlr0 nlm nlpin nlar =>
        match (match nlar with
          | some p => moveArrowOverForkM st1 p nlh nll0 nlr0 nlm nlpin
          | none => some (st1, .fork nlh nll0 nlr0 nlm nlpin none)) with
        | none => none
        | some (st2, nl1) =>
          match nl1 with
          | .fork _ nll nlr _ nlpin1 _ =>
            if nll.getheight ≥ nlr.getheight then
              let n1 : RNode := .fork (1 + maxu32 nlr.getheight r1.getheight) nlr r1
                m1 pin1 none
              some (.fork (1 + maxu32 nll.getheight n1.getheight) nll n1 m1
                nlpin1 none, st2)
            else
              match peel cfg fuel st2 nlr with
              | none => none
              | some (nlr0b, st3) =>
                match nlr0b with
                | .fork qh ql0 qr0 qm qpin qar =>
                  match (match qar with
                    | some p => moveArrowOverForkM st3 p qh ql0 qr0 qm qpin
                    | none => some (st3, .fork qh ql0 qr0 qm qpin none)) with
                  | none => none
                  | some (st4, nlr1) =>
                    match nlr1 with
                    | .fork _ nlrl nlrr _ nlrpin _ =>
                      let n1 : RNode := .fork (1 + maxu32 nlrr.getheight r1.getheight)
                        nlrr r1 m1 pin1 none
                      let nl2 : RNode := .fork (1 + maxu32 nll.getheight nlrl.getheight)
                        nll nlrl nlrl.getmax nlpin1 none
                      some (.fork (1 + maxu32 nl2.getheight n1.getheight) nl2 n1 m1
                        nlrpin none, st4)
                    | _ => none
                | _ => none
          | _ => none
      | _ => none
  else some (.fork (1 + maxu32 lH rH) l1 r1 m1 pin1 none, st)

/-- The arrow-full `Avl3.delete` (lines 786-932): arrows are peeled, a
fork's back-arrow is moved before mutation, a fork of two (possibly
paged-in) leaves collapses to the surviving leaf (releasing the removed
value only when the removed leaf carries no back-arrow), a child deleted
to nothing promotes the sibling, and otherwise the tail rebalances.
Returns `none` for the removed-subtree case of the recursion. -/
def deleteRec (cfg : Config) : Nat → MState → RNode → Bytes →
    Option (Option RNode × MState)
  | 0, _, _, _ => none
  | fuel + 1, st, cur, key =>
    match cur with
    | .arr pid h mx ar =>
      match peel cfg (fuel + 1) st (.arr pid h mx ar) with
      | none => none
      | some (point, st1) => deleteRec cfg fuel st1 point key
    | .leaf _ _ vid _ _ ar =>
      match ar with
      | none => some (none, freeValueIdM st vid)
      | some _ => some (none, st)
    | .fork h l r mx pin ar =>
      let c := bytesCompare key l.getmax
      match (match ar with
        | some p => moveArrowOverForkM st p h l r mx pin
        | none => some (st, .fork h l r mx pin none)) with
      | none => none
      | some (st1, n1) =>
        match n1 with
        | .fork _ l1 r1 mx1 pin1 _ =>
          match isLeafR cfg st1.pageMap (fuel + 1) l1 with
          | none => none
          | some bl =>
            match (if bl then isLeafR cfg st1.pageMap (fuel + 1) r1 else some false) with
            | none => none
            | some br =>
              if bl ∧ br then
                match peel cfg (fuel + 1) st1 l1 with
                | none => none
                | some (nl, st2) =>
                  match peel cfg (fuel + 1) st2 r1 with
                  | none => none
                  | some (nr, st3) =>
                    match nl, nr with
                    | .leaf _ _ nlvid _ _ nlar, .leaf _ _ nrvid _ _ nrar =>
                      if c = 1 then
                        let st4 := match nrar with
                          | none => freeValueIdM st3 nrvid
                          | some _ => st3
                        some (some nl, st4)
                      else
                        let st4 := match nlar with
                          | none => freeValueIdM st3 nlvid
                          | some _ => st3
                        some (some nr, st4)
                    | _, _ => none
              else
                if c = 1 then
                  match deleteRec cfg fuel st1 r1 key with
                  | none => none
                  | some (none, st2) => some (some l1, st2)
                  | some (some r2, st2) =>
                    match delBalanceR cfg fuel st2 l1 r2 r2.getmax pin1 with
                    | none => none
                    | some (n2, st3) => some (some n2, st3)
                else
                  match deleteRec cfg fuel st1 l1 key with
                  | none => none
                  | some (none, st2) => some (some r1, st2)
                  | some (some l2, st2) =>
                    match delBalanceR cfg fuel st2 l2 r1 mx1 pin1 with
                    | none => none
                    | some (n2, st3) => some (some n2, st3)
        | _ => none

/-- The pre-scan loop of `Avl3.Insert` (lines 576-608): walk down to the
key's leaf position, reading through arrows.  `none` is the nil-point
panic; `some none` is the early `return false` (identical key and value);
`some (some b)` proceeds to the mutation with `inserted = b`. -/
def insertScan (cfg : Config) (st : MState) (key value : Bytes) :
    Nat → Option RNode → Option (Option Bool)
  | 0, _ => none
  | fuel + 1, cur =>
    match cur with
    | none => some (some true)
    | some (.leaf k v vid _ _ _) =>
      if key = k then
        if value = nvalueM st v vid then some none else some (some false)
      else some (some true)
    | some (.fork _ l r _ _ _) =>
      if bytesCompare key l.getmax = 1 then insertScan cfg st key value fuel (some r)
      else insertScan cfg st key value fuel (some l)
    | some (.arr pid h mx _) =>
      match deserialisePage cfg st.pageMap pid (some mx) h with
      | some (some point, _) => insertScan cfg st key value fuel (some point)
      | _ => none

/-- `Avl3.Insert` (lines 576-608) in the post-`Commit` phase: the
pre-scan decides the return value (and returns early, mutating nothing,
when the identical pair is already present), then the root is replaced by
the arrow-full `insert`. -/
def InsertR (cfg : Config) (fuel : Nat) (st : MState) (root : Option RNode)
    (key value : Bytes) : Option (Option RNode × MState × Bool) :=
  match insertScan cfg st key value fuel root with
  | none => none
  | some none => some (root, st, false)
  | some (some inserted) =>
    match root with
    | none => some (some (.leaf key value 0 value.length 0 none), st, inserted)
    | some rt =>
      match insertRec cfg fuel st rt key value with
      | none => none
      | some (rt1, st1) => some (some rt1, st1, inserted)

/-- The pre-scan loop of `Avl3.Delete` (lines 753-784): `some false` when
the key is absent (no mutation), `some true` when the key's leaf was
found; arrows are read through, and a deserialised height differing from
the arrow's cached height is the source's panic. -/
def deleteScan (cfg : Config) (st : MState) (key : Bytes) :
    Nat → Option RNode → Option Bool
  | 0, _ => none
  | fuel + 1, cur =>
    match cur with
    | none => some false
    | some (.leaf k _ _ _ _ _) => some (key = k)
    | some (.fork _ l r _ _ _) =>
      if bytesCompare key l.getmax = 1 then deleteScan cfg st key fuel (some r)
      else deleteScan cfg st key fuel (some l)
    | some (.arr pid h mx _) =>
      match deserialisePage cfg st.pageMap pid (some mx) h with
      | some (some point, _) =>
        if point.getheight = h then deleteScan cfg st key fuel (some point)
        else none
      | _ => none

/-- `Avl3.Delete` (lines 753-784) in the post-`Commit` phase: the
pre-scan decides presence, then the root is replaced by the arrow-full
`delete` (`nil` when the last leaf went away). -/
def DeleteR (cfg : Config) (fuel : Nat) (st : MState) (root : Option RNode)
    (key : Bytes) : Option (Option RNode × MState × Bool) :=
  match deleteScan cfg st key fuel root with
  | none => none
  | some false => some (root, st, false)
  | some true =>
    match root with
    | none => none
    | some rt =>
      match deleteRec cfg fuel st rt key with
      | none => none
      | some (rt1, st1) => some (rt1, st1, true)

/-- `heightsCorrect` passes on a current-phase tree. -/
def HOKR (r : RNode) : Prop := (heightsCorrectR r).2 = true

/-- `balanceCorrect` passes on a current-phase tree. -/
def BOKR (r : RNode) : Prop := balanceCorrectR r = true

/-- `heightsCorrect` passes on a prevRoot tree. -/
def HOKS (t : SNode) : Prop := (heightsCorrectS t).2 = true

/-- `balanceCorrect` passes on a prevRoot tree. -/
def BOKS (t : SNode) : Prop := balanceCorrectS t = true

theorem getheightR_fork (h : Nat) (l r : RNode) (m : Bytes) (pin : Nat)
    (ar : Option Path) : (RNode.fork h l r m pin ar).getheight = h := rfl

theorem getheightR_leaf (k v : Bytes) (vid vlen pin : Nat) (ar : Option Path) :
    (RNode.leaf k v vid vlen pin ar).getheight = 1 := rfl

theorem getheightR_arr (pid h : Nat) (m : Bytes) (ar : Option Path) :
    (RNode.arr pid h m ar).getheight = h := rfl

theorem HOKR_fork_raw {h : Nat} {l r : RNode} {m : Bytes} {pin : Nat}
    {ar : Option Path} :
    HOKR (.fork h l r m pin ar) ↔
      HOKR l ∧ HOKR r ∧
        1 + maxu32 (heightsCorrectR l).1 (heightsCorrectR r).1 = h := by
  unfold HOKR
  rw [heightsCorrectR]
  simp [Bool.and_eq_true, and_assoc]

theorem heightsR_computed {t : RNode} (h : HOKR t) :
    (heightsCorrectR t).1 = t.getheight := by
  induction t with
  | leaf k v vid vlen pin ar => rfl
  | fork h0 l r m pin ar ihl ihr =>
    obtain ⟨hl, hr, he⟩ := HOKR_fork_raw.mp h
    rw [heightsCorrectR]
    exact he
  | arr pid h0 m ar => rfl

theorem HOKR_fork {h : Nat} {l r : RNode} {m : Bytes} {pin : Nat}
    {ar : Option Path} :
    HOKR (.fork h l r m pin ar) ↔
      HOKR l ∧ HOKR r ∧ h = 1 + maxu32 l.getheight r.getheight := by
  rw [HOKR_fork_raw]
  constructor
  · rintro ⟨hl, hr, he⟩
    rw [heightsR_computed hl, heightsR_computed hr] at he
    exact ⟨hl, hr, he.symm⟩
  · rintro ⟨hl, hr, he⟩
    rw [heightsR_computed hl, heightsR_computed hr]
    exact ⟨hl, hr, he.symm⟩

theorem BOKR_fork {h : Nat} {l r : RNode} {m : Bytes} {pin : Nat}
    {ar : Option Path} :
    BOKR (.fork h l r m pin ar) ↔
      (r.getheight ≤ l.getheight + 1 ∧ l.getheight ≤ r.getheight + 1) ∧
        BOKR l ∧ BOKR r := by
  unfold BOKR
  rw [balanceCorrectR]
  simp only [Bool.and_eq_true]
  constructor
  · rintro ⟨⟨hb, hl⟩, hr⟩
    refine ⟨?_, hl, hr⟩
    split at hb <;> simp only [decide_eq_true_eq] at hb <;> omega
  · rintro ⟨hb, hl, hr⟩
    refine ⟨⟨?_, hl⟩, hr⟩
    split <;> simp only [decide_eq_true_eq] <;> omega

theorem HOKS_fork_raw {h : Nat} {l r : SNode} {m : Bytes} {pin : Nat}
    {ha : Bool} :
    HOKS (.fork h l r m pin ha) ↔
      HOKS l ∧ HOKS r ∧
        1 + maxu32 (heightsCorrectS l).1 (heightsCorrectS r).1 = h := by
  unfold HOKS
  rw [heightsCorrectS]
  simp [Bool.and_eq_true, and_assoc]

theorem heightsS_computed {t : SNode} (h : HOKS t) :
    (heightsCorrectS t).1 = t.getheight := by
  induction t with
  | leaf k v vid vlen pin ha => rfl
  | fork h0 l r m pin ha ihl ihr =>
    obtain ⟨hl, hr, he⟩ := HOKS_fork_raw.mp h
    rw [heightsCorrectS]
    exact he
  | arrow pid h0 m => rfl

theorem HOKS_fork {h : Nat} {l r : SNode} {m : Bytes} {pin : Nat} {ha : Bool} :
    HOKS (.fork h l r m pin ha) ↔
      HOKS l ∧ HOKS r ∧ h = 1 + maxu32 l.getheight r.getheight := by
  rw [HOKS_fork_raw]
  constructor
  · rintro ⟨hl, hr, he⟩
    rw [heightsS_computed hl, heightsS_computed hr] at he
    exact ⟨hl, hr, he.symm⟩
  · rintro ⟨hl, hr, he⟩
    rw [heightsS_computed hl, heightsS_computed hr]
    exact ⟨hl, hr, he.symm⟩

theorem BOKS_fork {h : Nat} {l r : SNode} {m : Bytes} {pin : Nat} {ha : Bool} :
    BOKS (.fork h l r m pin ha) ↔
      (r.getheight ≤ l.getheight + 1 ∧ l.getheight ≤ r.getheight + 1) ∧
        BOKS l ∧ BOKS r := by
  unfold BOKS
  rw [balanceCorrectS]
  simp only [Bool.and_eq_true]
  constructor
  · rintro ⟨⟨hb, hl⟩, hr⟩
    refine ⟨?_, hl, hr⟩
    split at hb <;> simp only [decide_eq_true_eq] at hb <;> omega
  · rintro ⟨hb, hl, hr⟩
    refine ⟨⟨?_, hl⟩, hr⟩
    split <;> simp only [decide_eq_true_eq] <;> omega

/-- Both checks pass on a current-phase tree. -/
def HBRok (r : RNode) : Prop := HOKR r ∧ BOKR r

/-- Both checks pass on the shadow `prevRoot` (vacuous when absent). -/
def prevOK (st : MState) : Prop := ∀ t ∈ st.prev, HOKS t ∧ BOKS t

/-- The shadow arrow a back-pointer designates: `prevRoot` holds an
`Arrow3` at the path, caching exactly the pointing node's height and max
key (its page id is irrelevant to the checks and changes under `Peel`). -/
def validArrow (prev : Option SNode) (p : Path) (h : Nat) (mx : Bytes) : Bool :=
  match prev with
  | none => false
  | some pr =>
    match prevAt pr p with
    | some (.arrow _ ah amx) => decide (ah = h) && decide (amx = mx)
    | _ => false

/-- The correspondence invariant of the current tree against the shadow:
every back-pointer in the tree designates a shadow arrow caching its
node's height and max key. -/
def corrOK (prev : Option SNode) : RNode → Bool
  | .leaf k _ _ _ _ ar =>
    match ar with
    | none => true
    | some p => validArrow prev p 1 k
  | .fork h l r mx _ ar =>
    (match ar with
     | none => true
     | some p => validArrow prev p h mx) && corrOK prev l && corrOK prev r
  | .arr _ h mx ar =>
    match ar with
    | none => true
    | some p => validArrow prev p h mx

/-- The deserialisation contract of a page reference: the page expands to
a node passing both checks, of exactly the cached height and max key,
carrying no back-pointers, and whose own page references satisfy the
contract in turn.  This is what `Commit` guarantees for the pages it has
written (the `Delete` pre-scan even panics on a height mismatch), taken
as a hypothesis on the engine state. -/
inductive GoodA (cfg : Config) (pm : List (Nat × List Nat)) : Nat → Nat → Bytes → Prop where
  | mk (pid h : Nat) (mx : Bytes) (r0 : RNode) (rel : Bool) :
      deserialisePage cfg pm pid (some mx) h = some (some r0, rel) →
      HOKR r0 → BOKR r0 →
      r0.getheight = h → r0.getmax = mx → pathsOfR r0 = [] →
      (∀ q ∈ arrowsInR r0, GoodA cfg pm q.1 q.2.1 q.2.2) →
      GoodA cfg pm pid h mx

/-- All page references of a tree satisfy the deserialisation contract. -/
def goodR (cfg : Config) (pm : List (Nat × List Nat)) (r : RNode) : Prop :=
  ∀ q ∈ arrowsInR r, GoodA cfg pm q.1 q.2.1 q.2.2

theorem prevAt_append (pr : SNode) (p q : Path) :
    prevAt pr (p ++ q) = (prevAt pr p).bind (fun t => prevAt t q) := by
  induction p generalizing pr with
  | nil => simp [prevAt]
  | cons d p ih =>
    cases pr with
    | fork h l r m pin ha =>
      rw [List.cons_append, prevAt, prevAt]
      exact ih _
    | leaf k v vid vlen pin ha => rfl
    | arrow pid h m => rfl

theorem prevAt_fork_of_cons {pr : SNode} {d : Bool} {p : Path} {t : SNode}
    (h : prevAt pr (d :: p) = some t) :
    ∃ h0 l r m pin ha, pr = .fork h0 l r m pin ha := by
  cases pr with
  | fork h0 l r m pin ha => exact ⟨h0, l, r, m, pin, ha, rfl⟩
  | leaf k v vid vlen pin ha => exact absurd h (by simp [prevAt])
  | arrow pid h0 m => exact absurd h (by simp [prevAt])

theorem prevReplace_nil (pr n : SNode) : prevReplace pr [] n = n := by
  cases pr <;> rfl

theorem prevAt_nil (pr : SNode) : prevAt pr [] = some pr := by
  cases pr <;> rfl

theorem prevReplace_at {pr : SNode} {p : Path} {t : SNode} (n : SNode)
    (h : prevAt pr p = some t) :
    prevAt (prevReplace pr p n) p = some n := by
  induction p generalizing pr with
  | nil => rw [prevReplace_nil, prevAt_nil]
  | cons d p ih =>
    obtain ⟨h0, l, r, m, pin, ha, rfl⟩ := prevAt_fork_of_cons h
    rw [prevAt] at h
    cases d with
    | false =>
      show prevAt (.fork h0 (prevReplace l p n) r m pin ha) (false :: p) = some n
      rw [prevAt]
      exact ih (by simpa using h)
    | true =>
      show prevAt (.fork h0 l (prevReplace r p n) m pin ha) (true :: p) = some n
      rw [prevAt]
      exact ih (by simpa using h)

theorem prevAt_replace_ne {pr : SNode} {p q : Path} {pa ph : Nat} {pm : Bytes}
    {qa qh : Nat} {qm : Bytes} (n : SNode)
    (hp : prevAt pr p = some (.arrow pa ph pm))
    (hq : prevAt pr q = some (.arrow qa qh qm)) (hne : q ≠ p) :
    prevAt (prevReplace pr p n) q = some (.arrow qa qh qm) := by
  induction p generalizing pr q with
  | nil =>
    rw [prevAt] at hp
    obtain rfl : pr = SNode.arrow pa ph pm := by simpa using hp
    cases q with
    | nil => exact absurd rfl hne
    | cons e q => exact absurd hq (by simp [prevAt])
  | cons d p ih =>
    obtain ⟨h0, l, r, m, pin, ha, rfl⟩ := prevAt_fork_of_cons hp
    cases q with
    | nil => exact absurd hq (by rw [prevAt]; simp)
    | cons e q =>
      rw [prevAt] at hp hq
      cases d with
      | false =>
        show prevAt (.fork h0 (prevReplace l p n) r m pin ha) (e :: q) = _
        rw [prevAt]
        cases e with
        | false =>
          exact ih (by simpa using hp) (by simpa using hq)
            (by intro hcon; exact hne (by rw [hcon]))
        | true => simpa using hq
      | true =>
        show prevAt (.fork h0 l (prevReplace r p n) m pin ha) (e :: q) = _
        rw [prevAt]
        cases e with
        | false => simpa using hq
        | true =>
          exact ih (by simpa using hp) (by simpa using hq)
            (by intro hcon; exact hne (by rw [hcon]))

theorem prevReplace_getheight {pr : SNode} {p : Path} {t : SNode} {n : SNode}
    (hat : prevAt pr p = some t) (hh : n.getheight = t.getheight) :
    (prevReplace pr p n).getheight = pr.getheight := by
  induction p generalizing pr with
  | nil =>
    rw [prevAt] at hat
    obtain rfl : pr = t := by simpa using hat
    rw [prevReplace_nil]
    exact hh
  | cons d p ih =>
    obtain ⟨h0, l, r, m, pin, ha, rfl⟩ := prevAt_fork_of_cons hat
    cases d <;> rfl

theorem prevReplace_hb {pr : SNode} {p : Path} {apid ah : Nat} {amx : Bytes}
    {n : SNode} (hok : HOKS pr) (hbal : BOKS pr)
    (hat : prevAt pr p = some (.arrow apid ah amx))
    (hn : HOKS n ∧ BOKS n) (hh : n.getheight = ah) :
    HOKS (prevReplace pr p n) ∧ BOKS (prevReplace pr p n) := by
  induction p generalizing pr with
  | nil => rw [prevReplace_nil]; exact hn
  | cons d p ih =>
    obtain ⟨h0, l, r, m, pin, ha, rfl⟩ := prevAt_fork_of_cons hat
    rw [prevAt] at hat
    obtain ⟨hl, hr, he⟩ := HOKS_fork.mp hok
    obtain ⟨hbb, hbl, hbr⟩ := BOKS_fork.mp hbal
    cases d with
    | false =>
      have hat2 : prevAt l p = some (.arrow apid ah amx) := by simpa using hat
      obtain ⟨ihh, ihb⟩ := ih hl hbl hat2
      have hgh : (prevReplace l p n).getheight = l.getheight :=
        prevReplace_getheight hat2 (by simpa using hh)
      constructor
      · exact HOKS_fork.mpr ⟨ihh, hr, by rw [hgh]; exact he⟩
      · exact BOKS_fork.mpr ⟨by rw [hgh]; exact hbb, ihb, hbr⟩
    | true =>
      have hat2 : prevAt r p = some (.arrow apid ah amx) := by simpa using hat
      obtain ⟨ihh, ihb⟩ := ih hr hbr hat2
      have hgh : (prevReplace r p n).getheight = r.getheight :=
        prevReplace_getheight hat2 (by simpa using hh)
      constructor
      · exact HOKS_fork.mpr ⟨hl, ihh, by rw [hgh]; exact he⟩
      · exact BOKS_fork.mpr ⟨by rw [hgh]; exact hbb, hbl, ihb⟩

theorem setArrowR_getheight (t : RNode) (a : Option Path) :
    (setArrowR t a).getheight = t.getheight := by cases t <;> rfl

theorem setArrowR_getmax (t : RNode) (a : Option Path) :
    (setArrowR t a).getmax = t.getmax := by cases t <;> rfl

theorem heightsCorrectR_setArrowR (t : RNode) (a : Option Path) :
    heightsCorrectR (setArrowR t a) = heightsCorrectR t := by cases t <;> rfl

theorem balanceCorrectR_setArrowR (t : RNode) (a : Option Path) :
    balanceCorrectR (setArrowR t a) = balanceCorrectR t := by cases t <;> rfl

theorem arrowsInR_setArrowR (t : RNode) (a : Option Path) :
    arrowsInR (setArrowR t a) = arrowsInR t := by cases t <;> rfl

/-- The back-pointer paths strictly below the top of a tree. -/
def subPathsR : RNode → List Path
  | .leaf _ _ _ _ _ _ => []
  | .fork _ l r _ _ _ => pathsOfR l ++ pathsOfR r
  | .arr _ _ _ _ => []

theorem pathsOfR_setArrowR (t : RNode) (a : Option Path) :
    pathsOfR (setArrowR t a) = a.toList ++ subPathsR t := by
  cases t <;> simp [pathsOfR, setArrowR, subPathsR]

theorem pathsOfR_decomp (t : RNode) :
    pathsOfR t = t.arrowOf.toList ++ subPathsR t := by
  cases t <;> simp [pathsOfR, RNode.arrowOf, subPathsR]

/-- The per-node correspondence condition of the top of a tree. -/
def corrTop (pv : Option SNode) (t : RNode) : Bool :=
  match t.arrowOf with
  | none => true
  | some p => validArrow pv p t.getheight t.getmax

/-- The correspondence condition of the strict subtrees. -/
def corrSubR (pv : Option SNode) : RNode → Bool
  | .fork _ l r _ _ _ => corrOK pv l && corrOK pv r
  | _ => true

theorem corrOK_decomp (pv : Option SNode) (t : RNode) :
    corrOK pv t = (corrTop pv t && corrSubR pv t) := by
  cases t <;>
    simp [corrOK, corrTop, corrSubR, RNode.arrowOf, RNode.getheight,
      RNode.getmax, Bool.and_assoc]

theorem corrTop_setArrowR (pv : Option SNode) (t : RNode) (a : Option Path) :
    corrTop pv (setArrowR t a) =
      (match a with
       | none => true
       | some p => validArrow pv p t.getheight t.getmax) := by
  cases t <;> cases a <;> rfl

theorem corrSubR_setArrowR (pv : Option SNode) (t : RNode) (a : Option Path) :
    corrSubR pv (setArrowR t a) = corrSubR pv t := by
  cases t <;> cases a <;> rfl

theorem corrOK_of_noPaths {pv : Option SNode} {t : RNode}
    (h : pathsOfR t = []) : corrOK pv t = true := by
  induction t with
  | leaf k v vid vlen pin ar =>
    cases ar with
    | none => rfl
    | some p => simp [pathsOfR] at h
  | fork h0 l r m pin ar ihl ihr =>
    simp only [pathsOfR, List.append_eq_nil] at h
    obtain ⟨⟨ha, hl⟩, hr⟩ := h
    rw [corrOK_decomp]
    have htop : corrTop pv (.fork h0 l r m pin ar) = true := by
      cases ar with
      | none => rfl
      | some p => simp [Option.toList] at ha
    rw [htop, corrSubR, ihl hl, ihr hr]
    rfl
  | arr pid h0 m ar =>
    cases ar with
    | none => rfl
    | some p => simp [pathsOfR] at h

theorem corr_paths_valid {pv : Option SNode} {t : RNode}
    (hc : corrOK pv t = true) :
    ∀ q ∈ pathsOfR t, ∃ h2 mx2, validArrow pv q h2 mx2 = true := by
  induction t with
  | leaf k v vid vlen pin ar =>
    intro q hq
    cases ar with
    | none => simp [pathsOfR] at hq
    | some p =>
      simp only [pathsOfR, Option.toList_some, List.mem_singleton] at hq
      subst hq
      exact ⟨1, k, by simpa [corrOK] using hc⟩
  | fork h0 l r m pin ar ihl ihr =>
    intro q hq
    rw [corrOK_decomp] at hc
    simp only [Bool.and_eq_true] at hc
    obtain ⟨htop, hsub⟩ := hc
    rw [corrSubR] at hsub
    simp only [Bool.and_eq_true] at hsub
    simp only [pathsOfR, List.mem_append] at hq
    rcases hq with (hq | hq) | hq
    · cases ar with
      | none => simp at hq
      | some p =>
        simp only [Option.toList_some, List.mem_singleton] at hq
        subst hq
        exact ⟨h0, m, by simpa [corrTop, RNode.arrowOf] using htop⟩
    · exact ihl hsub.1 q hq
    · exact ihr hsub.2 q hq
  | arr pid h0 m ar =>
    intro q hq
    cases ar with
    | none => simp [pathsOfR] at hq
    | some p =>
      simp only [pathsOfR, Option.toList_some, List.mem_singleton] at hq
      subst hq
      exact ⟨h0, m, by simpa [corrOK] using hc⟩

theorem corrOK_transport {pv pv' : Option SNode} {t : RNode}
    (hc : corrOK pv t = true)
    (hpres : ∀ p h2 mx2, p ∈ pathsOfR t → validArrow pv p h2 mx2 = true →
      validArrow pv' p h2 mx2 = true) :
    corrOK pv' t = true := by
  induction t with
  | leaf k v vid vlen pin ar =>
    cases ar with
    | none => rfl
    | some p =>
      simp only [corrOK] at hc ⊢
      exact hpres p 1 k (by simp [pathsOfR]) hc
  | fork h0 l r m pin ar ihl ihr =>
    rw [corrOK_decomp] at hc ⊢
    simp only [Bool.and_eq_true] at hc ⊢
    obtain ⟨htop, hsub⟩ := hc
    rw [corrSubR] at hsub
    simp only [Bool.and_eq_true] at hsub
    refine ⟨?_, ?_⟩
    · cases ar with
      | none => rfl
      | some p =>
        simp only [corrTop, RNode.arrowOf] at htop ⊢
        exact hpres p _ _ (by simp [pathsOfR]) htop
    · rw [corrSubR]
      simp only [Bool.and_eq_true]
      constructor
      · exact ihl hsub.1 (fun p h2 mx2 hp hv =>
          hpres p h2 mx2 (by simp [pathsOfR, hp]) hv)
      · exact ihr hsub.2 (fun p h2 mx2 hp hv =>
          hpres p h2 mx2 (by simp [pathsOfR, hp]) hv)
  | arr pid h0 m ar =>
    cases ar with
    | none => rfl
    | some p =>
      simp only [corrOK] at hc ⊢
      exact hpres p h0 m (by simp [pathsOfR]) hc

/-- The state-evolution contract of one mutation step of the phase,
relative to the back-paths `P` the step owns: the shadow stays checked,
the page store is untouched, the result's back-paths `P2` are either
inherited from `P` or were dangling (no shadow arrow) before the step,
and shadow arrows outside `P` are untouched. -/
structure Flow (cfg : Config) (st : MState) (P : List Path) (st' : MState)
    (P2 : List Path) : Prop where
  pok : prevOK st'
  pmEq : st'.pageMap = st.pageMap
  fresh : ∀ q ∈ P2, q ∈ P ∨ ∀ h2 mx2, validArrow st.prev q h2 mx2 = false
  frame : ∀ q h2 mx2, validArrow st.prev q h2 mx2 = true → q ∉ P →
    validArrow st'.prev q h2 mx2 = true

/-- The per-tree facts of the invariant. -/
structure NodeOK (cfg : Config) (st : MState) (r : RNode) : Prop where
  hok : HOKR r
  bok : BOKR r
  corr : corrOK st.prev r = true
  good : goodR cfg st.pageMap r
  dist : (pathsOfR r).Pairwise (· ≠ ·)

theorem Flow.trans {cfg : Config} {st st1 st' : MState} {P P1 P2 : List Path}
    (o1 : Flow cfg st P st1 P1) (o2 : Flow cfg st1 P1 st' P2) :
    Flow cfg st P st' P2 := by
  refine ⟨o2.pok, o2.pmEq.trans o1.pmEq, ?_, ?_⟩
  · intro q hq
    rcases o2.fresh q hq with hm | hinv
    · exact o1.fresh q hm
    · by_cases hv : ∀ h2 mx2, validArrow st.prev q h2 mx2 = false
      · exact Or.inr hv
      · push_neg at hv
        obtain ⟨h3, mx3, hne⟩ := hv
        have hv3 : validArrow st.prev q h3 mx3 = true := by
          cases hb : validArrow st.prev q h3 mx3
          · exact absurd hb hne
          · rfl
        by_cases hqP : q ∈ P
        · exact Or.inl hqP
        · have := o1.frame q h3 mx3 hv3 hqP
          exact absurd (hinv h3 mx3) (by simp [this])
  · intro q h2 mx2 hv hq
    have hv1 := o1.frame q h2 mx2 hv hq
    have hqm : q ∉ P1 := by
      intro hqm
      rcases o1.fresh q hqm with h | h
      · exact hq h
      · exact absurd (h h2 mx2) (by simp [hv])
    exact o2.frame q h2 mx2 hv1 hqm

/-- A no-op step. -/
theorem Flow.id {cfg : Config} {st : MState} {P : List Path} (hp : prevOK st) :
    Flow cfg st P st P :=
  ⟨hp, rfl, fun _ hq => Or.inl hq, fun _ _ _ hv _ => hv⟩

/-- Growing the owned paths and shrinking the result paths. -/
theorem Flow.mono {cfg : Config} {st st' : MState} {P P2 Q Q2 : List Path}
    (o : Flow cfg st P st' P2) (hP : ∀ q ∈ P, q ∈ Q) (hQ2 : ∀ q ∈ Q2, q ∈ P2) :
    Flow cfg st Q st' Q2 := by
  refine ⟨o.pok, o.pmEq, ?_, ?_⟩
  · intro q hq
    rcases o.fresh q (hQ2 q hq) with h | h
    · exact Or.inl (hP q h)
    · exact Or.inr h
  · intro q h2 mx2 hv hq
    exact o.frame q h2 mx2 hv (fun hmem => hq (hP q hmem))

/-- A step run beside an untouched sibling owns the sibling's paths
vacuously. -/
theorem Flow.addSib {cfg : Config} {st st' : MState} {P P2 S : List Path}
    (o : Flow cfg st P st' P2) :
    Flow cfg st (P ++ S) st' (P2 ++ S) := by
  refine ⟨o.pok, o.pmEq, ?_, ?_⟩
  · intro q hq
    rcases List.mem_append.mp hq with h | h
    · rcases o.fresh q h with h2 | h2
      · exact Or.inl (List.mem_append.mpr (Or.inl h2))
      · exact Or.inr h2
    · exact Or.inl (List.mem_append.mpr (Or.inr h))
  · intro q h2 mx2 hv hq
    exact o.frame q h2 mx2 hv (fun hmem => hq (List.mem_append.mpr (Or.inl hmem)))

/-- A path valid before a step and outside its owned paths is not among
the result's paths. -/
theorem Flow.notMem {cfg : Config} {st st' : MState} {P P2 : List Path}
    (o : Flow cfg st P st' P2) {q : Path} {h2 : Nat} {mx2 : Bytes}
    (hv : validArrow st.prev q h2 mx2 = true) (hq : q ∉ P) : q ∉ P2 := by
  intro hmem
  rcases o.fresh q hmem with h | h
  · exact hq h
  · exact absurd (h h2 mx2) (by simp [hv])

/-- An untouched sibling keeps its facts across a step that owns disjoint
paths. -/
theorem NodeOK.transport {cfg : Config} {st st' : MState} {sib : RNode}
    {P P2 : List Path} (hn : NodeOK cfg st sib) (fl : Flow cfg st P st' P2)
    (hdisj : ∀ q ∈ pathsOfR sib, q ∉ P) : NodeOK cfg st' sib := by
  refine ⟨hn.hok, hn.bok, ?_, ?_, hn.dist⟩
  · refine corrOK_transport hn.corr ?_
    intro p h2 mx2 hp hv
    exact fl.frame p h2 mx2 hv (hdisj p hp)
  · rw [fl.pmEq]
    exact hn.good

/-- An untouched sibling's paths avoid the result paths of a disjoint
step. -/
theorem sib_paths_avoid {cfg : Config} {st st' : MState} {sib : RNode}
    {P P2 : List Path} (hn : NodeOK cfg st sib) (fl : Flow cfg st P st' P2)
    (hdisj : ∀ q ∈ pathsOfR sib, q ∉ P) :
    ∀ q ∈ pathsOfR sib, q ∉ P2 := by
  intro q hq
  obtain ⟨h2, mx2, hv⟩ := corr_paths_valid hn.corr q hq
  exact fl.notMem hv (hdisj q hq)

theorem validArrow_none (p : Path) (h : Nat) (mx : Bytes) :
    validArrow none p h mx = false := rfl

theorem validArrow_some (pr : SNode) (p : Path) (h : Nat) (mx : Bytes) :
    validArrow (some pr) p h mx =
      (match prevAt pr p with
       | some (.arrow _ ah amx) => decide (ah = h) && decide (amx = mx)
       | _ => false) := rfl

theorem validArrow_some_true {pr : SNode} {p : Path} {h : Nat} {mx : Bytes}
    (hv : validArrow (some pr) p h mx = true) :
    ∃ apid, prevAt pr p = some (.arrow apid h mx) := by
  rw [validArrow_some] at hv
  cases hat : prevAt pr p with
  | none => rw [hat] at hv; exact absurd hv (by simp)
  | some t =>
    cases t with
    | arrow apid ah amx =>
      rw [hat] at hv
      simp only [Bool.and_eq_true, decide_eq_true_eq] at hv
      exact ⟨apid, by rw [hv.1, hv.2]⟩
    | leaf k v vid vlen pin ha => rw [hat] at hv; exact absurd hv (by simp)
    | fork h0 l r m pin ha => rw [hat] at hv; exact absurd hv (by simp)

theorem validArrow_of_at {pr : SNode} {p : Path} {apid h : Nat} {mx : Bytes}
    (hat : prevAt pr p = some (.arrow apid h mx)) :
    validArrow (some pr) p h mx = true := by
  rw [validArrow_some, hat]
  simp

/-- No shadow arrow sits strictly below a designated shadow arrow. -/
theorem validArrow_extend_false {pv : Option SNode} {p : Path} {h : Nat}
    {mx : Bytes} (hva : validArrow pv p h mx = true) (q : Path) (hq : q ≠ []) :
    ∀ h2 mx2, validArrow pv (p ++ q) h2 mx2 = false := by
  intro h2 mx2
  cases pv with
  | none => rfl
  | some pr =>
    obtain ⟨apid, hat⟩ := validArrow_some_true hva
    rw [validArrow_some, prevAt_append, hat]
    cases q with
    | nil => exact absurd rfl hq
    | cons d q2 => simp [prevAt]

theorem validArrow_replace_ne {pr : SNode} {p q : Path} {apid ah : Nat}
    {amx : Bytes} (n : SNode) (hp : prevAt pr p = some (.arrow apid ah amx))
    {h2 : Nat} {mx2 : Bytes} (hv : validArrow (some pr) q h2 mx2 = true)
    (hne : q ≠ p) :
    validArrow (some (prevReplace pr p n)) q h2 mx2 = true := by
  obtain ⟨qa, hq⟩ := validArrow_some_true hv
  exact validArrow_of_at (prevAt_replace_ne n hp hq hne)

/-- Replacing a shadow arrow by an arrow caching the same height and max
(the `Peel` page-id redirect) preserves every designated arrow. -/
theorem validArrow_replace_arrow {pr : SNode} {p : Path} {apid ah npid : Nat}
    {amx : Bytes} (hp : prevAt pr p = some (.arrow apid ah amx)) :
    ∀ q h2 mx2, validArrow (some pr) q h2 mx2 = true →
      validArrow (some (prevReplace pr p (.arrow npid ah amx))) q h2 mx2 = true := by
  intro q h2 mx2 hv
  by_cases hqp : q = p
  · subst hqp
    obtain ⟨qa, hq⟩ := validArrow_some_true hv
    rw [hp] at hq
    simp only [Option.some.injEq, SNode.arrow.injEq] at hq
    obtain ⟨_, hh, hm⟩ := hq
    subst hh hm
    exact validArrow_of_at (prevReplace_at _ hp)
  · exact validArrow_replace_ne _ hp hv hqp

theorem corrSubR_transport {pv pv2 : Option SNode} {t : RNode}
    (hsub : corrSubR pv t = true)
    (hpres : ∀ q h2 mx2, q ∈ subPathsR t → validArrow pv q h2 mx2 = true →
      validArrow pv2 q h2 mx2 = true) :
    corrSubR pv2 t = true := by
  cases t with
  | fork h0 l r m pin ar =>
    rw [corrSubR] at hsub ⊢
    simp only [Bool.and_eq_true] at hsub ⊢
    refine ⟨corrOK_transport hsub.1 ?_, corrOK_transport hsub.2 ?_⟩
    · intro p h2 mx2 hp hv
      exact hpres p h2 mx2 (by simp [subPathsR, hp]) hv
    · intro p h2 mx2 hp hv
      exact hpres p h2 mx2 (by simp [subPathsR, hp]) hv
  | leaf k v vid vlen pin ar => rfl
  | arr pid h0 m ar => rfl

theorem corrOK_setArrowR_of {pv2 : Option SNode} {t : RNode} {a : Path}
    (hsub : corrSubR pv2 t = true)
    (hva : validArrow pv2 a t.getheight t.getmax = true) :
    corrOK pv2 (setArrowR t (some a)) = true := by
  rw [corrOK_decomp, corrTop_setArrowR, corrSubR_setArrowR]
  simp [hsub, hva]

/-- A state change that leaves the shadow and the page store alone is a
no-op step. -/
theorem Flow.ofEq {cfg : Config} {st stx : MState} {P : List Path}
    (hprev : stx.prev = st.prev) (hpm : stx.pageMap = st.pageMap)
    (hpok : prevOK stx) : Flow cfg st P stx P :=
  ⟨hpok, hpm, fun _ hq => Or.inl hq,
    fun _ _ _ hv _ => by rw [hprev]; exact hv⟩

theorem freeValueIdM_prev (s : MState) (vid : Nat) :
    (freeValueIdM s vid).prev = s.prev ∧ (freeValueIdM s vid).pageMap = s.pageMap := by
  unfold freeValueIdM
  split <;> exact ⟨rfl, rfl⟩

theorem pathsOfR_left_sub {h : Nat} {l r : RNode} {mx : Bytes} {pin : Nat}
    {ar : Option Path} :
    List.Sublist (pathsOfR l) (pathsOfR (.fork h l r mx pin ar)) := by
  rw [pathsOfR]
  exact ((List.sublist_append_right _ _).trans
    (List.sublist_append_left _ _))

theorem pathsOfR_right_sub {h : Nat} {l r : RNode} {mx : Bytes} {pin : Nat}
    {ar : Option Path} :
    List.Sublist (pathsOfR r) (pathsOfR (.fork h l r mx pin ar)) := by
  rw [pathsOfR]
  exact List.sublist_append_right _ _

theorem subPathsR_sub (t : RNode) : List.Sublist (subPathsR t) (pathsOfR t) := by
  rw [pathsOfR_decomp]
  exact List.sublist_append_right _ _

theorem NodeOK_fork_left {cfg : Config} {st : MState} {h : Nat} {l r : RNode}
    {mx : Bytes} {pin : Nat} {ar : Option Path}
    (hn : NodeOK cfg st (.fork h l r mx pin ar)) : NodeOK cfg st l := by
  have hc := hn.corr
  rw [corrOK_decomp] at hc
  simp only [Bool.and_eq_true] at hc
  have hsub := hc.2
  rw [corrSubR] at hsub
  simp only [Bool.and_eq_true] at hsub
  refine ⟨(HOKR_fork.mp hn.hok).1, (BOKR_fork.mp hn.bok).2.1, hsub.1, ?_, ?_⟩
  · intro q hq
    exact hn.good q (by simp [arrowsInR, hq])
  · exact hn.dist.sublist pathsOfR_left_sub

theorem NodeOK_fork_right {cfg : Config} {st : MState} {h : Nat} {l r : RNode}
    {mx : Bytes} {pin : Nat} {ar : Option Path}
    (hn : NodeOK cfg st (.fork h l r mx pin ar)) : NodeOK cfg st r := by
  have hc := hn.corr
  rw [corrOK_decomp] at hc
  simp only [Bool.and_eq_true] at hc
  have hsub := hc.2
  rw [corrSubR] at hsub
  simp only [Bool.and_eq_true] at hsub
  refine ⟨(HOKR_fork.mp hn.hok).2.1, (BOKR_fork.mp hn.bok).2.2, hsub.2, ?_, ?_⟩
  · intro q hq
    exact hn.good q (by simp [arrowsInR, hq])
  · exact hn.dist.sublist pathsOfR_right_sub

theorem HOKR_setArrowR {t : RNode} (h : HOKR t) (a : Option Path) :
    HOKR (setArrowR t a) := by
  unfold HOKR
  rw [heightsCorrectR_setArrowR]
  exact h

theorem BOKR_setArrowR {t : RNode} (h : BOKR t) (a : Option Path) :
    BOKR (setArrowR t a) := by
  unfold BOKR
  rw [balanceCorrectR_setArrowR]
  exact h

/-- The facts delivered by splicing the fork-of-two-arrows shadow copy of
`moveArrowOverFork` over the designated shadow arrow: the shadow keeps its
checks, the two fresh positions designate the new arrows, and every other
designated arrow survives. -/
theorem splice_fork_facts {pr : SNode} {p : Path} {apid h : Nat} {mx : Bytes}
    {lH rH : Nat} {lM rM : Bytes} {pin : Nat} (lp rp : Nat)
    (hat : prevAt pr p = some (.arrow apid h mx))
    (hok : HOKS pr) (hbal : BOKS pr)
    (hhe : h = 1 + maxu32 lH rH) (hb1 : rH ≤ lH + 1) (hb2 : lH ≤ rH + 1) :
    HOKS (prevReplace pr p
      (.fork h (.arrow lp lH lM) (.arrow rp rH rM) mx pin false)) ∧
    BOKS (prevReplace pr p
      (.fork h (.arrow lp lH lM) (.arrow rp rH rM) mx pin false)) ∧
    validArrow (some (prevReplace pr p
      (.fork h (.arrow lp lH lM) (.arrow rp rH rM) mx pin false)))
      (p ++ [false]) lH lM = true ∧
    validArrow (some (prevReplace pr p
      (.fork h (.arrow lp lH lM) (.arrow rp rH rM) mx pin false)))
      (p ++ [true]) rH rM = true ∧
    (∀ q h2 mx2, validArrow (some pr) q h2 mx2 = true → q ≠ p →
      validArrow (some (prevReplace pr p
        (.fork h (.arrow lp lH lM) (.arrow rp rH rM) mx pin false)))
        q h2 mx2 = true) := by
  have hS : HOKS (SNode.fork h (.arrow lp lH lM) (.arrow rp rH rM) mx pin false) ∧
      BOKS (SNode.fork h (.arrow lp lH lM) (.arrow rp rH rM) mx pin false) :=
    ⟨HOKS_fork.mpr ⟨rfl, rfl, hhe⟩, BOKS_fork.mpr ⟨⟨hb1, hb2⟩, rfl, rfl⟩⟩
  have hhb := prevReplace_hb hok hbal hat hS rfl
  have hrep := prevReplace_at
    (SNode.fork h (.arrow lp lH lM) (.arrow rp rH rM) mx pin false) hat
  refine ⟨hhb.1, hhb.2, ?_, ?_, ?_⟩
  · rw [validArrow_some, prevAt_append, hrep]
    simp [prevAt]
  · rw [validArrow_some, prevAt_append, hrep]
    simp [prevAt]
  · intro q h2 mx2 hv hne
    exact validArrow_replace_ne _ hat hv hne

/-- The move guard of `insert`/`delete` on a fork (lines 625-627, 816-818
and the balance sites): a present back-arrow runs `moveArrowOverFork`
first; either way the result is the same fork with pin and arrow cleared
on the current side, and the invariant survives. -/
theorem moveFork_case {cfg : Config} {st : MState} {h : Nat} {l r : RNode}
    {mx : Bytes} {pin : Nat} {ar : Option Path} {st1 : MState} {n1 : RNode}
    (hc : (match ar with
        | some p => moveArrowOverForkM st p h l r mx pin
        | none => some (st, .fork h l r mx pin none)) = some (st1, n1))
    (hpok : prevOK st) (hn : NodeOK cfg st (.fork h l r mx pin ar)) :
    Flow cfg st (pathsOfR (.fork h l r mx pin ar)) st1 (pathsOfR n1) ∧
    NodeOK cfg st1 n1 ∧
    ∃ l1 r1 pin1, n1 = .fork h l1 r1 mx pin1 none ∧
      l1.getheight = l.getheight ∧ r1.getheight = r.getheight ∧
      l1.getmax = l.getmax ∧ r1.getmax = r.getmax := by
  cases ar with
  | none =>
    simp only [Option.some.injEq, Prod.mk.injEq] at hc
    obtain ⟨hst, hnn⟩ := hc
    subst hst hnn
    exact ⟨Flow.id hpok, hn, l, r, pin, rfl, rfl, rfl, rfl, rfl⟩
  | some p =>
    have hva : validArrow st.prev p h mx = true := by
      have hcr := hn.corr
      rw [corrOK_decomp] at hcr
      simp only [Bool.and_eq_true] at hcr
      simpa [corrTop, RNode.arrowOf, RNode.getheight, RNode.getmax] using hcr.1
    cases hprev : st.prev with
    | none => rw [hprev] at hva; exact absurd hva (by simp [validArrow])
    | some pr =>
      rw [hprev] at hva
      obtain ⟨apid, hat⟩ := validArrow_some_true hva
      unfold moveArrowOverForkM at hc
      rw [hprev] at hc
      dsimp only at hc
      rw [hat] at hc
      dsimp only at hc
      simp only [Option.some.injEq, Prod.mk.injEq] at hc
      obtain ⟨hst, hnn⟩ := hc
      subst hst hnn
      obtain ⟨hhl, hhr, hhe⟩ := HOKR_fork.mp hn.hok
      obtain ⟨hbb, hbl, hbr⟩ := BOKR_fork.mp hn.bok
      have hcr := hn.corr
      rw [corrOK_decomp] at hcr
      simp only [Bool.and_eq_true] at hcr
      have hsub := hcr.2
      rw [corrSubR] at hsub
      simp only [Bool.and_eq_true] at hsub
      have hsubL : corrSubR (some pr) l = true := by
        have hx := hsub.1
        rw [corrOK_decomp, hprev] at hx
        simp only [Bool.and_eq_true] at hx
        exact hx.2
      have hsubRt : corrSubR (some pr) r = true := by
        have hx := hsub.2
        rw [corrOK_decomp, hprev] at hx
        simp only [Bool.and_eq_true] at hx
        exact hx.2
      have hprS := hpok pr (by simp [hprev, Option.mem_def])
      have hvalidP := corr_paths_valid hn.corr
      have hPeq : pathsOfR (RNode.fork h l r mx pin (some p)) =
          p :: (pathsOfR l ++ pathsOfR r) := by
        simp [pathsOfR]
      have hdist := hn.dist
      rw [hPeq, List.pairwise_cons] at hdist
      obtain ⟨hpne, hdist2⟩ := hdist
      have hfreshF : ∀ h2 mx2,
          validArrow (some pr) (p ++ [false]) h2 mx2 = false :=
        validArrow_extend_false hva [false] (by simp)
      have hfreshT : ∀ h2 mx2,
          validArrow (some pr) (p ++ [true]) h2 mx2 = false :=
        validArrow_extend_false hva [true] (by simp)
      have hne_mint : ∀ q ∈ pathsOfR l ++ pathsOfR r,
          q ≠ p ++ [false] ∧ q ≠ p ++ [true] := by
        intro q hq
        obtain ⟨h2, mx2, hqv⟩ := hvalidP q
          (by rw [hPeq]; exact List.mem_cons_of_mem _ hq)
        rw [hprev] at hqv
        constructor
        · intro hcon
          rw [hcon] at hqv
          exact absurd hqv (by simp [hfreshF h2 mx2])
        · intro hcon
          rw [hcon] at hqv
          exact absurd hqv (by simp [hfreshT h2 mx2])
      have hqnep : ∀ q ∈ pathsOfR l ++ pathsOfR r, q ≠ p := by
        intro q hq
        exact (hpne q hq).symm
      have hlistEq : pathsOfR (RNode.fork h
          (setArrowR l (some (p ++ [false]))) (setArrowR r (some (p ++ [true])))
          mx 0 none) =
          ((p ++ [false]) :: subPathsR l) ++ ((p ++ [true]) :: subPathsR r) := by
        simp [pathsOfR, pathsOfR_setArrowR]
      refine ⟨⟨?_, rfl, ?_, ?_⟩, ⟨?_, ?_, ?_, ?_, ?_⟩, ?_⟩
      · -- prevOK of the spliced shadow
        intro t ht
        simp only [Option.mem_def, Option.some.injEq] at ht
        subst ht
        exact ⟨(splice_fork_facts _ _ hat hprS.1 hprS.2 hhe hbb.1 hbb.2).1,
          (splice_fork_facts _ _ hat hprS.1 hprS.2 hhe hbb.1 hbb.2).2.1⟩
      · -- fresh
        intro q hq
        rw [hlistEq] at hq
        rcases List.mem_append.mp hq with hq | hq
        · rcases List.mem_cons.mp hq with rfl | hq
          · refine Or.inr ?_
            intro h2 mx2
            rw [hprev]
            exact hfreshF h2 mx2
          · refine Or.inl ?_
            rw [hPeq]
            exact List.mem_cons_of_mem _ (List.mem_append.mpr
              (Or.inl ((subPathsR_sub l).subset hq)))
        · rcases List.mem_cons.mp hq with rfl | hq
          · refine Or.inr ?_
            intro h2 mx2
            rw [hprev]
            exact hfreshT h2 mx2
          · refine Or.inl ?_
            rw [hPeq]
            exact List.mem_cons_of_mem _ (List.mem_append.mpr
              (Or.inr ((subPathsR_sub r).subset hq)))
      · -- frame
        intro q h2 mx2 hv hqP
        rw [hprev] at hv
        have hne : q ≠ p := by
          intro hcon
          exact hqP (by rw [hPeq, hcon]; exact List.mem_cons_self _ _)
        exact (splice_fork_facts _ _ hat hprS.1 hprS.2
          hhe hbb.1 hbb.2).2.2.2.2 q h2 mx2 hv hne
      · -- HOKR
        refine HOKR_fork.mpr ⟨HOKR_setArrowR hhl _, HOKR_setArrowR hhr _, ?_⟩
        rw [setArrowR_getheight, setArrowR_getheight]
        exact hhe
      · -- BOKR
        refine BOKR_fork.mpr ⟨?_, BOKR_setArrowR hbl _, BOKR_setArrowR hbr _⟩
        rw [setArrowR_getheight, setArrowR_getheight]
        exact hbb
      · -- corr
        rw [corrOK_decomp]
        simp only [Bool.and_eq_true]
        refine ⟨rfl, ?_⟩
        rw [corrSubR]
        simp only [Bool.and_eq_true]
        constructor
        · refine corrOK_setArrowR_of ?_ ?_
          · refine corrSubR_transport hsubL ?_
            intro q h2 mx2 hq hv
            refine (splice_fork_facts _ _ hat hprS.1 hprS.2
              hhe hbb.1 hbb.2).2.2.2.2 q h2 mx2 hv ?_
            exact hqnep q (List.mem_append.mpr
              (Or.inl ((subPathsR_sub l).subset hq)))
          · exact (splice_fork_facts _ _ hat hprS.1 hprS.2
              hhe hbb.1 hbb.2).2.2.1
        · refine corrOK_setArrowR_of ?_ ?_
          · refine corrSubR_transport hsubRt ?_
            intro q h2 mx2 hq hv
            refine (splice_fork_facts _ _ hat hprS.1 hprS.2
              hhe hbb.1 hbb.2).2.2.2.2 q h2 mx2 hv ?_
            exact hqnep q (List.mem_append.mpr
              (Or.inr ((subPathsR_sub r).subset hq)))
          · exact (splice_fork_facts _ _ hat hprS.1 hprS.2
              hhe hbb.1 hbb.2).2.2.2.1
      · -- goodR
        intro q hq
        refine hn.good q ?_
        simpa [arrowsInR, arrowsInR_setArrowR] using hq
      · -- pairwise distinct paths
        rw [hlistEq, List.pairwise_append]
        have hcross : ∀ a ∈ pathsOfR l, ∀ b ∈ pathsOfR r, a ≠ b := by
          have := hdist2
          rw [List.pairwise_append] at this
          exact this.2.2
        refine ⟨?_, ?_, ?_⟩
        · rw [List.pairwise_cons]
          constructor
          · intro q hq
            exact ((hne_mint q (List.mem_append.mpr
              (Or.inl ((subPathsR_sub l).subset hq)))).1).symm
          · exact hdist2.sublist ((subPathsR_sub l).trans
              (List.sublist_append_left _ _))
        · rw [List.pairwise_cons]
          constructor
          · intro q hq
            exact ((hne_mint q (List.mem_append.mpr
              (Or.inr ((subPathsR_sub r).subset hq)))).2).symm
          · exact hdist2.sublist ((subPathsR_sub r).trans
              (List.sublist_append_right _ _))
        · intro x hx y hy
          rcases List.mem_cons.mp hx with rfl | hx
          · rcases List.mem_cons.mp hy with rfl | hy
            · simp
            · exact ((hne_mint y (List.mem_append.mpr
                (Or.inr ((subPathsR_sub r).subset hy)))).1).symm
          · rcases List.mem_cons.mp hy with rfl | hy
            · exact (hne_mint x (List.mem_append.mpr
                (Or.inl ((subPathsR_sub l).subset hx)))).2
            · exact hcross x ((subPathsR_sub l).subset hx)
                y ((subPathsR_sub r).subset hy)
      · -- result shape
        exact ⟨setArrowR l (some (p ++ [false])), setArrowR r (some (p ++ [true])),
          0, rfl, setArrowR_getheight _ _, setArrowR_getheight _ _,
          setArrowR_getmax _ _, setArrowR_getmax _ _⟩

/-- The move guard of `insert` on a leaf with the identical key (lines
640-646): a present back-arrow runs `moveArrowOverLeaf` first, which
replaces the designated shadow arrow by a checked copy of the leaf. -/
theorem moveLeaf_case {cfg : Config} {st : MState} {k v : Bytes}
    {vid vlen pin : Nat} {ar : Option Path} {st1 : MState}
    (hc : (match ar with
        | some p => moveArrowOverLeafM st p k v vid
        | none => some st) = some st1)
    (hpok : prevOK st) (hn : NodeOK cfg st (.leaf k v vid vlen pin ar)) :
    Flow cfg st (pathsOfR (.leaf k v vid vlen pin ar)) st1 [] := by
  cases ar with
  | none =>
    simp only [Option.some.injEq] at hc
    subst hc
    exact ⟨hpok, rfl, by simp, fun _ _ _ hv _ => hv⟩
  | some p =>
    have hva : validArrow st.prev p 1 k := by
      have hcr := hn.corr
      simpa [corrOK] using hcr
    cases hprev : st.prev with
    | none => rw [hprev] at hva; exact absurd hva (by simp [validArrow])
    | some pr =>
      rw [hprev] at hva
      obtain ⟨apid, hat⟩ := validArrow_some_true hva
      unfold moveArrowOverLeafM at hc
      rw [hprev] at hc
      dsimp only at hc
      rw [hat] at hc
      dsimp only at hc
      simp only [Option.some.injEq] at hc
      subst hc
      have hprS := hpok pr (by simp [hprev, Option.mem_def])
      refine ⟨?_, rfl, by simp, ?_⟩
      · intro t ht
        simp only [Option.mem_def, Option.some.injEq] at ht
        subst ht
        exact prevReplace_hb hprS.1 hprS.2 hat ⟨rfl, rfl⟩ rfl
      · intro q h2 mx2 hv hqP
        rw [hprev] at hv
        have hne : q ≠ p := by
          intro hcon
          exact hqP (by rw [hcon]; simp [pathsOfR])
        exact validArrow_replace_ne _ hat hv hne

/-- `Peel` preserves the invariant: the peeled node passes both checks,
keeps the arrow's cached height, max and back-paths, the shadow stays
checked (the spliced shadow arrow only has its page id redirected), and
every designated shadow arrow survives unchanged. -/
theorem peel_spec (cfg : Config) (fuel : Nat) :
    ∀ (st : MState) (r r' : RNode) (st' : MState),
    peel cfg fuel st r = some (r', st') → prevOK st → NodeOK cfg st r →
    Flow cfg st (pathsOfR r) st' (pathsOfR r') ∧ NodeOK cfg st' r' ∧
      pathsOfR r' = pathsOfR r ∧ r'.getheight = r.getheight ∧
      r'.getmax = r.getmax ∧
      (∀ q h2 mx2, validArrow st.prev q h2 mx2 = true →
        validArrow st'.prev q h2 mx2 = true) := by
  induction fuel with
  | zero =>
    intro st r r' st' hc
    exact absurd hc (by simp [peel])
  | succ fuel ih =>
    intro st r r' st' hc hpok hn
    cases r with
    | leaf k v vid vlen pin ar =>
      simp only [peel, Option.some.injEq, Prod.mk.injEq] at hc
      obtain ⟨hr, hst⟩ := hc
      subst hr hst
      exact ⟨Flow.id hpok, hn, rfl, rfl, rfl, fun _ _ _ hv => hv⟩
    | fork h l rr m pin ar =>
      simp only [peel, Option.some.injEq, Prod.mk.injEq] at hc
      obtain ⟨hr, hst⟩ := hc
      subst hr hst
      exact ⟨Flow.id hpok, hn, rfl, rfl, rfl, fun _ _ _ hv => hv⟩
    | arr pid h mx ar =>
      simp only [peel] at hc
      have hg : GoodA cfg st.pageMap pid h mx :=
        hn.good (pid, h, mx) (by simp [arrowsInR])
      rcases hg with ⟨_, _, _, r0, rel, hdes, hhok, hbok, hh0, hm0, hpaths, hnested⟩
      rw [hdes] at hc
      dsimp only at hc
      have hsubnil : subPathsR r0 = [] := by
        have hd := pathsOfR_decomp r0
        rw [hpaths] at hd
        exact (List.append_eq_nil.mp hd.symm).2
      generalize hstx : (if rel = true then
          { st with pagesToRecycle := insert pid st.pagesToRecycle } else st) = stx at hc
      have hprevx : stx.prev = st.prev := by rw [← hstx]; split <;> rfl
      have hpmx : stx.pageMap = st.pageMap := by rw [← hstx]; split <;> rfl
      have hpokx : prevOK stx := by
        intro t ht
        rw [hprevx] at ht
        exact hpok t ht
      cases ar with
      | none =>
        have hnx : NodeOK cfg stx r0 :=
          ⟨hhok, hbok, by rw [hprevx]; exact corrOK_of_noPaths hpaths,
            by rw [hpmx]; exact hnested,
            by rw [hpaths]; exact List.Pairwise.nil⟩
        obtain ⟨fl, hnres, hpeq, hgh, hgm, hpres⟩ := ih stx r0 r' st' hc hpokx hnx
        have hnil : pathsOfR (RNode.arr pid h mx none) = ([] : List Path) := by
          simp [pathsOfR]
        refine ⟨?_, hnres, ?_, ?_, ?_, ?_⟩
        · rw [hnil]
          rw [hpaths] at fl
          exact (Flow.ofEq hprevx hpmx hpokx :
            Flow cfg st [] stx []).trans fl
        · rw [hpeq, hpaths, hnil]
        · rw [hgh, hh0]
          rfl
        · rw [hgm, hm0]
          rfl
        · intro q h2 mx2 hv
          refine hpres q h2 mx2 ?_
          rw [hprevx]
          exact hv
      | some p =>
        have hva : validArrow st.prev p h mx = true := by
          have hcr := hn.corr
          simpa [corrOK] using hcr
        rw [hprevx] at hc
        cases hprev : st.prev with
        | none => rw [hprev] at hva; exact absurd hva (by simp [validArrow])
        | some pr =>
          rw [hprev] at hva
          obtain ⟨apid, hat⟩ := validArrow_some_true hva
          rw [hprev] at hc
          dsimp only at hc
          rw [hat] at hc
          dsimp only at hc
          have hprS := hpok pr (by simp [hprev, Option.mem_def])
          have hpok2 : prevOK { stx with
              prev := some (prevReplace pr p (.arrow pid h mx)) } := by
            intro t ht
            simp only [Option.mem_def, Option.some.injEq] at ht
            subst ht
            exact prevReplace_hb hprS.1 hprS.2 hat ⟨rfl, rfl⟩ rfl
          have hpm2 : ({ stx with
              prev := some (prevReplace pr p (.arrow pid h mx)) } : MState).pageMap
              = st.pageMap := by rw [← hpmx]
          have hsub0 : ∀ pv, corrSubR pv r0 = true := by
            intro pv
            have hx : corrOK pv r0 = true := corrOK_of_noPaths hpaths
            rw [corrOK_decomp] at hx
            simp only [Bool.and_eq_true] at hx
            exact hx.2
          have hva2 : validArrow (some (prevReplace pr p (.arrow pid h mx)))
              p r0.getheight r0.getmax = true := by
            rw [hh0, hm0]
            exact validArrow_of_at (prevReplace_at _ hat)
          have hn2 : NodeOK cfg { stx with
              prev := some (prevReplace pr p (.arrow pid h mx)) }
              (setArrowR r0 (some p)) := by
            refine ⟨HOKR_setArrowR hhok _, BOKR_setArrowR hbok _, ?_, ?_, ?_⟩
            · exact corrOK_setArrowR_of (hsub0 _) hva2
            · intro q hq
              rw [arrowsInR_setArrowR] at hq
              rw [hpm2]
              exact hnested q hq
            · rw [pathsOfR_setArrowR, hsubnil]
              simp
          obtain ⟨fl, hnres, hpeq, hgh, hgm, hpres⟩ :=
            ih _ (setArrowR r0 (some p)) r' st' hc hpok2 hn2
          have hmid : pathsOfR (setArrowR r0 (some p)) = [p] := by
            rw [pathsOfR_setArrowR, hsubnil]
            simp
          have hinP : pathsOfR (RNode.arr pid h mx (some p)) = [p] := by
            simp [pathsOfR]
          refine ⟨?_, hnres, ?_, ?_, ?_, ?_⟩
          · rw [hinP]
            rw [hmid] at fl
            refine (Flow.trans ?_ fl :
              Flow cfg st [p] st' (pathsOfR r'))
            refine ⟨hpok2, hpm2, fun _ hq => Or.inl hq, ?_⟩
            intro q h2 mx2 hv hqP
            rw [hprev] at hv
            exact validArrow_replace_arrow hat q h2 mx2 hv
          · rw [hpeq, hmid, hinP]
          · rw [hgh, setArrowR_getheight, hh0]
            rfl
          · rw [hgm, setArrowR_getmax, hm0]
            rfl
          · intro q h2 mx2 hv
            exact hpres q h2 mx2 (validArrow_replace_arrow hat q h2 mx2 hv)

/-- A step run beside an untouched left sibling. -/
theorem Flow.addSibL {cfg : Config} {st st' : MState} {P P2 S : List Path}
    (o : Flow cfg st P st' P2) :
    Flow cfg st (S ++ P) st' (S ++ P2) := by
  refine ⟨o.pok, o.pmEq, ?_, ?_⟩
  · intro q hq
    rcases List.mem_append.mp hq with h | h
    · exact Or.inl (List.mem_append.mpr (Or.inl h))
    · rcases o.fresh q h with h2 | h2
      · exact Or.inl (List.mem_append.mpr (Or.inr h2))
      · exact Or.inr h2
  · intro q h2 mx2 hv hq
    exact o.frame q h2 mx2 hv (fun hmem => hq (List.mem_append.mpr (Or.inr hmem)))

/-- Assembling a checked fork of the phase from checked children with
disjoint back-paths. -/
theorem NodeOK_fork_mk {cfg : Config} {st : MState} {h : Nat} {l r : RNode}
    {mx : Bytes} {pin : Nat}
    (hl : NodeOK cfg st l) (hr : NodeOK cfg st r)
    (hh : h = 1 + maxu32 l.getheight r.getheight)
    (hb1 : r.getheight ≤ l.getheight + 1) (hb2 : l.getheight ≤ r.getheight + 1)
    (hdisj : ∀ q ∈ pathsOfR l, q ∉ pathsOfR r) :
    NodeOK cfg st (.fork h l r mx pin none) := by
  refine ⟨HOKR_fork.mpr ⟨hl.hok, hr.hok, hh⟩,
    BOKR_fork.mpr ⟨⟨hb1, hb2⟩, hl.bok, hr.bok⟩, ?_, ?_, ?_⟩
  · rw [corrOK_decomp]
    simp only [Bool.and_eq_true]
    refine ⟨rfl, ?_⟩
    rw [corrSubR]
    simp only [Bool.and_eq_true]
    exact ⟨hl.corr, hr.corr⟩
  · intro q hq
    rw [arrowsInR] at hq
    rcases List.mem_append.mp hq with hq | hq
    · exact hl.good q hq
    · exact hr.good q hq
  · have hEq : pathsOfR (RNode.fork h l r mx pin none) =
        pathsOfR l ++ pathsOfR r := by
      simp [pathsOfR]
    rw [hEq, List.pairwise_append]
    exact ⟨hl.dist, hr.dist, fun a ha b hb hab => hdisj a ha (hab ▸ hb)⟩

theorem insBalanceR_spec {cfg : Config} {fuel : Nat} {st : MState} {key : Bytes}
    {l1 r1 : RNode} {m1 : Bytes} {pin1 : Nat} {n2 : RNode} {st2 : MState}
    (hc : insBalanceR cfg fuel st key l1 r1 m1 pin1 = some (n2, st2))
    (hpok : prevOK st) (hnl : NodeOK cfg st l1) (hnr : NodeOK cfg st r1)
    (hdisj : ∀ q ∈ pathsOfR l1, ∀ s ∈ pathsOfR r1, q ≠ s)
    (hd1 : r1.getheight ≤ l1.getheight + 2)
    (hd2 : l1.getheight ≤ r1.getheight + 2) :
    Flow cfg st (pathsOfR l1 ++ pathsOfR r1) st2 (pathsOfR n2) ∧
    NodeOK cfg st2 n2 ∧
    (n2.getheight = 1 + maxu32 l1.getheight r1.getheight ∨
      (n2.getheight = maxu32 l1.getheight r1.getheight ∧
        (r1.getheight = l1.getheight + 2 ∨ l1.getheight = r1.getheight + 2))) := by
  have hdisjL : ∀ q ∈ pathsOfR l1, q ∉ pathsOfR r1 :=
    fun q hq hmem => hdisj q hq q hmem rfl
  unfold insBalanceR at hc
  dsimp only at hc
  by_cases hgt : r1.getheight > l1.getheight
  · rw [if_pos hgt] at hc
    by_cases hgt2 : r1.getheight - l1.getheight > 1
    · rw [if_pos hgt2] at hc
      cases hpe : peel cfg fuel st r1 with
      | none => rw [hpe] at hc; exact absurd hc (by simp)
      | some pr1 =>
        obtain ⟨nr0, st1⟩ := pr1
        rw [hpe] at hc
        dsimp only at hc
        obtain ⟨fl1, hn0, hpeq1, hgh1, hgm1, hpres1⟩ :=
          peel_spec cfg fuel st r1 nr0 st1 hpe hpok hnr
        have havoid1 : ∀ q ∈ pathsOfR l1, q ∉ pathsOfR nr0 := by
          intro q hq
          rw [hpeq1]
          exact hdisjL q hq
        have hnl1 : NodeOK cfg st1 l1 := hnl.transport fl1 hdisjL
        cases nr0 with
        | leaf k v vid vlen pin ar => exact absurd hc (by simp)
        | arr pid h mx ar => exact absurd hc (by simp)
        | fork nrh nrl0 nrr0 nrm nrpin nrar =>
          dsimp only at hc
          split at hc
          · exact absurd hc (by simp)
          · rename_i stm nr1 heqmv
            have hmove := moveFork_case heqmv fl1.pok hn0
            obtain ⟨fl2, hn1, nrl, nrr, npin, hsh, hLh, hRh, hLm, hRm⟩ := hmove
            subst hsh
            dsimp only at hc
            have hpokm : prevOK stm := fl2.pok
            have hnl2 : NodeOK cfg stm l1 := hnl1.transport fl2 havoid1
            have havoidm : ∀ q ∈ pathsOfR l1,
                q ∉ pathsOfR (RNode.fork nrh nrl nrr nrm npin none) :=
              sib_paths_avoid hnl1 fl2 havoid1
            have hnrl : NodeOK cfg stm nrl := NodeOK_fork_left hn1
            have hnrr : NodeOK cfg stm nrr := NodeOK_fork_right hn1
            have hhe0 : nrh = 1 + maxu32 nrl0.getheight nrr0.getheight :=
              (HOKR_fork.mp hn0.hok).2.2
            have hbb0 := (BOKR_fork.mp hn0.bok).1
            have hnrh : nrh = r1.getheight := hgh1
            have hnr1paths : pathsOfR (RNode.fork nrh nrl nrr nrm npin none) =
                pathsOfR nrl ++ pathsOfR nrr := by simp [pathsOfR]
            have havL : ∀ q ∈ pathsOfR l1, q ∉ pathsOfR nrl := by
              intro q hq hmem
              exact havoidm q hq (by rw [hnr1paths]; exact List.mem_append.mpr (Or.inl hmem))
            have havR : ∀ q ∈ pathsOfR l1, q ∉ pathsOfR nrr := by
              intro q hq hmem
              exact havoidm q hq (by rw [hnr1paths]; exact List.mem_append.mpr (Or.inr hmem))
            have hcross : ∀ a ∈ pathsOfR nrl, a ∉ pathsOfR nrr := by
              have hd := hn1.dist
              rw [hnr1paths, List.pairwise_append] at hd
              exact fun a ha hmem => hd.2.2 a ha a hmem rfl
            rw [hpeq1] at fl1
            rw [hpeq1, hnr1paths] at fl2
            have fl12 := fl1.trans fl2
            simp only [maxu32] at hhe0
            split at hc
            · rename_i hsingle
              simp only [Option.some.injEq, Prod.mk.injEq] at hc
              obtain ⟨hn2e, hst2e⟩ := hc
              subst hn2e hst2e
              refine ⟨?_, ?_, ?_⟩
              · refine fl12.addSibL.mono (fun q hq => hq) ?_
                intro q hq
                simp only [pathsOfR, Option.toList_none, List.nil_append,
                  List.append_nil, List.mem_append] at hq ⊢
                tauto
              · refine NodeOK_fork_mk (NodeOK_fork_mk hnl2 hnrl rfl ?_ ?_ havL)
                  hnrr rfl ?_ ?_ ?_
                · omega
                · omega
                · simp only [getheightR_fork, maxu32]
                  omega
                · simp only [getheightR_fork, maxu32]
                  omega
                · intro q hq
                  simp only [pathsOfR, Option.toList_none, List.nil_append,
                    List.mem_append] at hq
                  rcases hq with hq | hq
                  · exact havR q hq
                  · exact hcross q hq
              · simp only [getheightR_fork, maxu32]
                omega
            · rename_i hdouble
              cases hpe2 : peel cfg fuel stm nrl with
              | none => rw [hpe2] at hc; exact absurd hc (by simp)
              | some pr2 =>
                obtain ⟨nrl0b, st3⟩ := pr2
                rw [hpe2] at hc
                dsimp only at hc
                obtain ⟨fl3, hn3, hpeq3, hgh3, hgm3, hpres3⟩ :=
                  peel_spec cfg fuel stm nrl nrl0b st3 hpe2 hpokm hnrl
                have havoid3l : ∀ q ∈ pathsOfR l1, q ∉ pathsOfR nrl0b := by
                  intro q hq
                  rw [hpeq3]
                  exact havL q hq
                have havoid3r : ∀ q ∈ pathsOfR nrr, q ∉ pathsOfR nrl0b := by
                  intro q hq
                  rw [hpeq3]
                  exact fun hmem => hcross q hmem hq
                have hnl3 : NodeOK cfg st3 l1 := hnl2.transport fl3 havL
                have hnrr3 : NodeOK cfg st3 nrr :=
                  hnrr.transport fl3 (fun q hq hmem => hcross q hmem hq)
                cases nrl0b with
                | leaf k v vid vlen pin ar => exact absurd hc (by simp)
                | arr pid h mx ar => exact absurd hc (by simp)
                | fork qh ql0 qr0 qm qpin qar =>
                  dsimp only at hc
                  split at hc
                  · exact absurd hc (by simp)
                  · rename_i st4 nrl1 heqmv2
                    have hmove2 := moveFork_case heqmv2 fl3.pok hn3
                    obtain ⟨fl4, hn4, nrll, nrlr, qpin2, hsh2, hQLh, hQRh, hQLm, hQRm⟩ := hmove2
                    subst hsh2
                    dsimp only at hc
                    simp only [Option.some.injEq, Prod.mk.injEq] at hc
                    obtain ⟨hn2e, hst2e⟩ := hc
                    subst hn2e hst2e
                    have hnrl1paths : pathsOfR (RNode.fork qh nrll nrlr qm qpin2 none) =
                        pathsOfR nrll ++ pathsOfR nrlr := by simp [pathsOfR]
                    have havoid4l : ∀ q ∈ pathsOfR l1,
                        q ∉ pathsOfR (RNode.fork qh nrll nrlr qm qpin2 none) :=
                      sib_paths_avoid hnl3 fl4 havoid3l
                    have havoid4r : ∀ q ∈ pathsOfR nrr,
                        q ∉ pathsOfR (RNode.fork qh nrll nrlr qm qpin2 none) :=
                      sib_paths_avoid hnrr3 fl4 havoid3r
                    have hnl4 : NodeOK cfg st4 l1 := hnl3.transport fl4 havoid3l
                    have hnrr4 : NodeOK cfg st4 nrr := hnrr3.transport fl4 havoid3r
                    have hnrll : NodeOK cfg st4 nrll := NodeOK_fork_left hn4
                    have hnrlr : NodeOK cfg st4 nrlr := NodeOK_fork_right hn4
                    have hcross2 : ∀ a ∈ pathsOfR nrll, a ∉ pathsOfR nrlr := by
                      have hd := hn4.dist
                      rw [hnrl1paths, List.pairwise_append] at hd
                      exact fun a ha hmem => hd.2.2 a ha a hmem rfl
                    have hq0 : qh = 1 + maxu32 ql0.getheight qr0.getheight :=
                      (HOKR_fork.mp hn3.hok).2.2
                    have hqb := (BOKR_fork.mp hn3.bok).1
                    have hqh : qh = nrl.getheight := hgh3
                    rw [hpeq3] at fl3
                    rw [hpeq3, hnrl1paths] at fl4
                    have fl34 : Flow cfg stm (pathsOfR nrl ++ pathsOfR nrr) st4
                        ((pathsOfR nrll ++ pathsOfR nrlr) ++ pathsOfR nrr) :=
                      (fl3.trans fl4).addSib
                    have flAll := fl12.trans fl34
                    simp only [maxu32] at hq0
                    refine ⟨?_, ?_, ?_⟩
                    · refine flAll.addSibL.mono (fun q hq => hq) ?_
                      intro q hq
                      simp only [pathsOfR, Option.toList_none, List.nil_append,
                        List.append_nil, List.mem_append] at hq ⊢
                      tauto
                    · refine NodeOK_fork_mk
                        (NodeOK_fork_mk hnl4 hnrll rfl ?_ ?_ ?_)
                        (NodeOK_fork_mk hnrlr hnrr4 rfl ?_ ?_ ?_) rfl ?_ ?_ ?_
                      · omega
                      · omega
                      · intro q hq hmem
                        refine havoid4l q hq ?_
                        rw [hnrl1paths]
                        exact List.mem_append.mpr (Or.inl hmem)
                      · omega
                      · omega
                      · intro q hq hmem
                        refine havoid4r q hmem ?_
                        rw [hnrl1paths]
                        exact List.mem_append.mpr (Or.inr hq)
                      · simp only [getheightR_fork, maxu32]
                        omega
                      · simp only [getheightR_fork, maxu32]
                        omega
                      · intro q hq
                        simp only [pathsOfR, Option.toList_none, List.nil_append,
                          List.mem_append] at hq
                        intro hmem
                        simp only [pathsOfR, Option.toList_none, List.nil_append,
                          List.mem_append] at hmem
                        rcases hq with hq | hq
                        · rcases hmem with hmem | hmem
                          · refine havoid4l q hq ?_
                            rw [hnrl1paths]
                            exact List.mem_append.mpr (Or.inr hmem)
                          · exact havR q hq hmem
                        · rcases hmem with hmem | hmem
                          · exact hcross2 q hq hmem
                          · refine havoid4r q hmem ?_
                            rw [hnrl1paths]
                            exact List.mem_append.mpr (Or.inl hq)
                    · simp only [getheightR_fork, maxu32]
                      omega
    · rw [if_neg hgt2] at hc
      simp only [Option.some.injEq, Prod.mk.injEq] at hc
      obtain ⟨hn2e, hst2e⟩ := hc
      subst hn2e hst2e
      have hb1 : r1.getheight ≤ l1.getheight + 1 := by omega
      have hb2 : l1.getheight ≤ r1.getheight + 1 := by omega
      refine ⟨?_, NodeOK_fork_mk hnl hnr rfl hb1 hb2 hdisjL, Or.inl ?_⟩
      · refine (Flow.id hpok).mono (fun q hq => hq) ?_
        intro q hq
        simpa [pathsOfR] using hq
      · rfl
  · rw [if_neg hgt] at hc
    by_cases hgt3 : l1.getheight - r1.getheight > 1
    · rw [if_pos hgt3] at hc
      have hdisjR : ∀ q ∈ pathsOfR r1, q ∉ pathsOfR l1 :=
        fun q hq hmem => hdisj q hmem q hq rfl
      cases hpe : peel cfg fuel st l1 with
      | none => rw [hpe] at hc; exact absurd hc (by simp)
      | some pl1 =>
        obtain ⟨nl0, st1⟩ := pl1
        rw [hpe] at hc
        dsimp only at hc
        obtain ⟨fl1, hn0, hpeq1, hgh1, hgm1, hpres1⟩ :=
          peel_spec cfg fuel st l1 nl0 st1 hpe hpok hnl
        have havoid1 : ∀ q ∈ pathsOfR r1, q ∉ pathsOfR nl0 := by
          intro q hq
          rw [hpeq1]
          exact hdisjR q hq
        have hnr1 : NodeOK cfg st1 r1 := hnr.transport fl1 hdisjR
        cases nl0 with
        | leaf k v vid vlen pin ar => exact absurd hc (by simp)
        | arr pid h mx ar => exact absurd hc (by simp)
        | fork nlh nll0 nlr0 nlm nlpin nlar =>
          dsimp only at hc
          split at hc
          · exact absurd hc (by simp)
          · rename_i stm nl1 heqmv
            have hmove := moveFork_case heqmv fl1.pok hn0
            obtain ⟨fl2, hn1, nll, nlr, npin, hsh, hLh, hRh, hLm, hRm⟩ := hmove
            subst hsh
            dsimp only at hc
            have hpokm : prevOK stm := fl2.pok
            have hnr2 : NodeOK cfg stm r1 := hnr1.transport fl2 havoid1
            have havoidm : ∀ q ∈ pathsOfR r1,
                q ∉ pathsOfR (RNode.fork nlh nll nlr nlm npin none) :=
              sib_paths_avoid hnr1 fl2 havoid1
            have hnll : NodeOK cfg stm nll := NodeOK_fork_left hn1
            have hnlr : NodeOK cfg stm nlr := NodeOK_fork_right hn1
            have hhe0 : nlh = 1 + maxu32 nll0.getheight nlr0.getheight :=
              (HOKR_fork.mp hn0.hok).2.2
            have hbb0 := (BOKR_fork.mp hn0.bok).1
            have hnlh : nlh = l1.getheight := hgh1
            have hnl1paths : pathsOfR (RNode.fork nlh nll nlr nlm npin none) =
                pathsOfR nll ++ pathsOfR nlr := by simp [pathsOfR]
            have havL : ∀ q ∈ pathsOfR r1, q ∉ pathsOfR nll := by
              intro q hq hmem
              exact havoidm q hq (by rw [hnl1paths]; exact List.mem_append.mpr (Or.inl hmem))
            have havR : ∀ q ∈ pathsOfR r1, q ∉ pathsOfR nlr := by
              intro q hq hmem
              exact havoidm q hq (by rw [hnl1paths]; exact List.mem_append.mpr (Or.inr hmem))
            have hcross : ∀ a ∈ pathsOfR nll, a ∉ pathsOfR nlr := by
              have hd := hn1.dist
              rw [hnl1paths, List.pairwise_append] at hd
              exact fun a ha hmem => hd.2.2 a ha a hmem rfl
            rw [hpeq1] at fl1
            rw [hpeq1, hnl1paths] at fl2
            have fl12R : Flow cfg st (pathsOfR l1 ++ pathsOfR r1) stm
                ((pathsOfR nll ++ pathsOfR nlr) ++ pathsOfR r1) :=
              (fl1.trans fl2).addSib
            simp only [maxu32] at hhe0
            split at hc
            · rename_i hsingle
              simp only [Option.some.injEq, Prod.mk.injEq] at hc
              obtain ⟨hn2e, hst2e⟩ := hc
              subst hn2e hst2e
              refine ⟨?_, ?_, ?_⟩
              · refine fl12R.mono (fun q hq => hq) ?_
                intro q hq
                simp only [pathsOfR, Option.toList_none, List.nil_append,
                  List.append_nil, List.mem_append] at hq ⊢
                tauto
              · refine NodeOK_fork_mk hnll
                  (NodeOK_fork_mk hnlr hnr2 rfl ?_ ?_ ?_) rfl ?_ ?_ ?_
                · omega
                · omega
                · exact fun q hq hmem => havR q hmem hq
                · simp only [getheightR_fork, maxu32]
                  omega
                · simp only [getheightR_fork, maxu32]
                  omega
                · intro q hq
                  intro hmem
                  simp only [pathsOfR, Option.toList_none, List.nil_append,
                    List.mem_append] at hmem
                  rcases hmem with hmem | hmem
                  · exact hcross q hq hmem
                  · exact havL q hmem hq
              · simp only [getheightR_fork, maxu32]
                omega
            · rename_i hdouble
              cases hpe2 : peel cfg fuel stm nlr with
              | none => rw [hpe2] at hc; exact absurd hc (by simp)
              | some pl2 =>
                obtain ⟨nlr0b, st3⟩ := pl2
                rw [hpe2] at hc
                dsimp only at hc
                obtain ⟨fl3, hn3, hpeq3, hgh3, hgm3, hpres3⟩ :=
                  peel_spec cfg fuel stm nlr nlr0b st3 hpe2 hpokm hnlr
                have havoid3r1 : ∀ q ∈ pathsOfR r1, q ∉ pathsOfR nlr0b := by
                  intro q hq
                  rw [hpeq3]
                  exact havR q hq
                have havoid3ll : ∀ q ∈ pathsOfR nll, q ∉ pathsOfR nlr0b := by
                  intro q hq
                  rw [hpeq3]
                  exact hcross q hq
                have hnr3 : NodeOK cfg st3 r1 := hnr2.transport fl3 havR
                have hnll3 : NodeOK cfg st3 nll := hnll.transport fl3 hcross
                cases nlr0b with
                | leaf k v vid vlen pin ar => exact absurd hc (by simp)
                | arr pid h mx ar => exact absurd hc (by simp)
                | fork qh ql0 qr0 qm qpin qar =>
                  dsimp only at hc
                  split at hc
                  · exact absurd hc (by simp)
                  · rename_i st4 nlr1 heqmv2
                    have hmove2 := moveFork_case heqmv2 fl3.pok hn3
                    obtain ⟨fl4, hn4, nlrl, nlrr, qpin2, hsh2, hQLh, hQRh, hQLm, hQRm⟩ := hmove2
                    subst hsh2
                    dsimp only at hc
                    simp only [Option.some.injEq, Prod.mk.injEq] at hc
                    obtain ⟨hn2e, hst2e⟩ := hc
                    subst hn2e hst2e
                    have hnlr1paths : pathsOfR (RNode.fork qh nlrl nlrr qm qpin2 none) =
                        pathsOfR nlrl ++ pathsOfR nlrr := by simp [pathsOfR]
                    have havoid4r1 : ∀ q ∈ pathsOfR r1,
                        q ∉ pathsOfR (RNode.fork qh nlrl nlrr qm qpin2 none) :=
                      sib_paths_avoid hnr3 fl4 havoid3r1
                    have havoid4ll : ∀ q ∈ pathsOfR nll,
                        q ∉ pathsOfR (RNode.fork qh nlrl nlrr qm qpin2 none) :=
                      sib_paths_avoid hnll3 fl4 havoid3ll
                    have hnr4 : NodeOK cfg st4 r1 := hnr3.transport fl4 havoid3r1
                    have hnll4 : NodeOK cfg st4 nll := hnll3.transport fl4 havoid3ll
                    have hnlrl : NodeOK cfg st4 nlrl := NodeOK_fork_left hn4
                    have hnlrr : NodeOK cfg st4 nlrr := NodeOK_fork_right hn4
                    have hcross2 : ∀ a ∈ pathsOfR nlrl, a ∉ pathsOfR nlrr := by
                      have hd := hn4.dist
                      rw [hnlr1paths, List.pairwise_append] at hd
                      exact fun a ha hmem => hd.2.2 a ha a hmem rfl
                    have hq0 : qh = 1 + maxu32 ql0.getheight qr0.getheight :=
                      (HOKR_fork.mp hn3.hok).2.2
                    have hqb := (BOKR_fork.mp hn3.bok).1
                    have hqh : qh = nlr.getheight := hgh3
                    rw [hpeq3] at fl3
                    rw [hpeq3, hnlr1paths] at fl4
                    have fl34 : Flow cfg stm
                        ((pathsOfR nll ++ pathsOfR nlr) ++ pathsOfR r1) st4
                        ((pathsOfR nll ++ (pathsOfR nlrl ++ pathsOfR nlrr)) ++ pathsOfR r1) :=
                      ((fl3.trans fl4).addSibL).addSib
                    have flAll := fl12R.trans fl34
                    simp only [maxu32] at hq0
                    refine ⟨?_, ?_, ?_⟩
                    · refine flAll.mono (fun q hq => hq) ?_
                      intro q hq
                      simp only [pathsOfR, Option.toList_none, List.nil_append,
                        List.append_nil, List.mem_append] at hq ⊢
                      tauto
                    · refine NodeOK_fork_mk
                        (NodeOK_fork_mk hnll4 hnlrl rfl ?_ ?_ ?_)
                        (NodeOK_fork_mk hnlrr hnr4 rfl ?_ ?_ ?_) rfl ?_ ?_ ?_
                      · omega
                      · omega
                      · intro q hq hmem
                        refine havoid4ll q hq ?_
                        rw [hnlr1paths]
                        exact List.mem_append.mpr (Or.inl hmem)
                      · omega
                      · omega
                      · intro q hq hmem
                        refine havoid4r1 q hmem ?_
                        rw [hnlr1paths]
                        exact List.mem_append.mpr (Or.inr hq)
                      · simp only [getheightR_fork, maxu32]
                        omega
                      · simp only [getheightR_fork, maxu32]
                        omega
                      · intro q hq
                        simp only [pathsOfR, Option.toList_none, List.nil_append,
                          List.mem_append] at hq
                        intro hmem
                        simp only [pathsOfR, Option.toList_none, List.nil_append,
                          List.mem_append] at hmem
                        rcases hq with hq | hq
                        · rcases hmem with hmem | hmem
                          · refine havoid4ll q hq ?_
                            rw [hnlr1paths]
                            exact List.mem_append.mpr (Or.inr hmem)
                          · exact havL q hmem hq
                        · rcases hmem with hmem | hmem
                          · exact hcross2 q hq hmem
                          · refine havoid4r1 q hmem ?_
                            rw [hnlr1paths]
                            exact List.mem_append.mpr (Or.inl hq)
                    · simp only [getheightR_fork, maxu32]
                      omega
    · rw [if_neg hgt3] at hc
      simp only [Option.some.injEq, Prod.mk.injEq] at hc
      obtain ⟨hn2e, hst2e⟩ := hc
      subst hn2e hst2e
      have hb1 : r1.getheight ≤ l1.getheight + 1 := by omega
      have hb2 : l1.getheight ≤ r1.getheight + 1 := by omega
      refine ⟨?_, NodeOK_fork_mk hnl hnr rfl hb1 hb2 hdisjL, Or.inl ?_⟩
      · refine (Flow.id hpok).mono (fun q hq => hq) ?_
        intro q hq
        simpa [pathsOfR] using hq
      · rfl

end Avl3
